import Mathlib

/-!
# Verification of the generic search engine in `busquedas.py`

This file gives a shallow embedding of the search engine: the model /
problem abstraction (`ModeloBusqueda`, `ProblemaBusqueda`), the search tree
nodes (`Nodo`), Python's `heapq` priority queue as used by the engine, and
the five traversal strategies (`busqueda_ancho`, `busqueda_profundo`,
`busqueda_profundidad_iterativa`, `busqueda_costo_uniforme`,
`busqueda_A_estrella`).

Python loops are embedded as fuel-indexed recursive functions: a result
`none` means the fuel ran out, `some none` is the engine's `return None`
("no solution"), and `some (some n)` is a returned goal node.

The `num_nodos` counter in `ProblemaBusqueda` is measurement-only
instrumentation (it never influences control flow), so the goal predicate
is embedded as the pure function `meta` and the counter (together with the
`nodos_visitados` stamp on returned nodes) is not modelled.
-/

namespace Busquedas

/-- The search model: legal actions, transition function and local step
cost (`ModeloBusqueda` in the source).  Python numbers are embedded as
`Int`; non-negativity of costs is an explicit hypothesis where claims
need it. -/
structure ModeloBusqueda (σ α : Type) where
  acciones_legales : σ → List α
  sucesor : σ → α → σ
  costo_local : σ → α → Int

/-- The search problem: initial state, goal predicate and model
(`ProblemaBusqueda` in the source, with the measurement-only `num_nodos`
counter omitted). -/
structure ProblemaBusqueda (σ α : Type) where
  x0 : σ
  meta : σ → Bool
  modelo : ModeloBusqueda σ α

/-- Search-tree nodes (`Nodo` in the source).  A root node stores only its
state; a non-root node stores its state, the action used to reach it, its
parent and the local cost passed to the constructor.  The derived fields
`costo` and `profundidad` of the Python constructor become the recursive
functions below. -/
inductive Nodo (σ α : Type) where
  | root : σ → Nodo σ α
  | hijo : σ → α → Nodo σ α → Int → Nodo σ α

namespace Nodo

variable {σ α : Type}

/-- `self.estado`. -/
def estado : Nodo σ α → σ
  | root s => s
  | hijo s _ _ _ => s

/-- `self.accion` (None at the root). -/
def accion : Nodo σ α → Option α
  | root _ => none
  | hijo _ a _ _ => some a

/-- `self.padre` (None at the root). -/
def padre : Nodo σ α → Option (Nodo σ α)
  | root _ => none
  | hijo _ _ p _ => some p

/-- `self.costo = 0 if not padre else padre.costo + costo_local`. -/
def costo : Nodo σ α → Int
  | root _ => 0
  | hijo _ _ p c => p.costo + c

/-- `self.profundidad = 0 if not padre else padre.profundidad + 1`. -/
def profundidad : Nodo σ α → Nat
  | root _ => 0
  | hijo _ _ p _ => p.profundidad + 1

/-- `Nodo.expande`: one child per legal action, in the order returned by
`acciones_legales`. -/
def expande (n : Nodo σ α) (m : ModeloBusqueda σ α) : List (Nodo σ α) :=
  (m.acciones_legales n.estado).map
    (fun a => Nodo.hijo (m.sucesor n.estado a) a n (m.costo_local n.estado a))

/-- `Nodo.genera_plan`: the alternating state/action list
`[x0, a1, x1, ..., aT, xT]`, with states tagged `Sum.inl` and actions
tagged `Sum.inr`. -/
def genera_plan : Nodo σ α → List (σ ⊕ α)
  | root s => [Sum.inl s]
  | hijo s a p _ => p.genera_plan ++ [Sum.inr a, Sum.inl s]

/-- `Nodo.__lt__`: nodes compare by depth (used by `heapq` to break
priority ties). -/
def lt (n other : Nodo σ α) : Bool :=
  n.profundidad < other.profundidad

end Nodo

/-- Python's comparison on the `(priority, node)` tuples pushed on the
frontier: lexicographic, `int` priority first, then `Nodo.__lt__`
(depth). -/
def entryLt {σ α : Type} (e f : Int × Nodo σ α) : Bool :=
  e.1 < f.1 || (e.1 == f.1 && Nodo.lt e.2 f.2)

section Heapq

variable {E : Type}

/-- The loop of `heapq._siftdown(heap, 0, pos)`: bubble `newitem` up from
position `pos` while it is `lt` its parent, shifting parents down, and
write `newitem` at the final position. -/
def siftdownAux (lt : E → E → Bool) (newitem : E) : List E → Nat → List E
  | l, 0 => l.set 0 newitem
  | l, pos + 1 =>
    match l[pos / 2]? with
    | some parent =>
      if lt newitem parent then siftdownAux lt newitem (l.set (pos + 1) parent) (pos / 2)
      else l.set (pos + 1) newitem
    | none => l.set (pos + 1) newitem
termination_by _ pos => pos
decreasing_by simp_wf; omega

/-- `heapq.heappush`: append the item and sift it up from the last
position. -/
def heappush (lt : E → E → Bool) (heap : List E) (item : E) : List E :=
  siftdownAux lt item (heap ++ [item]) heap.length

/-- The descent loop of `heapq._siftup(heap, 0)`: move the smaller child
into the hole, walking the hole down to a leaf; returns the final list and
the final hole position. -/
def siftupLoop (lt : E → E → Bool) (l : List E) (pos : Nat) : List E × Nat :=
  if h : 2 * pos + 1 < l.length then
    if hr : 2 * pos + 2 < l.length then
      if lt (l.get ⟨2 * pos + 1, h⟩) (l.get ⟨2 * pos + 2, hr⟩) then
        siftupLoop lt (l.set pos (l.get ⟨2 * pos + 1, h⟩)) (2 * pos + 1)
      else
        siftupLoop lt (l.set pos (l.get ⟨2 * pos + 2, hr⟩)) (2 * pos + 2)
    else
      siftupLoop lt (l.set pos (l.get ⟨2 * pos + 1, h⟩)) (2 * pos + 1)
  else (l, pos)
termination_by l.length - pos
decreasing_by
  all_goals simp_wf
  all_goals omega

/-- `heapq._siftup(heap, 0)` as used by `heappop`: capture `heap[0]`,
run the descent loop from position 0, then sift the captured item up from
the final hole position. -/
def siftup (lt : E → E → Bool) (l : List E) : List E :=
  match l[0]? with
  | none => l
  | some newitem =>
    let r := siftupLoop lt l 0
    siftdownAux lt newitem r.1 r.2

/-- `heapq.heappop` on the non-empty heap `x :: xs`: remove the last
element; if the heap is still non-empty, the popped item is the old root
`x` and the last element replaces it at position 0 and is sifted up. -/
def heappop (lt : E → E → Bool) (x : E) (xs : List E) : E × List E :=
  match xs.getLast? with
  | none => (x, [])
  | some lastelt => (x, siftup lt (lastelt :: xs.dropLast))

/-- The binary-heap invariant maintained by `heapq`: no element is `lt`
its parent. -/
def IsHeap (lt : E → E → Bool) (l : List E) : Prop :=
  ∀ i x y, 0 < i → l[i]? = some x → l[(i - 1) / 2]? = some y → lt x y = false

/-- Precondition of the bubble-up `siftdownAux lt item l pos`: the heap
invariant holds away from the hole `pos`, the children of the hole are not
`lt` the item being placed, and the children of the hole are not `lt` the
hole's grandparent value. -/
def CasiHeapUp (lt : E → E → Bool) (l : List E) (pos : Nat) (item : E) : Prop :=
  (∀ i x y, 0 < i → i ≠ pos → (i - 1) / 2 ≠ pos →
    l[i]? = some x → l[(i - 1) / 2]? = some y → lt x y = false) ∧
  (∀ i x, 0 < i → (i - 1) / 2 = pos → l[i]? = some x → lt x item = false) ∧
  (∀ i x y, 0 < i → (i - 1) / 2 = pos → 0 < pos →
    l[i]? = some x → l[(pos - 1) / 2]? = some y → lt x y = false)

/-- Invariant of the descent loop `siftupLoop lt l pos`: the heap
invariant holds for all edges not entering the hole `pos`, and also for
edges entering the hole once it has left the root. -/
def CasiHeapDown (lt : E → E → Bool) (l : List E) (pos : Nat) : Prop :=
  (∀ i x y, 0 < i → (i - 1) / 2 ≠ pos →
    l[i]? = some x → l[(i - 1) / 2]? = some y → lt x y = false) ∧
  (∀ i x y, 0 < i → (i - 1) / 2 = pos → 0 < pos →
    l[i]? = some x → l[pos]? = some y → lt x y = false)

end Heapq

section Busquedas

variable {σ α : Type} [DecidableEq σ] [DecidableEq α]

/-- Overwriting update of a Python dict embedded as `σ → Option β`. -/
def updMap {β : Type} (V : σ → Option β) (s : σ) (b : β) : σ → Option β :=
  fun t => if t = s then some b else V t

/-- The body of the `for hijo in nodo.expande(...)` loop of
`busqueda_ancho`, over the remaining children: skip visited children,
return a goal child immediately, otherwise enqueue (at the right end) and
mark visited. -/
def ancho_hijos (pb : ProblemaBusqueda σ α) :
    List (Nodo σ α) → List (Nodo σ α) → (σ → Bool) →
      (Nodo σ α) ⊕ (List (Nodo σ α) × (σ → Bool))
  | [], frontera, visitados => Sum.inr (frontera, visitados)
  | h :: rest, frontera, visitados =>
    if visitados h.estado then ancho_hijos pb rest frontera visitados
    else if pb.meta h.estado then Sum.inl h
    else ancho_hijos pb rest (frontera ++ [h]) (fun s => s = h.estado || visitados s)

/-- The `while frontera` loop of `busqueda_ancho`; the head of the list is
the left end of the deque. -/
def ancho_loop (pb : ProblemaBusqueda σ α) :
    Nat → List (Nodo σ α) → (σ → Bool) → Option (Option (Nodo σ α))
  | 0, _, _ => none
  | _ + 1, [], _ => some none
  | fuel + 1, nodo :: resto, visitados =>
    match ancho_hijos pb (nodo.expande pb.modelo) resto visitados with
    | Sum.inl n => some (some n)
    | Sum.inr fv => ancho_loop pb fuel fv.1 fv.2

/-- `busqueda_ancho`. -/
def busqueda_ancho (pb : ProblemaBusqueda σ α) (fuel : Nat) :
    Option (Option (Nodo σ α)) :=
  if pb.meta pb.x0 then some (some (Nodo.root pb.x0))
  else ancho_loop pb fuel [Nodo.root pb.x0] (fun s => s = pb.x0)

/-- The child loop of `busqueda_profundo`: push a child (on the right,
i.e. the head of the list, which is the top of the stack) when its state
is unseen or seen only at a strictly greater depth. -/
def profundo_hijos :
    List (Nodo σ α) → List (Nodo σ α) → (σ → Option Nat) →
      List (Nodo σ α) × (σ → Option Nat)
  | [], frontera, visitados => (frontera, visitados)
  | h :: rest, frontera, visitados =>
    match visitados h.estado with
    | none => profundo_hijos rest (h :: frontera) (updMap visitados h.estado h.profundidad)
    | some d =>
      if d > h.profundidad then
        profundo_hijos rest (h :: frontera) (updMap visitados h.estado h.profundidad)
      else profundo_hijos rest frontera visitados

/-- The `while frontera` loop of `busqueda_profundo`; the head of the list
is the right end of the deque (the top of the stack). -/
def profundo_loop (pb : ProblemaBusqueda σ α) (max_profundidad : Option Int) :
    Nat → List (Nodo σ α) → (σ → Option Nat) → Option (Option (Nodo σ α))
  | 0, _, _ => none
  | _ + 1, [], _ => some none
  | fuel + 1, nodo :: resto, visitados =>
    if pb.meta nodo.estado then some (some nodo)
    else if max_profundidad = some (nodo.profundidad : Int) then
      profundo_loop pb max_profundidad fuel resto visitados
    else
      let fv := profundo_hijos (nodo.expande pb.modelo) resto visitados
      profundo_loop pb max_profundidad fuel fv.1 fv.2

/-- `busqueda_profundo` (with `max_profundidad : Option Int`, as in Python
where the bound is `None` or an `int`, possibly negative). -/
def busqueda_profundo (pb : ProblemaBusqueda σ α) (max_profundidad : Option Int)
    (fuel : Nat) : Option (Option (Nodo σ α)) :=
  profundo_loop pb max_profundidad fuel [Nodo.root pb.x0]
    (updMap (fun _ => none) pb.x0 0)

/-- The `for profundidad in range(max_profundidad)` loop of
`busqueda_profundidad_iterativa`, over the remaining depth bounds. -/
def bpi_loop (pb : ProblemaBusqueda σ α) (fuel : Nat) :
    List Int → Option (Option (Nodo σ α))
  | [] => some none
  | p :: rest =>
    match busqueda_profundo pb (some p) fuel with
    | none => none
    | some none => bpi_loop pb fuel rest
    | some (some n) => some (some n)

/-- `busqueda_profundidad_iterativa`: bounded depth-first search with
bounds `0, 1, ..., max_profundidad - 1` (Python's
`range(max_profundidad)`, empty when the ceiling is not positive). -/
def busqueda_profundidad_iterativa (pb : ProblemaBusqueda σ α)
    (max_profundidad : Int) (fuel : Nat) : Option (Option (Nodo σ α)) :=
  bpi_loop pb fuel ((List.range max_profundidad.toNat).map Int.ofNat)

/-- The child loop of `busqueda_costo_uniforme`: push `(hijo.costo, hijo)`
when the state is unseen or its recorded best cost is strictly greater
than the child's cumulative cost. -/
def uniforme_hijos :
    List (Nodo σ α) → List (Int × Nodo σ α) → (σ → Option Int) →
      List (Int × Nodo σ α) × (σ → Option Int)
  | [], frontera, visitados => (frontera, visitados)
  | h :: rest, frontera, visitados =>
    match visitados h.estado with
    | none =>
      uniforme_hijos rest (heappush entryLt frontera (h.costo, h))
        (updMap visitados h.estado h.costo)
    | some c =>
      if c > h.costo then
        uniforme_hijos rest (heappush entryLt frontera (h.costo, h))
          (updMap visitados h.estado h.costo)
      else uniforme_hijos rest frontera visitados

/-- The `while frontera` loop of `busqueda_costo_uniforme`. -/
def uniforme_loop (pb : ProblemaBusqueda σ α) :
    Nat → List (Int × Nodo σ α) → (σ → Option Int) → Option (Option (Nodo σ α))
  | 0, _, _ => none
  | _ + 1, [], _ => some none
  | fuel + 1, e :: resto, visitados =>
    let pr := heappop entryLt e resto
    if pb.meta pr.1.2.estado then some (some pr.1.2)
    else
      let fv := uniforme_hijos (pr.1.2.expande pb.modelo) pr.2 visitados
      uniforme_loop pb fuel fv.1 fv.2

/-- `busqueda_costo_uniforme`. -/
def busqueda_costo_uniforme (pb : ProblemaBusqueda σ α) (fuel : Nat) :
    Option (Option (Nodo σ α)) :=
  uniforme_loop pb fuel (heappush entryLt [] (0, Nodo.root pb.x0))
    (updMap (fun _ => none) pb.x0 0)

/-- The child loop of `busqueda_A_estrella`: identical to the uniform-cost
one except that the pushed priority is `hijo.costo + heuristica hijo`
(the visited map still records the raw `hijo.costo`). -/
def estrella_hijos (heuristica : Nodo σ α → Int) :
    List (Nodo σ α) → List (Int × Nodo σ α) → (σ → Option Int) →
      List (Int × Nodo σ α) × (σ → Option Int)
  | [], frontera, visitados => (frontera, visitados)
  | h :: rest, frontera, visitados =>
    match visitados h.estado with
    | none =>
      estrella_hijos heuristica rest
        (heappush entryLt frontera (h.costo + heuristica h, h))
        (updMap visitados h.estado h.costo)
    | some c =>
      if c > h.costo then
        estrella_hijos heuristica rest
          (heappush entryLt frontera (h.costo + heuristica h, h))
          (updMap visitados h.estado h.costo)
      else estrella_hijos heuristica rest frontera visitados

/-- The `while frontera` loop of `busqueda_A_estrella`. -/
def estrella_loop (pb : ProblemaBusqueda σ α) (heuristica : Nodo σ α → Int) :
    Nat → List (Int × Nodo σ α) → (σ → Option Int) → Option (Option (Nodo σ α))
  | 0, _, _ => none
  | _ + 1, [], _ => some none
  | fuel + 1, e :: resto, visitados =>
    let pr := heappop entryLt e resto
    if pb.meta pr.1.2.estado then some (some pr.1.2)
    else
      let fv := estrella_hijos heuristica (pr.1.2.expande pb.modelo) pr.2 visitados
      estrella_loop pb heuristica fuel fv.1 fv.2

/-- `busqueda_A_estrella`: the initial frontier entry is `(0, root)`
(the literal priority 0, not `heuristica` of the root). -/
def busqueda_A_estrella (pb : ProblemaBusqueda σ α) (heuristica : Nodo σ α → Int)
    (fuel : Nat) : Option (Option (Nodo σ α)) :=
  estrella_loop pb heuristica fuel (heappush entryLt [] (0, Nodo.root pb.x0))
    (updMap (fun _ => none) pb.x0 0)

end Busquedas

section Caminos

variable {σ α : Type} [DecidableEq σ] [DecidableEq α]

/-- Run a sequence of actions through the model's transition function. -/
def ejecuta (m : ModeloBusqueda σ α) : σ → List α → σ
  | s, [] => s
  | s, a :: as => ejecuta m (m.sucesor s a) as

/-- Each action of the sequence is legal in the state where it is taken. -/
def esCamino (m : ModeloBusqueda σ α) : σ → List α → Bool
  | _, [] => true
  | s, a :: as => decide (a ∈ m.acciones_legales s) && esCamino m (m.sucesor s a) as

/-- Sum of the local step costs along an action sequence. -/
def costoCamino (m : ModeloBusqueda σ α) : σ → List α → Int
  | _, [] => 0
  | s, a :: as => m.costo_local s a + costoCamino m (m.sucesor s a) as

/-- An action sequence is a solution when it is legal from the initial
state and its final state satisfies the goal predicate. -/
def EsSolucion (pb : ProblemaBusqueda σ α) (as : List α) : Prop :=
  esCamino pb.modelo pb.x0 as = true ∧ pb.meta (ejecuta pb.modelo pb.x0 as) = true

/-- The trace `[s0, a1, s1, ..., aT, sT]` of an action sequence, in the
shape produced by `Nodo.genera_plan`. -/
def despliega (m : ModeloBusqueda σ α) : σ → List α → List (σ ⊕ α)
  | s, [] => [Sum.inl s]
  | s, a :: as => Sum.inl s :: Sum.inr a :: despliega m (m.sucesor s a) as

/-- The nodes the engine can actually build: the root for the initial
state, and children produced by `expande` from a generated node via a
legal action. -/
inductive Generado (pb : ProblemaBusqueda σ α) : Nodo σ α → Prop
  | root : Generado pb (Nodo.root pb.x0)
  | hijo : ∀ {n : Nodo σ α} {a : α}, Generado pb n →
      a ∈ pb.modelo.acciones_legales n.estado →
      Generado pb (Nodo.hijo (pb.modelo.sucesor n.estado a) a n
        (pb.modelo.costo_local n.estado a))

/-- The action sequence leading from the root to a node. -/
def Nodo.acciones {σ α : Type} : Nodo σ α → List α
  | Nodo.root _ => []
  | Nodo.hijo _ a p _ => p.acciones ++ [a]

end Caminos

section Ejemplos

/-- Example model: the line graph `0 → 1 → 2 → ...`, where only state 0
offers an action; every step costs 1. -/
def modeloLinea : ModeloBusqueda Nat Nat where
  acciones_legales s := if s = 0 then [0] else []
  sucesor s _ := s + 1
  costo_local _ _ := 1

/-- Example problem on `modeloLinea` whose only goal is state 1, at
depth 1 from the initial state 0. -/
def problemaLinea : ProblemaBusqueda Nat Nat :=
  ⟨0, fun s => decide (s = 1), modeloLinea⟩

/-- Example problem on `modeloLinea` with an unsatisfiable goal
predicate; its reachable state space is `{0, 1}`. -/
def problemaSinMeta : ProblemaBusqueda Nat Nat :=
  ⟨0, fun _ => false, modeloLinea⟩

/-- A heuristic that is zero on every node produced by expansion but
nonzero on root nodes. -/
def heuristicaRara : Nodo Nat Nat → Int
  | Nodo.root _ => 7
  | Nodo.hijo _ _ _ _ => 0

end Ejemplos

section Alcance

variable {σ α : Type} [DecidableEq σ] [DecidableEq α]

/-- A state is reachable at depth exactly `k` when some legal action
sequence of length `k` leads to it from the initial state. -/
def AlcanzableEn (pb : ProblemaBusqueda σ α) (k : Nat) (s : σ) : Prop :=
  ∃ as : List α, as.length = k ∧ esCamino pb.modelo pb.x0 as = true ∧
    ejecuta pb.modelo pb.x0 as = s

/-- Some legal action sequence of length `k` reaches a goal state. -/
def MetaEnProfundidad (pb : ProblemaBusqueda σ α) (k : Nat) : Prop :=
  ∃ as : List α, as.length = k ∧ esCamino pb.modelo pb.x0 as = true ∧
    pb.meta (ejecuta pb.modelo pb.x0 as) = true

/-- Some legal action sequence of cost `c` reaches a goal state. -/
def MetaConCosto (pb : ProblemaBusqueda σ α) (c : Int) : Prop :=
  ∃ as : List α, esCamino pb.modelo pb.x0 as = true ∧
    pb.meta (ejecuta pb.modelo pb.x0 as) = true ∧
    costoCamino pb.modelo pb.x0 as = c

end Alcance

section InvariantesDFS

variable {σ α : Type} [DecidableEq σ] [DecidableEq α]

/-- A state entry of the depth-first visited map is discharged at depth
`k`: the state is not a goal and, unless `k` is exactly the depth bound,
all its successors have visited-map entries at most `k + 1`. -/
def DescartadoDFS (pb : ProblemaBusqueda σ α) (maxd : Option Int)
    (V : σ → Option Nat) (s : σ) (k : Nat) : Prop :=
  pb.meta s = false ∧ ((maxd = some (k : Int) → False) →
    ∀ a ∈ pb.modelo.acciones_legales s, ∃ k₂,
      V (pb.modelo.sucesor s a) = some k₂ ∧ k₂ ≤ k + 1)

/-- Invariant of the `busqueda_profundo` loop: frontier nodes are
engine-generated, the initial state's entry is 0, every frontier node's
state has an entry at most its depth, and every entry is either still
pending (witnessed by a frontier node at exactly that depth) or
discharged. -/
def InvDFS (pb : ProblemaBusqueda σ α) (maxd : Option Int)
    (F : List (Nodo σ α)) (V : σ → Option Nat) : Prop :=
  (∀ n ∈ F, Generado pb n) ∧
  V pb.x0 = some 0 ∧
  (∀ n ∈ F, ∃ k, V n.estado = some k ∧ k ≤ n.profundidad) ∧
  (∀ s k, V s = some k → (∃ n ∈ F, n.estado = s ∧ n.profundidad = k) ∨
    DescartadoDFS pb maxd V s k)

end InvariantesDFS

section InvariantesCU

variable {σ α : Type} [DecidableEq σ] [DecidableEq α]

/-- A state entry of a cost-ordered visited map is discharged: the state
is not a goal, and every successor has an entry of at most the entry's
value plus the local step cost. -/
def DescartadoCU (pb : ProblemaBusqueda σ α) (V : σ → Option Int)
    (s : σ) (c : Int) : Prop :=
  pb.meta s = false ∧ ∀ a ∈ pb.modelo.acciones_legales s, ∃ c₂,
    V (pb.modelo.sucesor s a) = some c₂ ∧ c₂ ≤ c + pb.modelo.costo_local s a

/-- Invariant of the cost-ordered loops (`uniforme_loop` and
`estrella_loop`), parametrised by the relation `pri` between a frontier
entry's priority and its node: the frontier is a binary heap for
`entryLt`, every entry carries an engine-generated node with a
conforming priority, the initial state has a non-positive entry, and
every visited entry is pending (witnessed by a frontier node of at most
that cost) or discharged. -/
def InvCU (pb : ProblemaBusqueda σ α) (pri : Int → Nodo σ α → Prop)
    (F : List (Int × Nodo σ α)) (V : σ → Option Int) : Prop :=
  IsHeap entryLt F ∧
  (∀ e ∈ F, Generado pb e.2 ∧ pri e.1 e.2) ∧
  (∃ c₀, V pb.x0 = some c₀ ∧ c₀ ≤ 0) ∧
  (∀ s c, V s = some c →
    (∃ e ∈ F, e.2.estado = s ∧ e.2.costo ≤ c) ∨ DescartadoCU pb V s c)

end InvariantesCU

section Medidas

variable {σ α : Type} [DecidableEq σ] [DecidableEq α]

/-- Number of states of `S` that have no entry in the visited map. -/
def sinEntrada {β : Type} (S : Finset σ) (V : σ → Option β) : Nat :=
  (S.filter (fun s => (V s).isNone = true)).card

/-- Total recorded depth over `S` of a depth-valued visited map. -/
def sumaProf (S : Finset σ) (V : σ → Option Nat) : Nat :=
  S.sum (fun s => (V s).getD 0)

/-- Total recorded (truncated) cost over `S` of a cost-valued visited
map. -/
def sumaCosto (S : Finset σ) (V : σ → Option Int) : Nat :=
  S.sum (fun s => ((V s).getD 0).toNat)

end Medidas

section EstadosCU

variable {σ α : Type} [DecidableEq σ] [DecidableEq α]

/-- The frontier/visited pairs reachable by the `busqueda_costo_uniforme`
loop: the initial pair, plus one expansion step whenever the popped node
is not a goal. -/
inductive UcsEstado (pb : ProblemaBusqueda σ α) :
    List (Int × Nodo σ α) → (σ → Option Int) → Prop where
  | init : UcsEstado pb (heappush entryLt [] (0, Nodo.root pb.x0))
      (updMap (fun _ => none) pb.x0 0)
  | step : ∀ (e : Int × Nodo σ α) (resto : List (Int × Nodo σ α))
      (V : σ → Option Int), UcsEstado pb (e :: resto) V →
      pb.meta (heappop entryLt e resto).1.2.estado = false →
      UcsEstado pb
        (uniforme_hijos ((heappop entryLt e resto).1.2.expande pb.modelo)
          (heappop entryLt e resto).2 V).1
        (uniforme_hijos ((heappop entryLt e resto).1.2.expande pb.modelo)
          (heappop entryLt e resto).2 V).2

/-- The frontier/visited pairs reachable by the `busqueda_A_estrella`
loop. -/
inductive EstrellaEstado (pb : ProblemaBusqueda σ α)
    (heuristica : Nodo σ α → Int) :
    List (Int × Nodo σ α) → (σ → Option Int) → Prop where
  | init : EstrellaEstado pb heuristica (heappush entryLt [] (0, Nodo.root pb.x0))
      (updMap (fun _ => none) pb.x0 0)
  | step : ∀ (e : Int × Nodo σ α) (resto : List (Int × Nodo σ α))
      (V : σ → Option Int), EstrellaEstado pb heuristica (e :: resto) V →
      pb.meta (heappop entryLt e resto).1.2.estado = false →
      EstrellaEstado pb heuristica
        (estrella_hijos heuristica ((heappop entryLt e resto).1.2.expande pb.modelo)
          (heappop entryLt e resto).2 V).1
        (estrella_hijos heuristica ((heappop entryLt e resto).1.2.expande pb.modelo)
          (heappop entryLt e resto).2 V).2

end EstadosCU

section EjemplosDiamante

/-- A one-step branching model on `Nat`: from state 0 the actions 0 and 1
lead to states 1 and 2 respectively; no action is legal elsewhere; every
step costs 1. -/
def modeloDiamante : ModeloBusqueda Nat Nat where
  acciones_legales s := if s = 0 then [0, 1] else []
  sucesor s a := s + a + 1
  costo_local _ _ := 1

/-- The branching model with an unreachable goal state 5. -/
def problemaDiamante : ProblemaBusqueda Nat Nat :=
  { x0 := 0, meta := fun s => decide (s = 5), modelo := modeloDiamante }

end EjemplosDiamante

section CaminosLemas

variable {σ α : Type} [DecidableEq σ] [DecidableEq α]
variable {m : ModeloBusqueda σ α} {pb : ProblemaBusqueda σ α}

theorem ejecuta_append (m : ModeloBusqueda σ α) (s : σ) (as bs : List α) :
    ejecuta m s (as ++ bs) = ejecuta m (ejecuta m s as) bs := by
  induction as generalizing s with
  | nil => rfl
  | cons a as ih => simp [ejecuta, ih]

theorem esCamino_append (m : ModeloBusqueda σ α) (s : σ) (as bs : List α) :
    esCamino m s (as ++ bs) = (esCamino m s as && esCamino m (ejecuta m s as) bs) := by
  induction as generalizing s with
  | nil => rfl
  | cons a as ih => simp [esCamino, ejecuta, ih, Bool.and_assoc]

theorem costoCamino_append (m : ModeloBusqueda σ α) (s : σ) (as bs : List α) :
    costoCamino m s (as ++ bs) = costoCamino m s as + costoCamino m (ejecuta m s as) bs := by
  induction as generalizing s with
  | nil => simp [costoCamino, ejecuta]
  | cons a as ih => simp [costoCamino, ejecuta, ih, add_assoc]

theorem despliega_append (m : ModeloBusqueda σ α) (s : σ) (as : List α) (a : α) :
    despliega m s (as ++ [a]) =
      despliega m s as ++ [Sum.inr a, Sum.inl (ejecuta m s (as ++ [a]))] := by
  induction as generalizing s with
  | nil => simp [despliega, ejecuta]
  | cons b bs ih => simp [despliega, ejecuta, ih]

theorem costoCamino_nonneg (hc : ∀ s a, 0 ≤ m.costo_local s a) (s : σ) (as : List α) :
    0 ≤ costoCamino m s as := by
  induction as generalizing s with
  | nil => simp [costoCamino]
  | cons a as ih => simpa [costoCamino] using add_nonneg (hc s a) (ih _)

theorem mem_expande {n h : Nodo σ α} :
    h ∈ n.expande m ↔ ∃ a ∈ m.acciones_legales n.estado,
      h = Nodo.hijo (m.sucesor n.estado a) a n (m.costo_local n.estado a) := by
  simp [Nodo.expande, List.mem_map, eq_comm]

theorem Generado.de_expande {n h : Nodo σ α} (hg : Generado pb n)
    (hm : h ∈ n.expande pb.modelo) : Generado pb h := by
  rcases mem_expande.1 hm with ⟨a, ha, rfl⟩
  exact Generado.hijo hg ha

/-- The basic correspondence between an engine-generated node and the
action sequence it represents. -/
theorem Generado.spec {n : Nodo σ α} (h : Generado pb n) :
    esCamino pb.modelo pb.x0 n.acciones = true ∧
    ejecuta pb.modelo pb.x0 n.acciones = n.estado ∧
    costoCamino pb.modelo pb.x0 n.acciones = n.costo ∧
    n.acciones.length = n.profundidad ∧
    n.genera_plan = despliega pb.modelo pb.x0 n.acciones := by
  induction h with
  | root => simp [Nodo.acciones, Nodo.estado, Nodo.costo, Nodo.profundidad,
      esCamino, ejecuta, costoCamino, Nodo.genera_plan, despliega]
  | hijo hg ha ih =>
    obtain ⟨h1, h2, h3, h4, h5⟩ := ih
    refine ⟨?_, ?_, ?_, ?_, ?_⟩
    · rw [Nodo.acciones, esCamino_append, h1, h2]
      simp [esCamino, ha]
    · rw [Nodo.acciones, ejecuta_append, h2]
      simp [ejecuta, Nodo.estado]
    · rw [Nodo.acciones, costoCamino_append, h2, h3]
      simp [costoCamino, Nodo.costo]
    · simp [Nodo.acciones, h4, Nodo.profundidad]
    · rw [Nodo.genera_plan, h5, Nodo.acciones, despliega_append, ejecuta_append, h2]
      simp [ejecuta, Nodo.estado]

theorem Generado.esCamino {n : Nodo σ α} (h : Generado pb n) :
    esCamino pb.modelo pb.x0 n.acciones = true := h.spec.1

theorem Generado.ejecuta {n : Nodo σ α} (h : Generado pb n) :
    ejecuta pb.modelo pb.x0 n.acciones = n.estado := h.spec.2.1

theorem Generado.costo {n : Nodo σ α} (h : Generado pb n) :
    costoCamino pb.modelo pb.x0 n.acciones = n.costo := h.spec.2.2.1

theorem Generado.profundidad {n : Nodo σ α} (h : Generado pb n) :
    n.acciones.length = n.profundidad := h.spec.2.2.2.1

theorem Generado.costo_nonneg {n : Nodo σ α}
    (hc : ∀ s a, 0 ≤ pb.modelo.costo_local s a) (h : Generado pb n) :
    0 ≤ n.costo := h.costo ▸ costoCamino_nonneg hc _ _

/-- A generated node whose state is a goal witnesses a solution of
exactly its cost and depth. -/
theorem Generado.solucion {n : Nodo σ α} (h : Generado pb n)
    (hm : pb.meta n.estado = true) :
    EsSolucion pb n.acciones ∧ costoCamino pb.modelo pb.x0 n.acciones = n.costo ∧
      n.acciones.length = n.profundidad :=
  ⟨⟨h.esCamino, h.ejecuta ▸ hm⟩, h.costo, h.profundidad⟩

end CaminosLemas

section HeapPerm

variable {E : Type} {lt : E → E → Bool}

theorem cons_set_perm_left (x a : E) :
    ∀ (t : List E) (m : Nat), m < t.length → (x :: t.set m a).Perm (a :: t.set m x)
  | b :: u, 0, _ => List.Perm.swap a x u
  | b :: u, m + 1, h => by
    simp only [List.set]
    have hm : m < u.length := by simp only [List.length_cons] at h; omega
    exact (List.Perm.swap b x _).trans
      (((cons_set_perm_left x a u m hm).cons b).trans (List.Perm.swap a b _))

theorem cons_set_perm_right (x : E) :
    ∀ (t : List E) (m : Nat) (v : E), t[m]? = some v → (v :: t.set m x).Perm (x :: t)
  | b :: u, 0, v, h => by
    simp only [List.getElem?_cons_zero, Option.some_inj] at h
    subst h
    exact List.Perm.swap x b u
  | b :: u, m + 1, v, h => by
    simp only [List.getElem?_cons_succ] at h
    simp only [List.set]
    exact (List.Perm.swap b v _).trans
      (((cons_set_perm_right x u m v h).cons b).trans (List.Perm.swap x b _))

/-- Writing `x` into position `i` of a list whose position `j` has been
overwritten with the old value of position `i` is, up to permutation, the
same as writing `x` into position `j` directly. -/
theorem set_set_perm :
    ∀ (l : List E) (i j : Nat) (v x : E), i ≠ j → l[i]? = some v → j < l.length →
      ((l.set j v).set i x).Perm (l.set j x)
  | [], i, j, v, x, _, hv, _ => by simp at hv
  | a :: t, 0, 0, v, x, hij, _, _ => absurd rfl hij
  | a :: t, 0, j + 1, v, x, _, hv, hj => by
    simp only [List.getElem?_cons_zero, Option.some_inj] at hv
    subst hv
    simp only [List.set]
    exact cons_set_perm_left x a t j (by simp only [List.length_cons] at hj; omega)
  | a :: t, i + 1, 0, v, x, _, hv, _ => by
    simp only [List.getElem?_cons_succ] at hv
    simp only [List.set]
    exact cons_set_perm_right x t i v hv
  | a :: t, i + 1, j + 1, v, x, hij, hv, hj => by
    simp only [List.getElem?_cons_succ] at hv
    simp only [List.set]
    exact (set_set_perm t i j v x (fun h => hij (by omega)) hv
      (by simp only [List.length_cons] at hj; omega)).cons a

theorem set_self : ∀ (l : List E) (i : Nat) (x : E), l[i]? = some x → l.set i x = l
  | [], i, x, h => by simp at h
  | a :: t, 0, x, h => by
    simp only [List.getElem?_cons_zero, Option.some_inj] at h
    simp [h]
  | a :: t, i + 1, x, h => by
    simp only [List.getElem?_cons_succ] at h
    simp [List.set, set_self t i x h]

theorem siftdownAux_perm (item : E) :
    ∀ (pos : Nat) (l : List E), pos < l.length →
      (siftdownAux lt item l pos).Perm (l.set pos item) := by
  intro pos
  induction pos using Nat.strong_induction_on with
  | _ pos ih =>
    match pos with
    | 0 => intro l _; simp [siftdownAux]
    | pos + 1 =>
      intro l h
      have hp : pos / 2 < l.length := by omega
      have hparent : l[pos / 2]? = some l[pos / 2] := List.getElem?_eq_getElem hp
      rw [siftdownAux, hparent]
      show (if lt item l[pos / 2] = true then
          siftdownAux lt item (l.set (pos + 1) l[pos / 2]) (pos / 2)
        else l.set (pos + 1) item).Perm (l.set (pos + 1) item)
      by_cases hlt : lt item l[pos / 2] = true
      · rw [if_pos hlt]
        refine ((ih (pos / 2) (by omega) _ (by simpa using hp)).trans ?_)
        exact set_set_perm l (pos / 2) (pos + 1) _ item (by omega) hparent h
      · rw [if_neg hlt]

theorem heappush_perm (l : List E) (item : E) :
    (heappush lt l item).Perm (item :: l) := by
  have h : l.length < (l ++ [item]).length := by simp
  have h2 := @siftdownAux_perm E lt item l.length (l ++ [item]) h
  rw [set_self (l ++ [item]) l.length item (by simp)] at h2
  exact h2.trans (by simpa using (@List.perm_middle E item l []))

theorem siftupLoop_length (l : List E) (pos : Nat) :
    (siftupLoop lt l pos).1.length = l.length := by
  induction l, pos using siftupLoop.induct lt with
  | case1 l pos h hr hlt ih =>
    rw [siftupLoop, dif_pos h, dif_pos hr, if_pos hlt]
    simpa using ih
  | case2 l pos h hr hlt ih =>
    rw [siftupLoop, dif_pos h, dif_pos hr, if_neg hlt]
    simpa using ih
  | case3 l pos h hr ih =>
    rw [siftupLoop, dif_pos h, dif_neg (by omega)]
    simpa using ih
  | case4 l pos h =>
    rw [siftupLoop, dif_neg (by omega)]

theorem siftupLoop_lt_length (l : List E) (pos : Nat) (h0 : pos < l.length) :
    (siftupLoop lt l pos).2 < l.length := by
  induction l, pos using siftupLoop.induct lt with
  | case1 l pos h hr hlt ih =>
    rw [siftupLoop, dif_pos h, dif_pos hr, if_pos hlt]
    simpa using ih (by simpa using h)
  | case2 l pos h hr hlt ih =>
    rw [siftupLoop, dif_pos h, dif_pos hr, if_neg hlt]
    simpa using ih (by simpa using hr)
  | case3 l pos h hr ih =>
    rw [siftupLoop, dif_pos h, dif_neg (by omega)]
    simpa using ih (by simpa using h)
  | case4 l pos h =>
    rw [siftupLoop, dif_neg (by omega)]
    exact h0

theorem siftupLoop_leaf (l : List E) (pos : Nat) :
    l.length ≤ 2 * (siftupLoop lt l pos).2 + 1 := by
  induction l, pos using siftupLoop.induct lt with
  | case1 l pos h hr hlt ih =>
    rw [siftupLoop, dif_pos h, dif_pos hr, if_pos hlt]
    simpa using ih
  | case2 l pos h hr hlt ih =>
    rw [siftupLoop, dif_pos h, dif_pos hr, if_neg hlt]
    simpa using ih
  | case3 l pos h hr ih =>
    rw [siftupLoop, dif_pos h, dif_neg (by omega)]
    simpa using ih
  | case4 l pos h =>
    rw [siftupLoop, dif_neg (by omega)]
    omega

theorem siftupLoop_set_perm (v : E) (l : List E) (pos : Nat) (h0 : pos < l.length) :
    (((siftupLoop lt l pos).1).set (siftupLoop lt l pos).2 v).Perm (l.set pos v) := by
  induction l, pos using siftupLoop.induct lt with
  | case1 l pos h hr hlt ih =>
    rw [siftupLoop, dif_pos h, dif_pos hr, if_pos hlt]
    refine (ih (by simpa using h)).trans ?_
    exact set_set_perm l (2 * pos + 1) pos _ v (by omega)
      (List.getElem?_eq_getElem h) h0
  | case2 l pos h hr hlt ih =>
    rw [siftupLoop, dif_pos h, dif_pos hr, if_neg hlt]
    refine (ih (by simpa using hr)).trans ?_
    exact set_set_perm l (2 * pos + 2) pos _ v (by omega)
      (List.getElem?_eq_getElem hr) h0
  | case3 l pos h hr ih =>
    rw [siftupLoop, dif_pos h, dif_neg (by omega)]
    refine (ih (by simpa using h)).trans ?_
    exact set_set_perm l (2 * pos + 1) pos _ v (by omega)
      (List.getElem?_eq_getElem h) h0
  | case4 l pos h =>
    rw [siftupLoop, dif_neg (by omega)]

theorem siftup_perm (l : List E) : (siftup lt l).Perm l := by
  unfold siftup
  match h0 : l[0]? with
  | none => exact List.Perm.refl l
  | some newitem =>
    have hl : 0 < l.length := by
      cases l with
      | nil => simp at h0
      | cons a t => simp
    have h1 := @siftdownAux_perm E lt newitem (siftupLoop lt l 0).2 (siftupLoop lt l 0).1
      (by rw [siftupLoop_length]; exact siftupLoop_lt_length l 0 hl)
    refine h1.trans ?_
    refine (siftupLoop_set_perm newitem l 0 hl).trans ?_
    rw [set_self l 0 newitem h0]

theorem heappop_perm (x : E) (xs : List E) :
    ((heappop lt x xs).1 :: (heappop lt x xs).2).Perm (x :: xs) := by
  unfold heappop
  match hx : xs.getLast? with
  | none =>
    have : xs = [] := by
      cases xs with
      | nil => rfl
      | cons a t => simp [List.getLast?_eq_getLast_of_ne_nil] at hx
    simp [this]
  | some lastelt =>
    simp only
    refine List.Perm.cons x ?_
    refine (siftup_perm _).trans ?_
    have hd : xs.dropLast ++ [lastelt] = xs := List.dropLast_append_getLast? _ (by rw [hx]; rfl)
    have hp : (lastelt :: xs.dropLast).Perm (xs.dropLast ++ [lastelt]) := by
      simpa using (@List.perm_middle E lastelt xs.dropLast []).symm
    conv_rhs => rw [← hd]
    exact hp

end HeapPerm

section HeapInv

variable {E : Type} {lt : E → E → Bool}

theorem isHeap_nil : IsHeap lt ([] : List E) := by
  intro i x y _ hx
  simp at hx

theorem mem_of_getElem? {l : List E} {i : Nat} {x : E} (h : l[i]? = some x) : x ∈ l := by
  rcases List.getElem?_eq_some.1 h with ⟨hi, rfl⟩
  exact List.getElem_mem hi

theorem lt_length_of_getElem? {l : List E} {i : Nat} {x : E} (h : l[i]? = some x) :
    i < l.length := (List.getElem?_eq_some.1 h).1

/-- In a binary heap, no element is `lt` the root. -/
theorem isHeap_min
    (Hirr : ∀ a : E, lt a a = false)
    (Htrans : ∀ a b c : E, lt a b = false → lt b c = false → lt a c = false)
    {l : List E} (hl : IsHeap lt l) {y : E} (hy : l[0]? = some y) :
    ∀ (i : Nat) (x : E), l[i]? = some x → lt x y = false := by
  intro i
  induction i using Nat.strong_induction_on with
  | _ i ih =>
    intro x hx
    match i with
    | 0 =>
      rw [hy] at hx
      cases hx
      exact Hirr y
    | i + 1 =>
      have hi : i + 1 < l.length := lt_length_of_getElem? hx
      have hq : (i + 1 - 1) / 2 < l.length := by omega
      have hp : l[(i + 1 - 1) / 2]? = some (l.get ⟨(i + 1 - 1) / 2, hq⟩) := by
        simpa using List.getElem?_eq_getElem hq
      have h1 := hl (i + 1) x _ (by omega) hx hp
      have h2 := ih ((i + 1 - 1) / 2) (by omega) _ hp
      exact Htrans x _ y h1 h2

theorem isHeap_min_mem
    (Hirr : ∀ a : E, lt a a = false)
    (Htrans : ∀ a b c : E, lt a b = false → lt b c = false → lt a c = false)
    {l : List E} (hl : IsHeap lt l) {y : E} (hy : l[0]? = some y) :
    ∀ x ∈ l, lt x y = false := by
  intro x hx
  rcases List.mem_iff_getElem?.1 hx with ⟨i, hi⟩
  exact isHeap_min Hirr Htrans hl hy i x hi

/-- Bubble-up restores the heap invariant from its `CasiHeapUp`
precondition. -/
theorem siftdownAux_isHeap
    (Hirr : ∀ a : E, lt a a = false)
    (Hasym : ∀ a b : E, lt a b = true → lt b a = false)
    (Htrans : ∀ a b c : E, lt a b = false → lt b c = false → lt a c = false)
    (item : E) :
    ∀ (pos : Nat) (l : List E), pos < l.length → CasiHeapUp lt l pos item →
      IsHeap lt (siftdownAux lt item l pos) := by
  intro pos
  induction pos using Nat.strong_induction_on with
  | _ pos ih =>
    match pos with
    | 0 =>
      intro l hlen hpre
      obtain ⟨hA, hB, _⟩ := hpre
      rw [siftdownAux]
      intro i x y hi hx hy
      rw [List.getElem?_set_ne (by omega)] at hx
      by_cases hp0 : (i - 1) / 2 = 0
      · rw [hp0, List.getElem?_set_eq_of_lt _ hlen] at hy
        cases hy
        exact hB i x hi hp0 hx
      · rw [List.getElem?_set_ne (Ne.symm hp0)] at hy
        exact hA i x y hi (by omega) hp0 hx hy
    | pos + 1 =>
      intro l hlen hpre
      obtain ⟨hA, hB, hE⟩ := hpre
      have hq : pos / 2 < l.length := by omega
      have hparent : l[pos / 2]? = some l[pos / 2] := List.getElem?_eq_getElem hq
      rw [siftdownAux, hparent]
      show IsHeap lt (if lt item l[pos / 2] = true then
          siftdownAux lt item (l.set (pos + 1) l[pos / 2]) (pos / 2)
        else l.set (pos + 1) item)
      by_cases hlt : lt item l[pos / 2] = true
      · rw [if_pos hlt]
        refine ih (pos / 2) (by omega) _ (by simpa using hq) ⟨?_, ?_, ?_⟩
        · -- heap away from the new hole pos / 2
          intro i x y hi hiq hpq hx hy
          by_cases hih : i = pos + 1
          · exact absurd (by omega : (i - 1) / 2 = pos / 2) (hih ▸ hpq)
          · rw [List.getElem?_set_ne (Ne.symm hih)] at hx
            by_cases hph : (i - 1) / 2 = pos + 1
            · rw [hph, List.getElem?_set_eq_of_lt _ hlen] at hy
              cases hy
              exact hE i x _ hi hph (by omega) hx hparent
            · rw [List.getElem?_set_ne (Ne.symm hph)] at hy
              exact hA i x y hi hih hph hx hy
        · -- children of the new hole are not lt the item
          intro i x hi hiq hx
          by_cases hih : i = pos + 1
          · rw [hih, List.getElem?_set_eq_of_lt _ hlen] at hx
            cases hx
            exact Hasym _ _ hlt
          · rw [List.getElem?_set_ne (Ne.symm hih)] at hx
            have h1 := hA i x (l[pos / 2]) hi hih (by omega) hx (by rw [hiq]; exact hparent)
            exact Htrans x _ item h1 (Hasym _ _ hlt)
        · -- children of the new hole are not lt its parent value
          intro i x y hi hiq hq0 hx hy
          have hgp : (pos / 2 - 1) / 2 ≠ pos + 1 := by omega
          rw [List.getElem?_set_ne (Ne.symm hgp)] at hy
          have hup : lt l[pos / 2] y = false :=
            hA (pos / 2) _ y hq0 (by omega) (by omega) hparent hy
          by_cases hih : i = pos + 1
          · rw [hih, List.getElem?_set_eq_of_lt _ hlen] at hx
            cases hx
            exact hup
          · rw [List.getElem?_set_ne (Ne.symm hih)] at hx
            have h1 := hA i x (l[pos / 2]) hi hih (by omega) hx (by rw [hiq]; exact hparent)
            exact Htrans x _ y h1 hup
      · rw [if_neg hlt]
        have hstop : lt item l[pos / 2] = false := by
          simpa using hlt
        intro i x y hi hx hy
        by_cases hih : i = pos + 1
        · rw [hih, List.getElem?_set_eq_of_lt _ hlen] at hx
          cases hx
          have hph : (i - 1) / 2 ≠ pos + 1 := by omega
          rw [hih] at hy
          rw [List.getElem?_set_ne (by omega)] at hy
          have : (pos + 1 - 1) / 2 = pos / 2 := by omega
          rw [this, hparent] at hy
          cases hy
          exact hstop
        · rw [List.getElem?_set_ne (Ne.symm hih)] at hx
          by_cases hph : (i - 1) / 2 = pos + 1
          · rw [hph, List.getElem?_set_eq_of_lt _ hlen] at hy
            cases hy
            exact hB i x hi hph hx
          · rw [List.getElem?_set_ne (Ne.symm hph)] at hy
            exact hA i x y hi hih hph hx hy

/-- Pushing onto a heap preserves the heap invariant. -/
theorem heappush_isHeap
    (Hirr : ∀ a : E, lt a a = false)
    (Hasym : ∀ a b : E, lt a b = true → lt b a = false)
    (Htrans : ∀ a b c : E, lt a b = false → lt b c = false → lt a c = false)
    (l : List E) (item : E) (hl : IsHeap lt l) : IsHeap lt (heappush lt l item) := by
  unfold heappush
  refine siftdownAux_isHeap Hirr Hasym Htrans item l.length (l ++ [item]) (by simp) ⟨?_, ?_, ?_⟩
  · intro i x y hi hil hpl hx hy
    have hi2 : i < l.length := by
      have := lt_length_of_getElem? hx
      simp only [List.length_append, List.length_cons, List.length_nil] at this
      omega
    have hp2 : (i - 1) / 2 < l.length := by omega
    rw [List.getElem?_append, if_pos hi2] at hx
    rw [List.getElem?_append, if_pos hp2] at hy
    exact hl i x y hi hx hy
  · intro i x hi hip hx
    have := lt_length_of_getElem? hx
    simp only [List.length_append, List.length_cons, List.length_nil] at this
    omega
  · intro i x y hi hip hp0 hx hy
    have := lt_length_of_getElem? hx
    simp only [List.length_append, List.length_cons, List.length_nil] at this
    omega

/-- The descent loop preserves its `CasiHeapDown` invariant. -/
theorem siftupLoop_casiHeap
    (Hirr : ∀ a : E, lt a a = false)
    (Hasym : ∀ a b : E, lt a b = true → lt b a = false)
    (Htrans : ∀ a b c : E, lt a b = false → lt b c = false → lt a c = false)
    (l : List E) (pos : Nat) :
    CasiHeapDown lt l pos →
      CasiHeapDown lt (siftupLoop lt l pos).1 (siftupLoop lt l pos).2 := by
  induction l, pos using siftupLoop.induct lt with
  | case1 l pos h hr hlt ih =>
    intro hpre
    rw [siftupLoop, dif_pos h, dif_pos hr, if_pos hlt]
    refine ih ?_
    obtain ⟨hA, hD⟩ := hpre
    have hpos : pos < l.length := by omega
    have hc : l[2 * pos + 1]? = some l[2 * pos + 1] := List.getElem?_eq_getElem h
    have hcr : l[2 * pos + 2]? = some l[2 * pos + 2] := List.getElem?_eq_getElem hr
    have hpp : l[pos]? = some l[pos] := List.getElem?_eq_getElem hpos
    constructor
    · intro i x y hi hic hx hy
      by_cases hip : i = pos
      · subst hip
        have hi0 : 0 < i := hi
        rw [List.getElem?_set_eq_of_lt _ hpos] at hx
        cases hx
        have hgp : (i - 1) / 2 ≠ i := by omega
        rw [List.getElem?_set_ne (by omega)] at hy
        have h1 : lt l[2 * i + 1] l[i] = false :=
          hD (2 * i + 1) _ _ (by omega) (by omega) hi hc hpp
        have h2 : lt l[i] y = false := hA i _ y hi (by omega) hpp hy
        exact Htrans _ _ _ h1 h2
      · rw [List.getElem?_set_ne (Ne.symm hip)] at hx
        by_cases hpp2 : (i - 1) / 2 = pos
        · rw [hpp2, List.getElem?_set_eq_of_lt _ hpos] at hy
          cases hy
          have hior : i = 2 * pos + 1 ∨ i = 2 * pos + 2 := by omega
          rcases hior with rfl | rfl
          · rw [hc] at hx
            cases hx
            exact Hirr _
          · rw [hcr] at hx
            cases hx
            exact Hasym _ _ hlt
        · rw [List.getElem?_set_ne (Ne.symm hpp2)] at hy
          exact hA i x y hi hpp2 hx hy
    · intro i x y hi hic _ hx hy
      have hip : i ≠ pos := by omega
      have hcp : 2 * pos + 1 ≠ pos := by omega
      rw [List.getElem?_set_ne (Ne.symm hip)] at hx
      rw [List.getElem?_set_ne (Ne.symm hcp), hc] at hy
      cases hy
      exact hA i x _ hi (by omega) hx (by rw [hic]; exact List.getElem?_eq_getElem h)
  | case2 l pos h hr hlt ih =>
    intro hpre
    rw [siftupLoop, dif_pos h, dif_pos hr, if_neg hlt]
    refine ih ?_
    obtain ⟨hA, hD⟩ := hpre
    have hpos : pos < l.length := by omega
    have hc : l[2 * pos + 1]? = some l[2 * pos + 1] := List.getElem?_eq_getElem h
    have hcr : l[2 * pos + 2]? = some l[2 * pos + 2] := List.getElem?_eq_getElem hr
    have hpp : l[pos]? = some l[pos] := List.getElem?_eq_getElem hpos
    have hstop : lt l[2 * pos + 1] l[2 * pos + 2] = false := by simpa using hlt
    constructor
    · intro i x y hi hic hx hy
      by_cases hip : i = pos
      · subst hip
        rw [List.getElem?_set_eq_of_lt _ hpos] at hx
        cases hx
        rw [List.getElem?_set_ne (by omega)] at hy
        have h1 : lt l[2 * i + 2] l[i] = false :=
          hD (2 * i + 2) _ _ (by omega) (by omega) hi hcr hpp
        have h2 : lt l[i] y = false := hA i _ y hi (by omega) hpp hy
        exact Htrans _ _ _ h1 h2
      · rw [List.getElem?_set_ne (Ne.symm hip)] at hx
        by_cases hpp2 : (i - 1) / 2 = pos
        · rw [hpp2, List.getElem?_set_eq_of_lt _ hpos] at hy
          cases hy
          have hior : i = 2 * pos + 1 ∨ i = 2 * pos + 2 := by omega
          rcases hior with rfl | rfl
          · rw [hc] at hx
            cases hx
            exact hstop
          · rw [hcr] at hx
            cases hx
            exact Hirr _
        · rw [List.getElem?_set_ne (Ne.symm hpp2)] at hy
          exact hA i x y hi hpp2 hx hy
    · intro i x y hi hic _ hx hy
      have hip : i ≠ pos := by omega
      have hcp : 2 * pos + 2 ≠ pos := by omega
      rw [List.getElem?_set_ne (Ne.symm hip)] at hx
      rw [List.getElem?_set_ne (Ne.symm hcp), hcr] at hy
      cases hy
      exact hA i x _ hi (by omega) hx (by rw [hic]; exact List.getElem?_eq_getElem hr)
  | case3 l pos h hr ih =>
    intro hpre
    rw [siftupLoop, dif_pos h, dif_neg (by omega)]
    refine ih ?_
    obtain ⟨hA, hD⟩ := hpre
    have hpos : pos < l.length := by omega
    have hc : l[2 * pos + 1]? = some l[2 * pos + 1] := List.getElem?_eq_getElem h
    have hpp : l[pos]? = some l[pos] := List.getElem?_eq_getElem hpos
    constructor
    · intro i x y hi hic hx hy
      by_cases hip : i = pos
      · subst hip
        rw [List.getElem?_set_eq_of_lt _ hpos] at hx
        cases hx
        rw [List.getElem?_set_ne (by omega)] at hy
        have h1 : lt l[2 * i + 1] l[i] = false :=
          hD (2 * i + 1) _ _ (by omega) (by omega) hi hc hpp
        have h2 : lt l[i] y = false := hA i _ y hi (by omega) hpp hy
        exact Htrans _ _ _ h1 h2
      · rw [List.getElem?_set_ne (Ne.symm hip)] at hx
        by_cases hpp2 : (i - 1) / 2 = pos
        · rw [hpp2, List.getElem?_set_eq_of_lt _ hpos] at hy
          cases hy
          have hior : i = 2 * pos + 1 ∨ i = 2 * pos + 2 := by omega
          rcases hior with rfl | rfl
          · rw [hc] at hx
            cases hx
            exact Hirr _
          · have := lt_length_of_getElem? hx
            omega
        · rw [List.getElem?_set_ne (Ne.symm hpp2)] at hy
          exact hA i x y hi hpp2 hx hy
    · intro i x y hi hic _ hx hy
      have hip : i ≠ pos := by omega
      have hcp : 2 * pos + 1 ≠ pos := by omega
      rw [List.getElem?_set_ne (Ne.symm hip)] at hx
      rw [List.getElem?_set_ne (Ne.symm hcp), hc] at hy
      cases hy
      exact hA i x _ hi (by omega) hx (by rw [hic]; exact List.getElem?_eq_getElem h)
  | case4 l pos h =>
    intro hpre
    rw [siftupLoop, dif_neg (by omega)]
    exact hpre

/-- `_siftup` restores the heap invariant when only the edges out of the
root may be violated. -/
theorem siftup_isHeap
    (Hirr : ∀ a : E, lt a a = false)
    (Hasym : ∀ a b : E, lt a b = true → lt b a = false)
    (Htrans : ∀ a b c : E, lt a b = false → lt b c = false → lt a c = false)
    (l : List E) (hpre : CasiHeapDown lt l 0) : IsHeap lt (siftup lt l) := by
  unfold siftup
  match h0 : l[0]? with
  | none =>
    have hnil : l = [] := by
      cases l with
      | nil => rfl
      | cons a t => simp at h0
    subst hnil
    exact isHeap_nil
  | some newitem =>
    have hl : 0 < l.length := lt_length_of_getElem? h0
    have hloop := siftupLoop_casiHeap Hirr Hasym Htrans l 0 hpre
    have hlen := @siftupLoop_length E lt l 0
    have hleaf := @siftupLoop_leaf E lt l 0
    refine siftdownAux_isHeap Hirr Hasym Htrans newitem _ _ ?_ ⟨?_, ?_, ?_⟩
    · rw [hlen]
      exact siftupLoop_lt_length l 0 hl
    · intro i x y hi _ hpp hx hy
      exact hloop.1 i x y hi hpp hx hy
    · intro i x hi hip hx
      have := lt_length_of_getElem? hx
      rw [hlen] at this
      omega
    · intro i x y hi hip _ hx hy
      have := lt_length_of_getElem? hx
      rw [hlen] at this
      omega

theorem getElem?_dropLast_cons {xs : List E} {j : Nat} (hj : j < xs.dropLast.length) :
    xs.dropLast[j]? = xs[j]? := by
  rw [List.dropLast_eq_take]
  exact List.getElem?_take_of_lt (by simpa [List.dropLast_eq_take] using hj)

/-- Popping from a heap preserves the heap invariant. -/
theorem heappop_isHeap
    (Hirr : ∀ a : E, lt a a = false)
    (Hasym : ∀ a b : E, lt a b = true → lt b a = false)
    (Htrans : ∀ a b c : E, lt a b = false → lt b c = false → lt a c = false)
    (x : E) (xs : List E) (hl : IsHeap lt (x :: xs)) : IsHeap lt (heappop lt x xs).2 := by
  unfold heappop
  match hx : xs.getLast? with
  | none => exact isHeap_nil
  | some lastelt =>
    refine siftup_isHeap Hirr Hasym Htrans _ ⟨?_, ?_⟩
    · intro i z y hi hpp hz hy
      have hi2 := lt_length_of_getElem? hz
      simp only [List.length_cons] at hi2
      have hp2 := lt_length_of_getElem? hy
      simp only [List.length_cons] at hp2
      have hz2 : (x :: xs)[i]? = some z := by
        match i, hi with
        | i + 1, _ =>
          simp only [List.getElem?_cons_succ] at hz ⊢
          rw [← getElem?_dropLast_cons (by omega)]
          exact hz
      have hy2 : (x :: xs)[(i - 1) / 2]? = some y := by
        match hpy : (i - 1) / 2, hpp with
        | j + 1, _ =>
          rw [hpy] at hy
          simp only [List.getElem?_cons_succ] at hy ⊢
          rw [← getElem?_dropLast_cons (lt_length_of_getElem? hy)]
          exact hy
      exact hl i z y hi hz2 hy2
    · intro i z y hi hpp h0
      exact absurd h0 (lt_irrefl 0)

end HeapInv

section EntryLt

variable {σ α : Type}

theorem entryLt_irrefl (e : Int × Nodo σ α) : entryLt e e = false := by
  simp [entryLt, Nodo.lt]

theorem entryLt_asymm (e f : Int × Nodo σ α) :
    entryLt e f = true → entryLt f e = false := by
  simp only [entryLt, Nodo.lt, Bool.or_eq_true, Bool.and_eq_true, beq_iff_eq,
    decide_eq_true_eq, Bool.or_eq_false_iff, Bool.and_eq_false_iff,
    beq_eq_false_iff_ne, ne_eq, decide_eq_false_iff_not]
  omega

theorem entryLt_nlt_trans (a b c : Int × Nodo σ α) :
    entryLt a b = false → entryLt b c = false → entryLt a c = false := by
  simp only [entryLt, Nodo.lt, Bool.or_eq_false_iff, Bool.and_eq_false_iff,
    beq_iff_eq, beq_eq_false_iff_ne, ne_eq, decide_eq_false_iff_not]
  omega

end EntryLt

section EquivalenciaEstrella

variable {σ α : Type} [DecidableEq σ] [DecidableEq α]

theorem estrella_hijos_zero (hs : List (Nodo σ α)) (F : List (Int × Nodo σ α))
    (V : σ → Option Int) :
    estrella_hijos (fun _ => 0) hs F V = uniforme_hijos hs F V := by
  induction hs generalizing F V with
  | nil => rfl
  | cons h rest ih =>
    rw [estrella_hijos, uniforme_hijos, add_zero]
    cases V h.estado with
    | none => simpa using ih _ _
    | some c =>
      by_cases hc : c > h.costo
      · simp only [hc, if_pos]
        exact ih _ _
      · simp only [hc, if_neg, if_false]
        exact ih _ _

theorem estrella_loop_zero (pb : ProblemaBusqueda σ α) :
    ∀ (fuel : Nat) (F : List (Int × Nodo σ α)) (V : σ → Option Int),
      estrella_loop pb (fun _ => 0) fuel F V = uniforme_loop pb fuel F V := by
  intro fuel
  induction fuel with
  | zero => intro F V; rfl
  | succ fuel ih =>
    intro F V
    match F with
    | [] => rfl
    | e :: resto =>
      rw [estrella_loop, uniforme_loop]
      by_cases hm : pb.meta (heappop entryLt e resto).1.2.estado = true
      · simp only [hm, if_pos]
      · simp only [hm, if_neg, if_false]
        rw [estrella_hijos_zero, ih]

theorem estrella_hijos_congr (h₁ h₂ : Nodo σ α → Int)
    (hagree : ∀ (s : σ) (a : α) (p : Nodo σ α) (c : Int),
      h₁ (Nodo.hijo s a p c) = h₂ (Nodo.hijo s a p c)) :
    ∀ (hs : List (Nodo σ α)), (∀ n ∈ hs, n.padre.isSome) →
      ∀ (F : List (Int × Nodo σ α)) (V : σ → Option Int),
        estrella_hijos h₁ hs F V = estrella_hijos h₂ hs F V := by
  intro hs
  induction hs with
  | nil => intro _ F V; rfl
  | cons h rest ih =>
    intro hall F V
    have hpadre : h.padre.isSome := hall h (by simp)
    have hval : h₁ h = h₂ h := by
      match h with
      | Nodo.root s => simp [Nodo.padre] at hpadre
      | Nodo.hijo s a p c => exact hagree s a p c
    have hrest : ∀ n ∈ rest, n.padre.isSome := fun n hn => hall n (by simp [hn])
    rw [estrella_hijos, estrella_hijos, hval]
    cases V h.estado with
    | none => simpa using ih hrest _ _
    | some c =>
      by_cases hc : c > h.costo
      · simp only [hc, if_pos]
        exact ih hrest _ _
      · simp only [hc, if_neg, if_false]
        exact ih hrest _ _

theorem estrella_loop_congr (pb : ProblemaBusqueda σ α) (h₁ h₂ : Nodo σ α → Int)
    (hagree : ∀ (s : σ) (a : α) (p : Nodo σ α) (c : Int),
      h₁ (Nodo.hijo s a p c) = h₂ (Nodo.hijo s a p c)) :
    ∀ (fuel : Nat) (F : List (Int × Nodo σ α)) (V : σ → Option Int),
      estrella_loop pb h₁ fuel F V = estrella_loop pb h₂ fuel F V := by
  intro fuel
  induction fuel with
  | zero => intro F V; rfl
  | succ fuel ih =>
    intro F V
    match F with
    | [] => rfl
    | e :: resto =>
      rw [estrella_loop, estrella_loop]
      by_cases hm : pb.meta (heappop entryLt e resto).1.2.estado = true
      · simp only [hm, if_pos]
      · simp only [hm, if_neg, if_false]
        rw [estrella_hijos_congr h₁ h₂ hagree _ ?_, ih]
        intro n hn
        rcases mem_expande.1 hn with ⟨a, _, rfl⟩
        simp [Nodo.padre]

end EquivalenciaEstrella

section Mem

variable {E : Type} {lt : E → E → Bool}

theorem heappush_mem {z e : E} {F : List E} (h : z ∈ heappush lt F e) :
    z = e ∨ z ∈ F := by
  have := (@heappush_perm E lt F e).mem_iff.1 h
  simpa using this

theorem mem_heappush_self (e : E) (F : List E) : e ∈ heappush lt F e :=
  (@heappush_perm E lt F e).mem_iff.2 (by simp)

theorem mem_heappush_of_mem {z : E} (e : E) {F : List E} (h : z ∈ F) :
    z ∈ heappush lt F e :=
  (@heappush_perm E lt F e).mem_iff.2 (by simp [h])

theorem heappop_fst (x : E) (xs : List E) : (heappop lt x xs).1 = x := by
  unfold heappop
  cases xs.getLast? <;> rfl

theorem heappop_mem_snd {z x : E} {xs : List E} (h : z ∈ (heappop lt x xs).2) :
    z ∈ x :: xs := by
  refine (@heappop_perm E lt x xs).mem_iff.1 ?_
  simp [h]

theorem heappop_length (x : E) (xs : List E) :
    (heappop lt x xs).2.length = xs.length := by
  have := (@heappop_perm E lt x xs).length_eq
  simpa using this

theorem heappush_length (F : List E) (e : E) :
    (heappush lt F e).length = F.length + 1 := by
  have := (@heappush_perm E lt F e).length_eq
  simpa using this

end Mem

section Devueltos

variable {σ α : Type} [DecidableEq σ] [DecidableEq α] {pb : ProblemaBusqueda σ α}

theorem ancho_hijos_cases :
    ∀ (hs F : List (Nodo σ α)) (vis : σ → Bool),
      (∀ n, ancho_hijos pb hs F vis = Sum.inl n →
        n ∈ hs ∧ pb.meta n.estado = true) ∧
      (∀ F2 vis2, ancho_hijos pb hs F vis = Sum.inr (F2, vis2) →
        ∀ n ∈ F2, n ∈ F ∨ n ∈ hs) := by
  intro hs
  induction hs with
  | nil =>
    intro F vis
    constructor
    · intro n h
      cases h
    · intro F2 vis2 h n hn
      rw [ancho_hijos] at h
      cases h
      exact Or.inl hn
  | cons h rest ih =>
    intro F vis
    constructor
    · intro n hres
      rw [ancho_hijos] at hres
      by_cases hv : vis h.estado = true
      · rw [if_pos hv] at hres
        have := (ih F vis).1 n hres
        exact ⟨List.mem_cons_of_mem _ this.1, this.2⟩
      · rw [if_neg hv] at hres
        by_cases hm : pb.meta h.estado = true
        · rw [if_pos hm] at hres
          cases hres
          exact ⟨List.mem_cons_self _ _, hm⟩
        · rw [if_neg hm] at hres
          have := (ih _ _).1 n hres
          exact ⟨List.mem_cons_of_mem _ this.1, this.2⟩
    · intro F2 vis2 hres n hn
      rw [ancho_hijos] at hres
      by_cases hv : vis h.estado = true
      · rw [if_pos hv] at hres
        rcases (ih F vis).2 F2 vis2 hres n hn with h1 | h1
        · exact Or.inl h1
        · exact Or.inr (List.mem_cons_of_mem _ h1)
      · rw [if_neg hv] at hres
        by_cases hm : pb.meta h.estado = true
        · rw [if_pos hm] at hres
          cases hres
        · rw [if_neg hm] at hres
          rcases (ih _ _).2 F2 vis2 hres n hn with h1 | h1
          · rcases List.mem_append.1 h1 with h2 | h2
            · exact Or.inl h2
            · simp only [List.mem_singleton] at h2
              exact Or.inr (h2 ▸ List.mem_cons_self _ _)
          · exact Or.inr (List.mem_cons_of_mem _ h1)

theorem ancho_loop_devuelto :
    ∀ (fuel : Nat) (F : List (Nodo σ α)) (vis : σ → Bool),
      (∀ n ∈ F, Generado pb n) →
      ∀ n, ancho_loop pb fuel F vis = some (some n) →
        Generado pb n ∧ pb.meta n.estado = true := by
  intro fuel
  induction fuel with
  | zero => intro F vis _ n h; cases h
  | succ fuel ih =>
    intro F vis hF n hres
    match F with
    | [] => cases hres
    | nodo :: resto =>
      rw [ancho_loop] at hres
      have hnodo : Generado pb nodo := hF nodo (by simp)
      split at hres
      next m hcase =>
        have hmn : m = n := by
          injection hres with h3
          injection h3
        subst hmn
        have h2 := (@ancho_hijos_cases σ α _ _ pb _ _ _).1 m hcase
        exact ⟨hnodo.de_expande h2.1, h2.2⟩
      next fv hcase =>
        refine ih fv.1 fv.2 ?_ n hres
        intro m hm
        rcases (@ancho_hijos_cases σ α _ _ pb _ _ _).2 fv.1 fv.2 (by rw [hcase]) m hm with
          h1 | h1
        · exact hF m (List.mem_cons_of_mem _ h1)
        · exact hnodo.de_expande h1

/-- Any node returned by `busqueda_ancho` is engine-generated and
satisfies the goal. -/
theorem busqueda_ancho_devuelto (fuel : Nat) (n : Nodo σ α)
    (h : busqueda_ancho pb fuel = some (some n)) :
    Generado pb n ∧ pb.meta n.estado = true := by
  unfold busqueda_ancho at h
  by_cases hm : pb.meta pb.x0 = true
  · rw [if_pos hm] at h
    cases h
    exact ⟨Generado.root, hm⟩
  · rw [if_neg hm] at h
    refine ancho_loop_devuelto fuel _ _ ?_ n h
    intro m hm2
    simp only [List.mem_singleton] at hm2
    exact hm2 ▸ Generado.root

theorem profundo_hijos_mem :
    ∀ (hs F : List (Nodo σ α)) (vis : σ → Option Nat),
      ∀ n ∈ (profundo_hijos hs F vis).1, n ∈ F ∨ n ∈ hs := by
  intro hs
  induction hs with
  | nil => intro F vis n hn; exact Or.inl hn
  | cons h rest ih =>
    intro F vis n hn
    rw [profundo_hijos] at hn
    have hpush : n ∈ (profundo_hijos rest (h :: F) (updMap vis h.estado h.profundidad)).1 →
        n ∈ F ∨ n ∈ h :: rest := by
      intro hn2
      rcases ih _ _ n hn2 with h1 | h1
      · rcases List.mem_cons.1 h1 with h2 | h2
        · exact Or.inr (h2 ▸ List.mem_cons_self _ _)
        · exact Or.inl h2
      · exact Or.inr (List.mem_cons_of_mem _ h1)
    split at hn
    · exact hpush hn
    · split at hn
      · exact hpush hn
      · rcases ih _ _ n hn with h1 | h1
        · exact Or.inl h1
        · exact Or.inr (List.mem_cons_of_mem _ h1)

theorem profundo_loop_devuelto (maxd : Option Int) :
    ∀ (fuel : Nat) (F : List (Nodo σ α)) (vis : σ → Option Nat),
      (∀ n ∈ F, Generado pb n) →
      ∀ n, profundo_loop pb maxd fuel F vis = some (some n) →
        Generado pb n ∧ pb.meta n.estado = true := by
  intro fuel
  induction fuel with
  | zero => intro F vis _ n h; cases h
  | succ fuel ih =>
    intro F vis hF n hres
    match F with
    | [] => cases hres
    | nodo :: resto =>
      rw [profundo_loop] at hres
      have hnodo : Generado pb nodo := hF nodo (by simp)
      by_cases hm : pb.meta nodo.estado = true
      · rw [if_pos hm] at hres
        cases hres
        exact ⟨hnodo, hm⟩
      · rw [if_neg hm] at hres
        by_cases hcut : maxd = some (nodo.profundidad : Int)
        · rw [if_pos hcut] at hres
          exact ih resto vis (fun m hm2 => hF m (List.mem_cons_of_mem _ hm2)) n hres
        · rw [if_neg hcut] at hres
          refine ih _ _ ?_ n hres
          intro m hm2
          rcases profundo_hijos_mem (nodo.expande pb.modelo) resto vis m hm2 with h1 | h1
          · exact hF m (List.mem_cons_of_mem _ h1)
          · exact hnodo.de_expande h1

/-- Any node returned by `busqueda_profundo` is engine-generated and
satisfies the goal. -/
theorem busqueda_profundo_devuelto (maxd : Option Int) (fuel : Nat) (n : Nodo σ α)
    (h : busqueda_profundo pb maxd fuel = some (some n)) :
    Generado pb n ∧ pb.meta n.estado = true := by
  unfold busqueda_profundo at h
  refine profundo_loop_devuelto maxd fuel _ _ ?_ n h
  intro m hm
  simp only [List.mem_singleton] at hm
  exact hm ▸ Generado.root

/-- Any node returned by `busqueda_profundidad_iterativa` is
engine-generated and satisfies the goal. -/
theorem busqueda_bpi_devuelto (ceiling : Int) (fuel : Nat) (n : Nodo σ α)
    (h : busqueda_profundidad_iterativa pb ceiling fuel = some (some n)) :
    Generado pb n ∧ pb.meta n.estado = true := by
  unfold busqueda_profundidad_iterativa at h
  revert h
  generalize (List.range ceiling.toNat).map Int.ofNat = ps
  induction ps with
  | nil => intro h; cases h
  | cons p rest ih =>
    intro h
    rw [bpi_loop] at h
    match hdfs : busqueda_profundo pb (some p) fuel with
    | none => rw [hdfs] at h; cases h
    | some none => rw [hdfs] at h; exact ih h
    | some (some m) =>
      rw [hdfs] at h
      cases h
      exact busqueda_profundo_devuelto (some p) fuel n hdfs

theorem uniforme_hijos_mem :
    ∀ (hs : List (Nodo σ α)) (F : List (Int × Nodo σ α)) (vis : σ → Option Int),
      ∀ z ∈ (uniforme_hijos hs F vis).1, z ∈ F ∨ ∃ h ∈ hs, z = (h.costo, h) := by
  intro hs
  induction hs with
  | nil => intro F vis z hz; exact Or.inl hz
  | cons h rest ih =>
    intro F vis z hz
    rw [uniforme_hijos] at hz
    have hpush : z ∈ (uniforme_hijos rest (heappush entryLt F (h.costo, h))
        (updMap vis h.estado h.costo)).1 →
        z ∈ F ∨ ∃ g ∈ h :: rest, z = (g.costo, g) := by
      intro hz2
      rcases ih _ _ z hz2 with h1 | h1
      · rcases heappush_mem h1 with h2 | h2
        · exact Or.inr ⟨h, by simp, h2⟩
        · exact Or.inl h2
      · rcases h1 with ⟨g, hg, hzg⟩
        exact Or.inr ⟨g, List.mem_cons_of_mem _ hg, hzg⟩
    split at hz
    · exact hpush hz
    · split at hz
      · exact hpush hz
      · rcases ih _ _ z hz with h1 | h1
        · exact Or.inl h1
        · rcases h1 with ⟨g, hg, hzg⟩
          exact Or.inr ⟨g, List.mem_cons_of_mem _ hg, hzg⟩

theorem uniforme_loop_devuelto :
    ∀ (fuel : Nat) (F : List (Int × Nodo σ α)) (vis : σ → Option Int),
      (∀ e ∈ F, Generado pb e.2) →
      ∀ n, uniforme_loop pb fuel F vis = some (some n) →
        Generado pb n ∧ pb.meta n.estado = true := by
  intro fuel
  induction fuel with
  | zero => intro F vis _ n h; cases h
  | succ fuel ih =>
    intro F vis hF n hres
    match F with
    | [] => cases hres
    | e :: resto =>
      rw [uniforme_loop] at hres
      simp only [heappop_fst] at hres
      have he : Generado pb e.2 := hF e (by simp)
      by_cases hm : pb.meta e.2.estado = true
      · rw [if_pos hm] at hres
        cases hres
        exact ⟨he, hm⟩
      · rw [if_neg hm] at hres
        refine ih _ _ ?_ n hres
        intro z hz
        rcases uniforme_hijos_mem (e.2.expande pb.modelo) _ vis z hz with h1 | h1
        · exact hF z (heappop_mem_snd h1)
        · rcases h1 with ⟨g, hg, rfl⟩
          exact he.de_expande hg

/-- Any node returned by `busqueda_costo_uniforme` is engine-generated
and satisfies the goal. -/
theorem busqueda_costo_uniforme_devuelto (fuel : Nat) (n : Nodo σ α)
    (h : busqueda_costo_uniforme pb fuel = some (some n)) :
    Generado pb n ∧ pb.meta n.estado = true := by
  unfold busqueda_costo_uniforme at h
  refine uniforme_loop_devuelto fuel _ _ ?_ n h
  intro e he
  rcases heappush_mem he with h1 | h1
  · exact h1 ▸ Generado.root
  · cases h1

theorem estrella_hijos_mem (heuristica : Nodo σ α → Int) :
    ∀ (hs : List (Nodo σ α)) (F : List (Int × Nodo σ α)) (vis : σ → Option Int),
      ∀ z ∈ (estrella_hijos heuristica hs F vis).1,
        z ∈ F ∨ ∃ h ∈ hs, z = (h.costo + heuristica h, h) := by
  intro hs
  induction hs with
  | nil => intro F vis z hz; exact Or.inl hz
  | cons h rest ih =>
    intro F vis z hz
    rw [estrella_hijos] at hz
    have hpush : z ∈ (estrella_hijos heuristica rest
        (heappush entryLt F (h.costo + heuristica h, h)) (updMap vis h.estado h.costo)).1 →
        z ∈ F ∨ ∃ g ∈ h :: rest, z = (g.costo + heuristica g, g) := by
      intro hz2
      rcases ih _ _ z hz2 with h1 | h1
      · rcases heappush_mem h1 with h2 | h2
        · exact Or.inr ⟨h, by simp, h2⟩
        · exact Or.inl h2
      · rcases h1 with ⟨g, hg, hzg⟩
        exact Or.inr ⟨g, List.mem_cons_of_mem _ hg, hzg⟩
    split at hz
    · exact hpush hz
    · split at hz
      · exact hpush hz
      · rcases ih _ _ z hz with h1 | h1
        · exact Or.inl h1
        · rcases h1 with ⟨g, hg, hzg⟩
          exact Or.inr ⟨g, List.mem_cons_of_mem _ hg, hzg⟩

theorem estrella_loop_devuelto (heuristica : Nodo σ α → Int) :
    ∀ (fuel : Nat) (F : List (Int × Nodo σ α)) (vis : σ → Option Int),
      (∀ e ∈ F, Generado pb e.2) →
      ∀ n, estrella_loop pb heuristica fuel F vis = some (some n) →
        Generado pb n ∧ pb.meta n.estado = true := by
  intro fuel
  induction fuel with
  | zero => intro F vis _ n h; cases h
  | succ fuel ih =>
    intro F vis hF n hres
    match F with
    | [] => cases hres
    | e :: resto =>
      rw [estrella_loop] at hres
      simp only [heappop_fst] at hres
      have he : Generado pb e.2 := hF e (by simp)
      by_cases hm : pb.meta e.2.estado = true
      · rw [if_pos hm] at hres
        cases hres
        exact ⟨he, hm⟩
      · rw [if_neg hm] at hres
        refine ih _ _ ?_ n hres
        intro z hz
        rcases estrella_hijos_mem heuristica (e.2.expande pb.modelo) _ vis z hz with h1 | h1
        · exact hF z (heappop_mem_snd h1)
        · rcases h1 with ⟨g, hg, rfl⟩
          exact he.de_expande hg

/-- Any node returned by `busqueda_A_estrella` is engine-generated and
satisfies the goal. -/
theorem busqueda_A_estrella_devuelto (heuristica : Nodo σ α → Int) (fuel : Nat)
    (n : Nodo σ α) (h : busqueda_A_estrella pb heuristica fuel = some (some n)) :
    Generado pb n ∧ pb.meta n.estado = true := by
  unfold busqueda_A_estrella at h
  refine estrella_loop_devuelto heuristica fuel _ _ ?_ n h
  intro e he
  rcases heappush_mem he with h1 | h1
  · exact h1 ▸ Generado.root
  · cases h1

end Devueltos

section C7Lemas

variable {σ α : Type} [DecidableEq σ] [DecidableEq α]

theorem profundo_loop_neg (pb : ProblemaBusqueda σ α) (m : Int) (hm : m < 0) :
    ∀ (fuel : Nat) (F : List (Nodo σ α)) (vis : σ → Option Nat),
      profundo_loop pb (some m) fuel F vis = profundo_loop pb none fuel F vis := by
  intro fuel
  induction fuel with
  | zero => intro F vis; rfl
  | succ fuel ih =>
    intro F vis
    match F with
    | [] => rfl
    | nodo :: resto =>
      rw [profundo_loop, profundo_loop]
      by_cases hmeta : pb.meta nodo.estado = true
      · rw [if_pos hmeta, if_pos hmeta]
      · rw [if_neg hmeta, if_neg hmeta]
        have h1 : ¬ (some m = some (nodo.profundidad : Int)) := by
          intro hc
          injection hc with hc2
          omega
        have h2 : ¬ ((none : Option Int) = some (nodo.profundidad : Int)) := by
          intro hc
          cases hc
        rw [if_neg h1, if_neg h2, ih]

end C7Lemas

section Claims1

variable {σ α : Type} [DecidableEq σ] [DecidableEq α]

/-- C4: for every goal node returned by any of the five strategies,
`genera_plan` yields the trace `[s0, a1, s1, ..., aT, sT]` of an action
sequence `as`: s0 is the problem's initial state, every action is legal
where it is taken, each following state is `modelo.sucesor` of the
previous state and action, and the final state satisfies the goal
predicate. -/
theorem claim_C4 (pb : ProblemaBusqueda σ α) (fuel : Nat) (n : Nodo σ α)
    (maxd : Option Int) (ceiling : Int) (heuristica : Nodo σ α → Int)
    (hres : busqueda_ancho pb fuel = some (some n) ∨
            busqueda_profundo pb maxd fuel = some (some n) ∨
            busqueda_profundidad_iterativa pb ceiling fuel = some (some n) ∨
            busqueda_costo_uniforme pb fuel = some (some n) ∨
            busqueda_A_estrella pb heuristica fuel = some (some n)) :
    ∃ as : List α,
      n.genera_plan = despliega pb.modelo pb.x0 as ∧
      esCamino pb.modelo pb.x0 as = true ∧
      ejecuta pb.modelo pb.x0 as = n.estado ∧
      pb.meta (ejecuta pb.modelo pb.x0 as) = true := by
  have hgen : Generado pb n ∧ pb.meta n.estado = true := by
    rcases hres with h | h | h | h | h
    · exact busqueda_ancho_devuelto fuel n h
    · exact busqueda_profundo_devuelto maxd fuel n h
    · exact busqueda_bpi_devuelto ceiling fuel n h
    · exact busqueda_costo_uniforme_devuelto fuel n h
    · exact busqueda_A_estrella_devuelto heuristica fuel n h
  obtain ⟨hg, hm⟩ := hgen
  refine ⟨n.acciones, hg.spec.2.2.2.2, hg.esCamino, hg.ejecuta, ?_⟩
  rw [hg.ejecuta]
  exact hm

theorem claim_C4_witness :
    busqueda_ancho problemaLinea 1 = some (some (Nodo.hijo 1 0 (Nodo.root 0) 1)) ∧
    (∃ as : List Nat,
      (Nodo.hijo 1 0 (Nodo.root 0) 1).genera_plan =
        despliega problemaLinea.modelo problemaLinea.x0 as ∧
      esCamino problemaLinea.modelo problemaLinea.x0 as = true ∧
      ejecuta problemaLinea.modelo problemaLinea.x0 as =
        (Nodo.hijo 1 0 (Nodo.root 0) 1).estado ∧
      problemaLinea.meta (ejecuta problemaLinea.modelo problemaLinea.x0 as) = true) :=
  ⟨rfl, claim_C4 problemaLinea 1 (Nodo.hijo 1 0 (Nodo.root 0) 1) none 0 (fun _ => 0)
    (Or.inl rfl)⟩

/-- C5: a root node has `costo = 0`, `profundidad = 0`, `accion = None`
and `padre = None`; a node created by expansion with action `a` is a
member of `expande`, and has `costo = padre.costo + costo_local
(padre.estado, a)` and `profundidad = padre.profundidad + 1`; and every
engine-generated node's `costo` equals the sum of the step costs along
the edges of its generated plan. -/
theorem claim_C5 (pb : ProblemaBusqueda σ α) (n : Nodo σ α) (hg : Generado pb n)
    (a : α) (ha : a ∈ pb.modelo.acciones_legales n.estado) :
    (Nodo.root pb.x0 : Nodo σ α).costo = 0 ∧
    (Nodo.root pb.x0 : Nodo σ α).profundidad = 0 ∧
    (Nodo.root pb.x0 : Nodo σ α).accion = none ∧
    (Nodo.root pb.x0 : Nodo σ α).padre = none ∧
    Nodo.hijo (pb.modelo.sucesor n.estado a) a n (pb.modelo.costo_local n.estado a)
      ∈ n.expande pb.modelo ∧
    (Nodo.hijo (pb.modelo.sucesor n.estado a) a n
      (pb.modelo.costo_local n.estado a)).costo
      = n.costo + pb.modelo.costo_local n.estado a ∧
    (Nodo.hijo (pb.modelo.sucesor n.estado a) a n
      (pb.modelo.costo_local n.estado a)).profundidad = n.profundidad + 1 ∧
    (Nodo.hijo (pb.modelo.sucesor n.estado a) a n
      (pb.modelo.costo_local n.estado a)).accion = some a ∧
    (Nodo.hijo (pb.modelo.sucesor n.estado a) a n
      (pb.modelo.costo_local n.estado a)).padre = some n ∧
    n.costo = costoCamino pb.modelo pb.x0 n.acciones := by
  refine ⟨rfl, rfl, rfl, rfl, ?_, rfl, rfl, rfl, rfl, hg.costo.symm⟩
  exact mem_expande.2 ⟨a, ha, rfl⟩

theorem claim_C5_witness :
    Generado problemaLinea (Nodo.root 0) ∧
    0 ∈ problemaLinea.modelo.acciones_legales (@Nodo.root Nat Nat 0).estado ∧
    (@Nodo.root Nat Nat 0).costo = 0 ∧
    (Nodo.hijo 1 0 (Nodo.root 0) 1 ∈
      (@Nodo.root Nat Nat 0).expande problemaLinea.modelo) ∧
    (Nodo.hijo 1 0 (@Nodo.root Nat Nat 0) 1).costo =
      (@Nodo.root Nat Nat 0).costo + 1 ∧
    (@Nodo.root Nat Nat 0).costo =
      costoCamino problemaLinea.modelo problemaLinea.x0
        (@Nodo.root Nat Nat 0).acciones := by
  have h := claim_C5 problemaLinea (Nodo.root 0) Generado.root 0 (by decide)
  exact ⟨Generado.root, by decide, h.1, h.2.2.2.2.1, h.2.2.2.2.2.1, h.2.2.2.2.2.2.2.2.2⟩

/-- C7 (counterexample): with the negative depth bound `-1`,
`busqueda_profundo` is not rejected before the search begins: it runs the
search, expands the root, goal-tests the generated child and returns the
depth-1 goal node. -/
theorem claim_C7_contra :
    busqueda_profundo problemaLinea (some (-1)) 3 =
      some (some (Nodo.hijo 1 0 (Nodo.root 0) 1)) ∧
    (Nodo.hijo 1 0 (@Nodo.root Nat Nat 0) 1).profundidad = 1 :=
  ⟨rfl, rfl⟩

/-- C7 (amended): a negative `max_profundidad` is not rejected eagerly;
`busqueda_profundo` silently treats it exactly as the unbounded policy
`max_profundidad = None` (the depth cutoff can never equal a node's
non-negative depth), and `busqueda_profundidad_iterativa` with a negative
ceiling iterates over an empty range and returns None without searching. -/
theorem claim_C7 (pb : ProblemaBusqueda σ α) (m : Int) (fuel : Nat) (hm : m < 0) :
    busqueda_profundo pb (some m) fuel = busqueda_profundo pb none fuel ∧
    busqueda_profundidad_iterativa pb m fuel = some none := by
  constructor
  · unfold busqueda_profundo
    exact profundo_loop_neg pb m hm fuel _ _
  · unfold busqueda_profundidad_iterativa
    rw [Int.toNat_of_nonpos (le_of_lt hm)]
    rfl

theorem claim_C7_witness :
    (-1 : Int) < 0 ∧
    busqueda_profundo problemaLinea (some (-1)) 3 =
      busqueda_profundo problemaLinea none 3 ∧
    busqueda_profundidad_iterativa problemaLinea (-1) 3 = some none := by
  have h := claim_C7 problemaLinea (-1) 3 (by decide)
  exact ⟨by decide, h.1, h.2⟩

/-- C9: `busqueda_A_estrella` with the constant-zero heuristic computes
exactly the same result as `busqueda_costo_uniforme` (same `None` cases
and the very same returned node), for every problem and fuel: the two
loops differ only in the pushed priority `costo + heuristica`, which the
zero heuristic collapses to `costo`. -/
theorem claim_C9 (pb : ProblemaBusqueda σ α) (fuel : Nat) :
    busqueda_A_estrella pb (fun _ => 0) fuel = busqueda_costo_uniforme pb fuel := by
  unfold busqueda_A_estrella busqueda_costo_uniforme
  exact estrella_loop_zero pb fuel _ _

/-- C10: `busqueda_A_estrella` never evaluates the heuristic on the root
node: the initial frontier entry is pushed with the fixed priority 0, and
the heuristic is applied only to nodes produced by expansion, so two
heuristics that agree on all expansion-produced (non-root) nodes yield
identical searches whatever their values on root nodes. -/
theorem claim_C10 (pb : ProblemaBusqueda σ α) (h₁ h₂ : Nodo σ α → Int) (fuel : Nat)
    (hagree : ∀ (s : σ) (a : α) (p : Nodo σ α) (c : Int),
      h₁ (Nodo.hijo s a p c) = h₂ (Nodo.hijo s a p c)) :
    busqueda_A_estrella pb h₁ fuel =
      estrella_loop pb h₁ fuel (heappush entryLt [] (0, Nodo.root pb.x0))
        (updMap (fun _ => none) pb.x0 0) ∧
    busqueda_A_estrella pb h₁ fuel = busqueda_A_estrella pb h₂ fuel := by
  constructor
  · rfl
  · unfold busqueda_A_estrella
    exact estrella_loop_congr pb h₁ h₂ hagree fuel _ _

theorem claim_C10_witness :
    (∀ (s : Nat) (a : Nat) (p : Nodo Nat Nat) (c : Int),
      heuristicaRara (Nodo.hijo s a p c) = (fun _ => (0 : Int)) (Nodo.hijo s a p c)) ∧
    busqueda_A_estrella problemaLinea heuristicaRara 3 =
      busqueda_A_estrella problemaLinea (fun _ => 0) 3 := by
  have h := claim_C10 problemaLinea heuristicaRara (fun _ => 0) 3
    (fun _ _ _ _ => rfl)
  exact ⟨fun _ _ _ _ => rfl, h.2⟩

end Claims1

section AnchoCorrecto

variable {σ α : Type} [DecidableEq σ] [DecidableEq α] {pb : ProblemaBusqueda σ α}

theorem alcanzable_paso {t : σ} {j : Nat} (h : AlcanzableEn pb j t) {a : α}
    (ha : a ∈ pb.modelo.acciones_legales t) :
    AlcanzableEn pb (j + 1) (pb.modelo.sucesor t a) := by
  obtain ⟨as, hlen, hcam, hej⟩ := h
  refine ⟨as ++ [a], by simp [hlen], ?_, ?_⟩
  · rw [esCamino_append, hcam, hej]
    simp [esCamino, ha]
  · rw [ejecuta_append, hej]
    rfl

theorem Generado.alcanzable {n : Nodo σ α} (hg : Generado pb n) :
    AlcanzableEn pb n.profundidad n.estado :=
  ⟨n.acciones, hg.profundidad, hg.esCamino, hg.ejecuta⟩

theorem alcanzable_cero {s : σ} (h : AlcanzableEn pb 0 s) : s = pb.x0 := by
  obtain ⟨as, hlen, _, hej⟩ := h
  rw [List.length_eq_zero] at hlen
  subst hlen
  exact hej.symm

theorem alcanzable_succ {s : σ} {j : Nat} (h : AlcanzableEn pb (j + 1) s) :
    ∃ t a, AlcanzableEn pb j t ∧ a ∈ pb.modelo.acciones_legales t ∧
      s = pb.modelo.sucesor t a := by
  obtain ⟨as, hlen, hcam, hej⟩ := h
  have hne : as ≠ [] := by
    intro h0
    rw [h0] at hlen
    cases hlen
  have hdec : as.dropLast ++ [as.getLast hne] = as := List.dropLast_append_getLast hne
  set bs := as.dropLast with hbs
  set a := as.getLast hne with ha
  rw [← hdec] at hcam hej hlen
  rw [esCamino_append] at hcam
  rw [ejecuta_append] at hej
  simp only [Bool.and_eq_true] at hcam
  have hleg : a ∈ pb.modelo.acciones_legales (ejecuta pb.modelo pb.x0 bs) := by
    have := hcam.2
    simp only [esCamino, Bool.and_eq_true, decide_eq_true_eq] at this
    exact this.1
  refine ⟨ejecuta pb.modelo pb.x0 bs, a, ⟨bs, ?_, hcam.1, rfl⟩, hleg, ?_⟩
  · simp only [List.length_append, List.length_cons, List.length_nil] at hlen
    omega
  · simp only [ejecuta] at hej
    exact hej.symm

theorem visitados_cubren {vis : σ → Bool} (hx0 : vis pb.x0 = true)
    (hcub : ∀ s, vis s = true →
      ∀ a ∈ pb.modelo.acciones_legales s, vis (pb.modelo.sucesor s a) = true) :
    ∀ (j : Nat) (s : σ), AlcanzableEn pb j s → vis s = true := by
  intro j
  induction j with
  | zero =>
    intro s h
    rw [alcanzable_cero h]
    exact hx0
  | succ j ih =>
    intro s h
    obtain ⟨t, a, hreach, hleg, rfl⟩ := alcanzable_succ h
    exact hcub t (ih t hreach) a hleg

theorem ancho_hijos_inv (d : Nat) (nodo : Nodo σ α)
    (hd0 : nodo.profundidad = d) (hgnodo : Generado pb nodo) :
    ∀ (hs F : List (Nodo σ α)) (vis : σ → Bool),
      (∀ n ∈ hs, n ∈ nodo.expande pb.modelo) →
      (∀ n ∈ F, Generado pb n) →
      (∀ s, vis s = true → pb.meta s = false) →
      (∀ n ∈ F, vis n.estado = true) →
      (∀ n ∈ F, ∀ j, AlcanzableEn pb j n.estado → n.profundidad ≤ j) →
      (∀ s j, j ≤ d → AlcanzableEn pb j s → vis s = true) →
      (∃ A B, F = A ++ B ∧ (∀ n ∈ A, n.profundidad = d) ∧
        (∀ n ∈ B, n.profundidad = d + 1)) →
      (∀ s, vis s = true → s = nodo.estado ∨ (∃ n ∈ F, n.estado = s) ∨
        (∀ a ∈ pb.modelo.acciones_legales s, vis (pb.modelo.sucesor s a) = true)) →
      (∀ n, ancho_hijos pb hs F vis = Sum.inl n →
        Generado pb n ∧ pb.meta n.estado = true ∧ n.profundidad = d + 1 ∧
        (∀ j, AlcanzableEn pb j n.estado → d + 1 ≤ j)) ∧
      (∀ F2 vis2, ancho_hijos pb hs F vis = Sum.inr (F2, vis2) →
        (∀ n ∈ F2, Generado pb n) ∧
        (∀ s, vis2 s = true → pb.meta s = false) ∧
        (∀ n ∈ F2, vis2 n.estado = true) ∧
        (∀ n ∈ F2, ∀ j, AlcanzableEn pb j n.estado → n.profundidad ≤ j) ∧
        (∀ s j, j ≤ d → AlcanzableEn pb j s → vis2 s = true) ∧
        (∃ A B, F2 = A ++ B ∧ (∀ n ∈ A, n.profundidad = d) ∧
          (∀ n ∈ B, n.profundidad = d + 1)) ∧
        (∀ s, vis s = true → vis2 s = true) ∧
        (∀ n ∈ hs, vis2 n.estado = true) ∧
        (∀ s, vis2 s = true → s = nodo.estado ∨ (∃ n ∈ F2, n.estado = s) ∨
          (∀ a ∈ pb.modelo.acciones_legales s, vis2 (pb.modelo.sucesor s a) = true))) := by
  intro hs
  induction hs with
  | nil =>
    intro F vis _ hgen hnometa hvisF hminp halc hsplit hcub
    constructor
    · intro n h
      cases h
    · intro F2 vis2 h
      rw [ancho_hijos] at h
      injection h with h
      injection h with h1 h2
      subst h1
      subst h2
      exact ⟨hgen, hnometa, hvisF, hminp, halc, hsplit, fun s h => h,
        fun n h => absurd h (List.not_mem_nil n), hcub⟩
  | cons h rest ih =>
    intro F vis hexp hgen hnometa hvisF hminp halc hsplit hcub
    have hhexp : h ∈ nodo.expande pb.modelo := hexp h (by simp)
    obtain ⟨a, haleg, hform⟩ := mem_expande.1 hhexp
    have hprof : h.profundidad = d + 1 := by rw [hform, Nodo.profundidad, hd0]
    have hestado : h.estado = pb.modelo.sucesor nodo.estado a := by rw [hform, Nodo.estado]
    have hgh : Generado pb h := hgnodo.de_expande hhexp
    have hrest : ∀ n ∈ rest, n ∈ nodo.expande pb.modelo :=
      fun n hn => hexp n (List.mem_cons_of_mem _ hn)
    rw [ancho_hijos]
    by_cases hv : vis h.estado = true
    · rw [if_pos hv]
      have hih := ih F vis hrest hgen hnometa hvisF hminp halc hsplit hcub
      refine ⟨hih.1, ?_⟩
      intro F2 vis2 hres
      have h2 := hih.2 F2 vis2 hres
      refine ⟨h2.1, h2.2.1, h2.2.2.1, h2.2.2.2.1, h2.2.2.2.2.1, h2.2.2.2.2.2.1,
        h2.2.2.2.2.2.2.1, ?_, h2.2.2.2.2.2.2.2.2⟩
      intro n hn
      rcases List.mem_cons.1 hn with rfl | hn2
      · exact h2.2.2.2.2.2.2.1 _ hv
      · exact h2.2.2.2.2.2.2.2.1 n hn2
    · rw [if_neg hv]
      have hminh : ∀ j, AlcanzableEn pb j h.estado → d + 1 ≤ j := by
        intro j hj
        by_contra hlt
        exact hv (halc h.estado j (by omega) hj)
      by_cases hm : pb.meta h.estado = true
      · rw [if_pos hm]
        constructor
        · intro n hres
          injection hres with hres
          subst hres
          exact ⟨hgh, hm, hprof, hminh⟩
        · intro F2 vis2 hres
          cases hres
      · rw [if_neg hm]
        have hvis2 : ∀ s, ((s = h.estado : Bool) || vis s) = true ↔
            s = h.estado ∨ vis s = true := by
          intro s
          simp
        have hih := ih (F ++ [h]) (fun s => s = h.estado || vis s) hrest ?_ ?_ ?_ ?_ ?_ ?_ ?_
        · refine ⟨hih.1, ?_⟩
          intro F2 vis2 hres
          have h2 := hih.2 F2 vis2 hres
          refine ⟨h2.1, h2.2.1, h2.2.2.1, h2.2.2.2.1, h2.2.2.2.2.1, h2.2.2.2.2.2.1,
            ?_, ?_, h2.2.2.2.2.2.2.2.2⟩
          · intro s hss
            exact h2.2.2.2.2.2.2.1 s ((hvis2 s).2 (Or.inr hss))
          · intro n hn
            rcases List.mem_cons.1 hn with rfl | hn2
            · exact h2.2.2.2.2.2.2.1 _ ((hvis2 _).2 (Or.inl rfl))
            · exact h2.2.2.2.2.2.2.2.1 n hn2
        · intro n hn
          rcases List.mem_append.1 hn with h1 | h1
          · exact hgen n h1
          · simp only [List.mem_singleton] at h1
            exact h1 ▸ hgh
        · intro s hss
          rcases (hvis2 s).1 hss with rfl | h1
          · simpa using hm
          · exact hnometa s h1
        · intro n hn
          rcases List.mem_append.1 hn with h1 | h1
          · exact (hvis2 _).2 (Or.inr (hvisF n h1))
          · simp only [List.mem_singleton] at h1
            exact (hvis2 _).2 (Or.inl (by rw [h1]))
        · intro n hn
          rcases List.mem_append.1 hn with h1 | h1
          · exact hminp n h1
          · simp only [List.mem_singleton] at h1
            subst h1
            intro j hj
            rw [hprof]
            exact hminh j hj
        · intro s j hj hreach
          exact (hvis2 _).2 (Or.inr (halc s j hj hreach))
        · obtain ⟨A, B, hF, hA, hB⟩ := hsplit
          refine ⟨A, B ++ [h], by rw [hF, List.append_assoc], hA, ?_⟩
          intro n hn
          rcases List.mem_append.1 hn with h1 | h1
          · exact hB n h1
          · simp only [List.mem_singleton] at h1
            exact h1 ▸ hprof
        · intro s hss
          rcases (hvis2 s).1 hss with rfl | h1
          · exact Or.inr (Or.inl ⟨h, by simp, rfl⟩)
          · rcases hcub s h1 with h2 | h2 | h2
            · exact Or.inl h2
            · obtain ⟨n, hn, hns⟩ := h2
              exact Or.inr (Or.inl ⟨n, List.mem_append.2 (Or.inl hn), hns⟩)
            · refine Or.inr (Or.inr ?_)
              intro b hb
              exact (hvis2 _).2 (Or.inr (h2 b hb))

theorem ancho_loop_correcto :
    ∀ (fuel : Nat) (F : List (Nodo σ α)) (vis : σ → Bool) (d : Nat),
      (∀ n ∈ F, Generado pb n) →
      (∀ s, vis s = true → pb.meta s = false) →
      (∀ n ∈ F, vis n.estado = true) →
      (∀ n ∈ F, ∀ j, AlcanzableEn pb j n.estado → n.profundidad ≤ j) →
      (∀ s j, j ≤ d → AlcanzableEn pb j s → vis s = true) →
      (∃ A B, F = A ++ B ∧ (∀ n ∈ A, n.profundidad = d) ∧
        (∀ n ∈ B, n.profundidad = d + 1) ∧ (A = [] → B = [])) →
      (∀ s, vis s = true → (∃ n ∈ F, n.estado = s) ∨
        (∀ a ∈ pb.modelo.acciones_legales s, vis (pb.modelo.sucesor s a) = true)) →
      vis pb.x0 = true →
      (∀ n, ancho_loop pb fuel F vis = some (some n) →
        MetaEnProfundidad pb n.profundidad ∧
        ∀ k, MetaEnProfundidad pb k → n.profundidad ≤ k) ∧
      (ancho_loop pb fuel F vis = some none → ∀ k, ¬ MetaEnProfundidad pb k) := by
  intro fuel
  induction fuel with
  | zero =>
    intro F vis d _ _ _ _ _ _ _ _
    exact ⟨fun n h => (by cases h), fun h => (by cases h)⟩
  | succ fuel ihf =>
    intro F vis d hgen hnometa hvisF hminp halc hsplit hcub hx0
    match F with
    | [] =>
      refine ⟨fun n h => (by cases h), ?_⟩
      intro _ k hk
      obtain ⟨as, hlen, hcam, hmeta⟩ := hk
      have hcerr : ∀ s, vis s = true →
          ∀ a ∈ pb.modelo.acciones_legales s, vis (pb.modelo.sucesor s a) = true := by
        intro s hvs a ha
        rcases hcub s hvs with ⟨n, hn, _⟩ | h2
        · cases hn
        · exact h2 a ha
      have hvisall := visitados_cubren hx0 hcerr k
        (ejecuta pb.modelo pb.x0 as) ⟨as, hlen, hcam, rfl⟩
      have := hnometa _ hvisall
      rw [this] at hmeta
      cases hmeta
    | nodo :: resto =>
      obtain ⟨A, B, hF, hA, hB, hABnil⟩ := hsplit
      cases A with
      | nil =>
        rw [hABnil rfl] at hF
        cases hF
      | cons nodo2 A2 =>
        simp only [List.cons_append] at hF
        injection hF with h1 h2
        subst h1
        have hdnodo : nodo.profundidad = d := hA nodo (List.mem_cons_self _ _)
        have hfold := ancho_hijos_inv d nodo hdnodo (hgen nodo (by simp))
          (nodo.expande pb.modelo) resto vis (fun n hn => hn)
          (fun n hn => hgen n (by simp [hn])) hnometa
          (fun n hn => hvisF n (by simp [hn])) (fun n hn => hminp n (by simp [hn]))
          halc ⟨A2, B, h2, fun n hn => hA n (by simp [hn]), hB⟩ ?_
        · rcases hcaseE : ancho_hijos pb (nodo.expande pb.modelo) resto vis with m | fv
          · have hm := hfold.1 m hcaseE
            have hlow : ∀ k, MetaEnProfundidad pb k → d + 1 ≤ k := by
              intro k hk
              by_contra hlt
              obtain ⟨as, hlen, hcam, hmeta⟩ := hk
              have hvg : vis (ejecuta pb.modelo pb.x0 as) = true :=
                halc _ k (by omega) ⟨as, hlen, hcam, rfl⟩
              have := hnometa _ hvg
              rw [this] at hmeta
              cases hmeta
            constructor
            · intro n hres
              rw [ancho_loop] at hres
              simp only [hcaseE] at hres
              injection hres with hres
              injection hres with hres
              subst hres
              obtain ⟨hg, hmm, hprofm, _⟩ := hm
              constructor
              · refine ⟨m.acciones, hg.profundidad, hg.esCamino, ?_⟩
                rw [hg.ejecuta]
                exact hmm
              · intro k hk
                rw [hprofm]
                exact hlow k hk
            · intro hres
              rw [ancho_loop] at hres
              simp only [hcaseE] at hres
              cases hres
          · have h2f := hfold.2 fv.1 fv.2 (by rw [hcaseE])
            obtain ⟨hgen2, hnometa2, hvisF2, hminp2, halc2, hsplit2, hmono2, hhs2, hcub2⟩ := h2f
            have hfullcub : ∀ s, fv.2 s = true → (∃ n ∈ fv.1, n.estado = s) ∨
                (∀ a ∈ pb.modelo.acciones_legales s, fv.2 (pb.modelo.sucesor s a) = true) := by
              intro s hvs
              rcases hcub2 s hvs with rfl | hh | hh
              · refine Or.inr ?_
                intro a ha
                have hchild := hhs2 _ (mem_expande.2 ⟨a, ha, rfl⟩)
                simpa [Nodo.estado] using hchild
              · exact Or.inl hh
              · exact Or.inr hh
            have hx02 : fv.2 pb.x0 = true := hmono2 _ hx0
            obtain ⟨A2', B2', hF2, hA2', hB2'⟩ := hsplit2
            have hrec :
                (∀ n, ancho_loop pb fuel fv.1 fv.2 = some (some n) →
                  MetaEnProfundidad pb n.profundidad ∧
                  ∀ k, MetaEnProfundidad pb k → n.profundidad ≤ k) ∧
                (ancho_loop pb fuel fv.1 fv.2 = some none →
                  ∀ k, ¬ MetaEnProfundidad pb k) := by
              by_cases hA2e : A2' = []
              · subst hA2e
                simp only [List.nil_append] at hF2
                have halc3 : ∀ s j, j ≤ d + 1 → AlcanzableEn pb j s → fv.2 s = true := by
                  intro s j hj hreach
                  by_cases hjd : j ≤ d
                  · exact halc2 s j hjd hreach
                  · have hjd1 : j = d + 1 := by omega
                    subst hjd1
                    obtain ⟨t, a, hreacht, hleg, rfl⟩ := alcanzable_succ hreach
                    have hvt : fv.2 t = true := halc2 t d (le_refl d) hreacht
                    rcases hfullcub t hvt with ⟨n, hn, hns⟩ | hh
                    · have hnd : n.profundidad = d + 1 := hB2' n (hF2 ▸ hn)
                      have := hminp2 n hn d (hns ▸ hreacht)
                      omega
                    · exact hh a hleg
                exact ihf fv.1 fv.2 (d + 1) hgen2 hnometa2 hvisF2 hminp2 halc3
                  ⟨B2', [], by rw [hF2, List.append_nil],
                    fun n hn => hB2' n hn, fun n hn => absurd hn (List.not_mem_nil n),
                    fun h => rfl⟩ hfullcub hx02
              · exact ihf fv.1 fv.2 d hgen2 hnometa2 hvisF2 hminp2 halc2
                  ⟨A2', B2', hF2, hA2', hB2', fun h => absurd h hA2e⟩ hfullcub hx02
            constructor
            · intro n hres
              rw [ancho_loop] at hres
              simp only [hcaseE] at hres
              exact hrec.1 n hres
            · intro hres
              rw [ancho_loop] at hres
              simp only [hcaseE] at hres
              exact hrec.2 hres
        · intro s hvs
          rcases hcub s hvs with ⟨n, hn, hns⟩ | hh
          · rcases List.mem_cons.1 hn with rfl | hn2
            · exact Or.inl hns.symm
            · exact Or.inr (Or.inl ⟨n, hn2, hns⟩)
          · exact Or.inr (Or.inr hh)

end AnchoCorrecto

section ProfundoCorrecto

variable {σ α : Type} [DecidableEq σ] [DecidableEq α] {pb : ProblemaBusqueda σ α}

theorem descartado_mono {maxd : Option Int} {V W : σ → Option Nat}
    (hmono : ∀ s k, V s = some k → ∃ k₂, W s = some k₂ ∧ k₂ ≤ k)
    {s : σ} {k : Nat} (h : DescartadoDFS pb maxd V s k) :
    DescartadoDFS pb maxd W s k := by
  obtain ⟨hm, hch⟩ := h
  refine ⟨hm, ?_⟩
  intro hcut a ha
  obtain ⟨k₂, hk₂, hle⟩ := hch hcut a ha
  obtain ⟨k₃, hk₃, hle3⟩ := hmono _ _ hk₂
  exact ⟨k₃, hk₃, by omega⟩

theorem updMap_lookup {β : Type} (V : σ → Option β) (s t : σ) (b : β) :
    updMap V s b t = if t = s then some b else V t := rfl

theorem profundo_hijos_inv (maxd : Option Int) (nodo : Nodo σ α)
    (hgn : Generado pb nodo) (hmnodo : pb.meta nodo.estado = false) :
    ∀ (hs F : List (Nodo σ α)) (V : σ → Option Nat),
      (∀ c ∈ hs, c ∈ nodo.expande pb.modelo) →
      (∀ n ∈ F, Generado pb n) →
      (∀ n ∈ F, ∃ k, V n.estado = some k ∧ k ≤ n.profundidad) →
      (∃ k0, V nodo.estado = some k0 ∧ k0 ≤ nodo.profundidad) →
      (∀ s k, V s = some k → (∃ n ∈ F, n.estado = s ∧ n.profundidad = k) ∨
        DescartadoDFS pb maxd V s k ∨ (s = nodo.estado ∧ k = nodo.profundidad)) →
      (∀ n ∈ F, n ∈ (profundo_hijos hs F V).1) ∧
      (∀ n ∈ (profundo_hijos hs F V).1, Generado pb n) ∧
      (∀ s k, V s = some k → ∃ k₂, (profundo_hijos hs F V).2 s = some k₂ ∧ k₂ ≤ k) ∧
      (∀ c ∈ hs, ∃ k₂, (profundo_hijos hs F V).2 c.estado = some k₂ ∧
        k₂ ≤ c.profundidad) ∧
      (∀ n ∈ (profundo_hijos hs F V).1, ∃ k,
        (profundo_hijos hs F V).2 n.estado = some k ∧ k ≤ n.profundidad) ∧
      (∀ s k, (profundo_hijos hs F V).2 s = some k →
        (∃ n ∈ (profundo_hijos hs F V).1, n.estado = s ∧ n.profundidad = k) ∨
        DescartadoDFS pb maxd (profundo_hijos hs F V).2 s k ∨
        (s = nodo.estado ∧ k = nodo.profundidad)) := by
  intro hs
  induction hs with
  | nil =>
    intro F V _ hgen hdomF hdomN hstat
    rw [profundo_hijos]
    exact ⟨fun n hn => hn, hgen, fun s k h => ⟨k, h, le_refl k⟩,
      fun c hc => absurd hc (List.not_mem_nil c), hdomF, hstat⟩
  | cons c rest ih =>
    intro F V hexp hgen hdomF hdomN hstat
    have hcexp : c ∈ nodo.expande pb.modelo := hexp c (by simp)
    obtain ⟨a, haleg, hform⟩ := mem_expande.1 hcexp
    have hcprof : c.profundidad = nodo.profundidad + 1 := by
      rw [hform, Nodo.profundidad]
    have hgc : Generado pb c := hgn.de_expande hcexp
    have hrest : ∀ x ∈ rest, x ∈ nodo.expande pb.modelo :=
      fun x hx => hexp x (List.mem_cons_of_mem _ hx)
    have hpush :
        ∀ hcond : (V c.estado = none ∨ ∃ d0, V c.estado = some d0 ∧ c.profundidad < d0),
        (∀ n ∈ F, n ∈ (profundo_hijos rest (c :: F)
          (updMap V c.estado c.profundidad)).1) ∧
        (∀ n ∈ (profundo_hijos rest (c :: F) (updMap V c.estado c.profundidad)).1,
          Generado pb n) ∧
        (∀ s k, V s = some k → ∃ k₂, (profundo_hijos rest (c :: F)
          (updMap V c.estado c.profundidad)).2 s = some k₂ ∧ k₂ ≤ k) ∧
        (∀ x ∈ c :: rest, ∃ k₂, (profundo_hijos rest (c :: F)
          (updMap V c.estado c.profundidad)).2 x.estado = some k₂ ∧
          k₂ ≤ x.profundidad) ∧
        (∀ n ∈ (profundo_hijos rest (c :: F) (updMap V c.estado c.profundidad)).1,
          ∃ k, (profundo_hijos rest (c :: F)
            (updMap V c.estado c.profundidad)).2 n.estado = some k ∧
            k ≤ n.profundidad) ∧
        (∀ s k, (profundo_hijos rest (c :: F) (updMap V c.estado c.profundidad)).2 s
            = some k →
          (∃ n ∈ (profundo_hijos rest (c :: F)
            (updMap V c.estado c.profundidad)).1, n.estado = s ∧ n.profundidad = k) ∨
          DescartadoDFS pb maxd (profundo_hijos rest (c :: F)
            (updMap V c.estado c.profundidad)).2 s k ∨
          (s = nodo.estado ∧ k = nodo.profundidad)) := by
      intro hcond
      have hne : c.estado ≠ nodo.estado := by
        intro heq
        obtain ⟨k0, hk0, hk0le⟩ := hdomN
        rw [← heq] at hk0
        rcases hcond with h1 | ⟨d0, hd0, hlt⟩
        · rw [h1] at hk0
          cases hk0
        · rw [hd0] at hk0
          injection hk0 with hk0
          omega
      have hupd : ∀ s k, V s = some k →
          ∃ k₂, updMap V c.estado c.profundidad s = some k₂ ∧ k₂ ≤ k := by
        intro s k hsk
        by_cases hsc : s = c.estado
        · subst hsc
          rcases hcond with h1 | ⟨d0, hd0, hlt⟩
          · rw [h1] at hsk
            cases hsk
          · rw [hd0] at hsk
            injection hsk with hsk
            subst hsk
            exact ⟨c.profundidad, by simp [updMap], by omega⟩
        · exact ⟨k, by simpa [updMap, hsc] using hsk, le_refl k⟩
      have hih := ih (c :: F) (updMap V c.estado c.profundidad) hrest ?_ ?_ ?_ ?_
      · obtain ⟨i1, i2, i3, i4, i5, i6⟩ := hih
        refine ⟨fun n hn => i1 n (List.mem_cons_of_mem _ hn), i2, ?_, ?_, i5, i6⟩
        · intro s k hsk
          obtain ⟨k₂, hk₂, hle⟩ := hupd s k hsk
          obtain ⟨k₃, hk₃, hle3⟩ := i3 s k₂ hk₂
          exact ⟨k₃, hk₃, by omega⟩
        · intro x hx
          rcases List.mem_cons.1 hx with rfl | hx2
          · obtain ⟨k₃, hk₃, hle3⟩ := i3 x.estado x.profundidad (by simp [updMap])
            exact ⟨k₃, hk₃, hle3⟩
          · exact i4 x hx2
      · intro n hn
        rcases List.mem_cons.1 hn with rfl | hn2
        · exact hgc
        · exact hgen n hn2
      · intro n hn
        rcases List.mem_cons.1 hn with rfl | hn2
        · exact ⟨n.profundidad, by simp [updMap], le_refl _⟩
        · obtain ⟨k, hk, hkle⟩ := hdomF n hn2
          obtain ⟨k₂, hk₂, hle2⟩ := hupd _ _ hk
          exact ⟨k₂, hk₂, by omega⟩
      · obtain ⟨k0, hk0, hk0le⟩ := hdomN
        obtain ⟨k₂, hk₂, hle2⟩ := hupd _ _ hk0
        exact ⟨k₂, hk₂, by omega⟩
      · intro s k hsk
        by_cases hsc : s = c.estado
        · subst hsc
          rw [updMap_lookup] at hsk
          rw [if_pos rfl] at hsk
          injection hsk with hsk
          subst hsk
          exact Or.inl ⟨c, by simp, rfl, rfl⟩
        · rw [updMap_lookup, if_neg hsc] at hsk
          rcases hstat s k hsk with ⟨n, hn, hns, hnp⟩ | hd | hd
          · exact Or.inl ⟨n, List.mem_cons_of_mem _ hn, hns, hnp⟩
          · refine Or.inr (Or.inl (descartado_mono ?_ hd))
            intro t k2 ht
            by_cases htc : t = c.estado
            · subst htc
              rcases hcond with h1 | ⟨d0, hd0, hlt⟩
              · rw [h1] at ht
                cases ht
              · rw [hd0] at ht
                injection ht with ht
                subst ht
                exact ⟨c.profundidad, by simp [updMap], by omega⟩
            · exact ⟨k2, by simpa [updMap, htc] using ht, le_refl k2⟩
          · exact Or.inr (Or.inr hd)
    match hv : V c.estado with
    | none =>
      have hstep : profundo_hijos (c :: rest) F V =
          profundo_hijos rest (c :: F) (updMap V c.estado c.profundidad) := by
        rw [profundo_hijos, hv]
      rw [hstep]
      exact hpush (Or.inl hv)
    | some d0 =>
      have hstep : profundo_hijos (c :: rest) F V =
          if d0 > c.profundidad then
            profundo_hijos rest (c :: F) (updMap V c.estado c.profundidad)
          else profundo_hijos rest F V := by
        rw [profundo_hijos, hv]
      by_cases hd0 : d0 > c.profundidad
      · rw [hstep, if_pos hd0]
        exact hpush (Or.inr ⟨d0, hv, hd0⟩)
      · rw [hstep, if_neg hd0]
        have hih := ih F V hrest hgen hdomF hdomN hstat
        obtain ⟨i1, i2, i3, i4, i5, i6⟩ := hih
        refine ⟨i1, i2, i3, ?_, i5, i6⟩
        intro x hx
        rcases List.mem_cons.1 hx with rfl | hx2
        · obtain ⟨k₂, hk₂, hle2⟩ := i3 x.estado d0 hv
          exact ⟨k₂, hk₂, by omega⟩
        · exact i4 x hx2

theorem profundo_loop_ninguno (maxd : Option Int) :
    ∀ (fuel : Nat) (F : List (Nodo σ α)) (V : σ → Option Nat),
      InvDFS pb maxd F V →
      profundo_loop pb maxd fuel F V = some none →
      ∀ (j : Nat) (s : σ), AlcanzableEn pb j s →
        (∀ m, maxd = some m → (j : Int) ≤ m) → pb.meta s = false := by
  intro fuel
  induction fuel with
  | zero =>
    intro F V _ h
    cases h
  | succ fuel ih =>
    intro F V hinv hres
    obtain ⟨hgen, hx0, hdom, hstat⟩ := hinv
    match F with
    | [] =>
      have hcov : ∀ (j : Nat) (s : σ), AlcanzableEn pb j s →
          (∀ m, maxd = some m → (j : Int) ≤ m) →
          ∃ k, V s = some k ∧ k ≤ j := by
        intro j
        induction j with
        | zero =>
          intro s hr _
          rw [alcanzable_cero hr]
          exact ⟨0, hx0, le_refl 0⟩
        | succ j ihj =>
          intro s hr hb
          obtain ⟨t, a, hreach, hleg, rfl⟩ := alcanzable_succ hr
          have hbj : ∀ m, maxd = some m → (j : Int) ≤ m := by
            intro m hm
            have := hb m hm
            push_cast at this ⊢
            omega
          obtain ⟨k, hk, hkle⟩ := ihj t hreach hbj
          rcases hstat t k hk with ⟨n, hn, _⟩ | ⟨hmt, hch⟩
          · cases hn
          · have hcut : maxd = some (k : Int) → False := by
              intro hc
              have hb2 := hb (k : Int) hc
              push_cast at hb2
              omega
            obtain ⟨k₂, hk₂, hle₂⟩ := hch hcut a hleg
            exact ⟨k₂, hk₂, by omega⟩
      intro j s hr hb
      obtain ⟨k, hk, _⟩ := hcov j s hr hb
      rcases hstat s k hk with ⟨n, hn, _⟩ | ⟨hmt, _⟩
      · cases hn
      · exact hmt
    | nodo :: resto =>
      rw [profundo_loop] at hres
      by_cases hm : pb.meta nodo.estado = true
      · rw [if_pos hm] at hres
        cases hres
      · rw [if_neg hm] at hres
        have hmf : pb.meta nodo.estado = false := by simpa using hm
        have hgn : Generado pb nodo := hgen nodo (by simp)
        obtain ⟨k0, hk0, hk0le⟩ := hdom nodo (by simp)
        by_cases hcut : maxd = some (nodo.profundidad : Int)
        · rw [if_pos hcut] at hres
          refine ih resto V ⟨fun n hn => hgen n (by simp [hn]), hx0,
            fun n hn => hdom n (by simp [hn]), ?_⟩ hres
          intro s k hk
          rcases hstat s k hk with ⟨n, hn, hns, hnp⟩ | hd
          · rcases List.mem_cons.1 hn with rfl | hn2
            · refine Or.inr ⟨hns ▸ hmf, ?_⟩
              intro hnc
              exact absurd (hnp ▸ hcut) hnc
            · exact Or.inl ⟨n, hn2, hns, hnp⟩
          · exact Or.inr hd
        · rw [if_neg hcut] at hres
          have hfold := profundo_hijos_inv maxd nodo hgn hmf
            (nodo.expande pb.modelo) resto V
            (fun c hc => hc) (fun n hn => hgen n (by simp [hn]))
            (fun n hn => hdom n (by simp [hn])) ⟨k0, hk0, hk0le⟩ ?_
          · obtain ⟨i1, i2, i3, i4, i5, i6⟩ := hfold
            refine ih _ _ ⟨i2, ?_, i5, ?_⟩ hres
            · obtain ⟨k₂, hk₂, hle₂⟩ := i3 _ _ hx0
              rw [Nat.le_zero] at hle₂
              rw [hle₂] at hk₂
              exact hk₂
            · intro s k hk
              rcases i6 s k hk with hpend | hd | ⟨hseq, hkeq⟩
              · exact Or.inl hpend
              · exact Or.inr hd
              · subst hseq
                subst hkeq
                refine Or.inr ⟨hmf, ?_⟩
                intro _ a ha
                obtain ⟨k₂, hk₂, hle₂⟩ := i4 (Nodo.hijo (pb.modelo.sucesor nodo.estado a)
                  a nodo (pb.modelo.costo_local nodo.estado a))
                  (mem_expande.2 ⟨a, ha, rfl⟩)
                refine ⟨k₂, hk₂, ?_⟩
                simpa [Nodo.profundidad] using hle₂
          · intro s k hk
            rcases hstat s k hk with ⟨n, hn, hns, hnp⟩ | hd
            · rcases List.mem_cons.1 hn with rfl | hn2
              · exact Or.inr (Or.inr ⟨hns.symm, hnp.symm⟩)
              · exact Or.inl ⟨n, hn2, hns, hnp⟩
            · exact Or.inr (Or.inl hd)

theorem profundo_loop_cota (m : Int) :
    ∀ (fuel : Nat) (F : List (Nodo σ α)) (V : σ → Option Nat),
      (∀ n ∈ F, (n.profundidad : Int) ≤ m) →
      ∀ n, profundo_loop pb (some m) fuel F V = some (some n) →
        (n.profundidad : Int) ≤ m := by
  intro fuel
  induction fuel with
  | zero =>
    intro F V _ n h
    cases h
  | succ fuel ih =>
    intro F V hF n hres
    match F with
    | [] => cases hres
    | nodo :: resto =>
      rw [profundo_loop] at hres
      by_cases hm : pb.meta nodo.estado = true
      · rw [if_pos hm] at hres
        injection hres with hres
        injection hres with hres
        subst hres
        exact hF nodo (by simp)
      · rw [if_neg hm] at hres
        by_cases hcut : (some m : Option Int) = some (nodo.profundidad : Int)
        · rw [if_pos hcut] at hres
          exact ih resto V (fun x hx => hF x (by simp [hx])) n hres
        · rw [if_neg hcut] at hres
          refine ih _ _ ?_ n hres
          intro x hx
          rcases profundo_hijos_mem (nodo.expande pb.modelo) resto V x hx with h1 | h1
          · exact hF x (by simp [h1])
          · obtain ⟨a, _, hform⟩ := mem_expande.1 h1
            have hxp : x.profundidad = nodo.profundidad + 1 := by
              rw [hform, Nodo.profundidad]
            have hnp : (nodo.profundidad : Int) ≤ m := hF nodo (by simp)
            have hne : m ≠ (nodo.profundidad : Int) := by
              intro hc
              exact hcut (by rw [hc])
            rw [hxp]
            push_cast
            omega

theorem profundo_loop_mono (maxd : Option Int) :
    ∀ (fuel fuel2 : Nat) (F : List (Nodo σ α)) (V : σ → Option Nat)
      (r : Option (Nodo σ α)), fuel ≤ fuel2 →
      profundo_loop pb maxd fuel F V = some r →
      profundo_loop pb maxd fuel2 F V = some r := by
  intro fuel
  induction fuel with
  | zero =>
    intro fuel2 F V r _ h
    cases h
  | succ fuel ih =>
    intro fuel2 F V r hle h
    match fuel2 with
    | 0 => omega
    | fuel2 + 1 =>
      have hle2 : fuel ≤ fuel2 := by omega
      match F with
      | [] =>
        rw [profundo_loop] at h ⊢
        exact h
      | nodo :: resto =>
        rw [profundo_loop] at h ⊢
        by_cases hm : pb.meta nodo.estado = true
        · rw [if_pos hm] at h ⊢
          exact h
        · rw [if_neg hm] at h ⊢
          by_cases hcut : maxd = some (nodo.profundidad : Int)
          · rw [if_pos hcut] at h ⊢
            exact ih fuel2 resto V r hle2 h
          · rw [if_neg hcut] at h ⊢
            exact ih fuel2 _ _ r hle2 h

end ProfundoCorrecto

section Terminacion

variable {σ α : Type} [DecidableEq σ] [DecidableEq α] {pb : ProblemaBusqueda σ α}
variable {S : Finset σ}

theorem medida_vis_mono {vis vis2 : σ → Bool}
    (h : ∀ s, vis s = true → vis2 s = true) :
    (S.filter (fun s => vis2 s = false)).card ≤ (S.filter (fun s => vis s = false)).card := by
  apply Finset.card_le_card
  intro s hs
  simp only [Finset.mem_filter] at hs ⊢
  refine ⟨hs.1, ?_⟩
  by_cases hv : vis s = true
  · rw [h s hv] at hs
    cases hs.2
  · simpa using hv

theorem ancho_hijos_termina (nodo : Nodo σ α)
    (hScl : ∀ s ∈ S, ∀ a ∈ pb.modelo.acciones_legales s, pb.modelo.sucesor s a ∈ S) :
    ∀ (hs F : List (Nodo σ α)) (vis : σ → Bool),
      (∀ c ∈ hs, c.estado ∈ S) →
      (∀ n ∈ F, n.estado ∈ S) →
      ∀ F2 vis2, ancho_hijos pb hs F vis = Sum.inr (F2, vis2) →
        (∀ n ∈ F2, n.estado ∈ S) ∧
        (∀ s, vis s = true → vis2 s = true) ∧
        ((S.filter (fun s => vis2 s = false)).card <
          (S.filter (fun s => vis s = false)).card ∨ (F2 = F ∧ vis2 = vis)) := by
  intro hs
  induction hs with
  | nil =>
    intro F vis _ hFS F2 vis2 h
    rw [ancho_hijos] at h
    injection h with h
    injection h with h1 h2
    subst h1
    subst h2
    exact ⟨hFS, fun s h => h, Or.inr ⟨rfl, rfl⟩⟩
  | cons c rest ih =>
    intro F vis hhsS hFS F2 vis2 h
    have hcS : c.estado ∈ S := hhsS c (by simp)
    have hrestS : ∀ x ∈ rest, x.estado ∈ S := fun x hx => hhsS x (by simp [hx])
    rw [ancho_hijos] at h
    by_cases hv : vis c.estado = true
    · rw [if_pos hv] at h
      exact ih F vis hrestS hFS F2 vis2 h
    · rw [if_neg hv] at h
      by_cases hm : pb.meta c.estado = true
      · rw [if_pos hm] at h
        cases h
      · rw [if_neg hm] at h
        have hvis2 : ∀ s, ((s = c.estado : Bool) || vis s) = true ↔
            s = c.estado ∨ vis s = true := by
          intro s
          simp
        have hih := ih (F ++ [c]) (fun s => s = c.estado || vis s) hrestS ?_ F2 vis2 h
        · obtain ⟨i1, i2, i3⟩ := hih
          refine ⟨i1, ?_, ?_⟩
          · intro s hss
            exact i2 s ((hvis2 s).2 (Or.inr hss))
          · have hstrict : (S.filter (fun s =>
                ((s = c.estado : Bool) || vis s) = false)).card <
                (S.filter (fun s => vis s = false)).card := by
              apply Finset.card_lt_card
              rw [Finset.ssubset_iff_of_subset]
              · refine ⟨c.estado, ?_, ?_⟩
                · simp only [Finset.mem_filter]
                  exact ⟨hcS, by simpa using hv⟩
                · simp only [Finset.mem_filter]
                  intro hcon
                  have := hcon.2
                  simp at this
              · intro s hsm
                simp only [Finset.mem_filter, Bool.or_eq_false_iff] at hsm ⊢
                exact ⟨hsm.1, hsm.2.2⟩
            rcases i3 with h1 | ⟨hF2, hvv⟩
            · refine Or.inl (lt_of_lt_of_le h1 ?_)
              exact medida_vis_mono (fun s hss => (hvis2 s).2 (Or.inr hss))
            · refine Or.inl ?_
              rw [hvv]
              exact hstrict
        · intro n hn
          rcases List.mem_append.1 hn with h1 | h1
          · exact hFS n h1
          · simp only [List.mem_singleton] at h1
            exact h1 ▸ hcS

theorem ancho_loop_termina
    (hScl : ∀ s ∈ S, ∀ a ∈ pb.modelo.acciones_legales s, pb.modelo.sucesor s a ∈ S) :
    ∀ (m1 m2 : Nat) (F : List (Nodo σ α)) (vis : σ → Bool),
      (∀ n ∈ F, n.estado ∈ S) →
      (S.filter (fun s => vis s = false)).card = m1 → F.length = m2 →
      ∃ fuel r, ancho_loop pb fuel F vis = some r := by
  intro m1
  induction m1 using Nat.strong_induction_on with
  | _ m1 ih1 =>
    intro m2
    induction m2 using Nat.strong_induction_on with
    | _ m2 ih2 =>
      intro F vis hFS hm1 hm2
      match F with
      | [] => exact ⟨1, none, rfl⟩
      | nodo :: resto =>
        have hnodoS : nodo.estado ∈ S := hFS nodo (by simp)
        have hhsS : ∀ c ∈ nodo.expande pb.modelo, c.estado ∈ S := by
          intro c hc
          obtain ⟨a, ha, rfl⟩ := mem_expande.1 hc
          exact hScl nodo.estado hnodoS a ha
        have hrestoS : ∀ n ∈ resto, n.estado ∈ S := fun n hn => hFS n (by simp [hn])
        rcases hcase : ancho_hijos pb (nodo.expande pb.modelo) resto vis with m | fv
        · refine ⟨1, some m, ?_⟩
          rw [ancho_loop]
          simp [hcase]
        · obtain ⟨t1, t2, t3⟩ := ancho_hijos_termina nodo hScl
            (nodo.expande pb.modelo) resto vis hhsS hrestoS fv.1 fv.2 (by rw [hcase])
          rcases t3 with hlt | ⟨hFeq, hveq⟩
          · obtain ⟨fuel, r, hf⟩ := ih1 _ (by rw [← hm1]; exact hlt) fv.1.length
              fv.1 fv.2 t1 rfl rfl
            refine ⟨fuel + 1, r, ?_⟩
            rw [ancho_loop]
            simp only [hcase]
            exact hf
          · obtain ⟨fuel, r, hf⟩ := ih2 resto.length
              (by rw [← hm2]; simp) fv.1 fv.2 t1 (by rw [hveq]; exact hm1) (by rw [hFeq])
            refine ⟨fuel + 1, r, ?_⟩
            rw [ancho_loop]
            simp only [hcase]
            exact hf

/-- On a finite closed state space, `busqueda_ancho` terminates: some
fuel makes it return a definite answer. -/
theorem busqueda_ancho_termina (hS0 : pb.x0 ∈ S)
    (hScl : ∀ s ∈ S, ∀ a ∈ pb.modelo.acciones_legales s, pb.modelo.sucesor s a ∈ S) :
    ∃ fuel r, busqueda_ancho pb fuel = some r := by
  by_cases hm : pb.meta pb.x0 = true
  · exact ⟨1, some (Nodo.root pb.x0), by rw [busqueda_ancho, if_pos hm]⟩
  · have hroots : ∀ n ∈ [@Nodo.root σ α pb.x0], n.estado ∈ S := by
      intro n hn
      simp only [List.mem_singleton] at hn
      subst hn
      exact hS0
    obtain ⟨fuel, r, hf⟩ := ancho_loop_termina hScl _ _
      [Nodo.root pb.x0] (fun s => s = pb.x0) hroots rfl rfl
    exact ⟨fuel, r, by rw [busqueda_ancho, if_neg hm]; exact hf⟩

end Terminacion

section Claims2

variable {σ α : Type} [DecidableEq σ] [DecidableEq α]

theorem busqueda_ancho_correcto {pb : ProblemaBusqueda σ α}
    (hm : pb.meta pb.x0 = false) (fuel : Nat) :
    (∀ n, busqueda_ancho pb fuel = some (some n) →
      MetaEnProfundidad pb n.profundidad ∧
      ∀ k, MetaEnProfundidad pb k → n.profundidad ≤ k) ∧
    (busqueda_ancho pb fuel = some none → ∀ k, ¬ MetaEnProfundidad pb k) := by
  have hloop := @ancho_loop_correcto σ α _ _ pb fuel [Nodo.root pb.x0]
    (fun s => s = pb.x0) 0 ?_ ?_ ?_ ?_ ?_ ?_ ?_ ?_
  · rw [busqueda_ancho, if_neg (by simp [hm])]
    exact hloop
  · intro n hn
    simp only [List.mem_singleton] at hn
    exact hn ▸ Generado.root
  · intro s hs
    simp only [decide_eq_true_eq] at hs
    exact hs ▸ hm
  · intro n hn
    simp only [List.mem_singleton] at hn
    subst hn
    simp [Nodo.estado]
  · intro n hn j _
    simp only [List.mem_singleton] at hn
    subst hn
    simp [Nodo.profundidad]
  · intro s j hj hreach
    have hj0 : j = 0 := by omega
    subst hj0
    rw [alcanzable_cero hreach]
    simp
  · refine ⟨[Nodo.root pb.x0], [], rfl, ?_, ?_, ?_⟩
    · intro n hn
      simp only [List.mem_singleton] at hn
      subst hn
      rfl
    · intro n hn
      cases hn
    · intro h
      cases h
  · intro s hs
    simp only [decide_eq_true_eq] at hs
    subst hs
    exact Or.inl ⟨Nodo.root pb.x0, by simp, rfl⟩
  · simp

/-- C3: on a finite closed state space with a reachable goal,
`busqueda_ancho` returns a node whose depth is the least depth of any
goal state; if the initial state itself is a goal, a root node of depth 0
is returned immediately, whatever the fuel. -/
theorem claim_C3 (pb : ProblemaBusqueda σ α) (S : Finset σ)
    (hS0 : pb.x0 ∈ S)
    (hScl : ∀ s ∈ S, ∀ a ∈ pb.modelo.acciones_legales s, pb.modelo.sucesor s a ∈ S)
    (hreach : ∃ k, MetaEnProfundidad pb k) :
    (pb.meta pb.x0 = true →
      ∀ fuel, busqueda_ancho pb fuel = some (some (Nodo.root pb.x0))) ∧
    (∀ fuel n, busqueda_ancho pb fuel = some (some n) →
      IsLeast {k | MetaEnProfundidad pb k} n.profundidad) ∧
    (∃ fuel n, busqueda_ancho pb fuel = some (some n)) := by
  refine ⟨?_, ?_, ?_⟩
  · intro hm fuel
    rw [busqueda_ancho, if_pos hm]
  · intro fuel n hres
    by_cases hm : pb.meta pb.x0 = true
    · rw [busqueda_ancho, if_pos hm] at hres
      injection hres with hres
      injection hres with hres
      subst hres
      constructor
      · exact ⟨[], rfl, rfl, hm⟩
      · intro k _
        simp [Nodo.profundidad]
    · have := (busqueda_ancho_correcto (by simpa using hm) fuel).1 n hres
      exact ⟨this.1, this.2⟩
  · by_cases hm : pb.meta pb.x0 = true
    · exact ⟨1, Nodo.root pb.x0, by rw [busqueda_ancho, if_pos hm]⟩
    · obtain ⟨fuel, r, hf⟩ := busqueda_ancho_termina hS0 hScl
      match r with
      | some n => exact ⟨fuel, n, hf⟩
      | none =>
        obtain ⟨k, hk⟩ := hreach
        exact absurd hk ((busqueda_ancho_correcto (by simpa using hm) fuel).2 hf k)

theorem claim_C3_witness :
    (0 : Nat) ∈ ({0, 1} : Finset Nat) ∧
    (∀ s ∈ ({0, 1} : Finset Nat), ∀ a ∈ problemaLinea.modelo.acciones_legales s,
      problemaLinea.modelo.sucesor s a ∈ ({0, 1} : Finset Nat)) ∧
    (∃ k, MetaEnProfundidad problemaLinea k) ∧
    (∀ fuel n, busqueda_ancho problemaLinea fuel = some (some n) →
      IsLeast {k | MetaEnProfundidad problemaLinea k} n.profundidad) ∧
    (∃ fuel n, busqueda_ancho problemaLinea fuel = some (some n)) := by
  have h := claim_C3 problemaLinea {0, 1} (by decide) (by decide) ⟨1, [0], rfl, rfl, rfl⟩
  exact ⟨by decide, by decide, ⟨1, [0], rfl, rfl, rfl⟩, h.2.1, h.2.2⟩

end Claims2

section MedidasLemas

variable {σ α : Type} [DecidableEq σ] [DecidableEq α]

theorem updMap_isNone {β : Type} {V : σ → Option β} {s t : σ} {b : β}
    (h : (updMap V s b t).isNone = true) : (V t).isNone = true := by
  by_cases hts : t = s
  · subst hts
    simp [updMap] at h
  · simpa [updMap, hts] using h

theorem sinEntrada_mono {β : Type} {S : Finset σ} {V W : σ → Option β}
    (h : ∀ t, (W t).isNone = true → (V t).isNone = true) :
    sinEntrada S W ≤ sinEntrada S V := by
  apply Finset.card_le_card
  intro s hs
  simp only [Finset.mem_filter] at hs ⊢
  exact ⟨hs.1, h s hs.2⟩

theorem sinEntrada_updMap_lt {β : Type} {S : Finset σ} {V : σ → Option β} {s : σ} (b : β)
    (hs : s ∈ S) (hnone : V s = none) :
    sinEntrada S (updMap V s b) < sinEntrada S V := by
  apply Finset.card_lt_card
  rw [Finset.ssubset_iff_of_subset]
  · refine ⟨s, ?_, ?_⟩
    · simp only [Finset.mem_filter]
      exact ⟨hs, by simp [hnone]⟩
    · simp only [Finset.mem_filter]
      intro hcon
      have := hcon.2
      simp [updMap] at this
  · intro t ht
    simp only [Finset.mem_filter] at ht ⊢
    exact ⟨ht.1, updMap_isNone ht.2⟩

theorem sinEntrada_updMap_eq {β : Type} {S : Finset σ} {V : σ → Option β} {s : σ}
    {d : β} (b : β) (hsome : V s = some d) :
    sinEntrada S (updMap V s b) = sinEntrada S V := by
  unfold sinEntrada
  congr 1
  apply Finset.filter_congr
  intro t _
  by_cases hts : t = s
  · subst hts
    simp [updMap, hsome]
  · simp [updMap, hts]

theorem sumaProf_updMap_lt {S : Finset σ} {V : σ → Option Nat} {s : σ} {d k : Nat}
    (hs : s ∈ S) (hsome : V s = some d) (hlt : k < d) :
    sumaProf S (updMap V s k) < sumaProf S V := by
  apply Finset.sum_lt_sum
  · intro t _
    by_cases hts : t = s
    · subst hts
      simp [updMap, hsome]
      omega
    · simp [updMap, hts]
  · refine ⟨s, hs, ?_⟩
    simp [updMap, hsome]
    omega

theorem sumaCosto_updMap_lt {S : Finset σ} {V : σ → Option Int} {s : σ} {d c : Int}
    (hs : s ∈ S) (hsome : V s = some d) (hlt : c < d) (h0 : 0 ≤ c) :
    sumaCosto S (updMap V s c) < sumaCosto S V := by
  apply Finset.sum_lt_sum
  · intro t _
    by_cases hts : t = s
    · subst hts
      simp [updMap, hsome]
      omega
    · simp [updMap, hts]
  · refine ⟨s, hs, ?_⟩
    simp [updMap, hsome]
    omega

end MedidasLemas

section TerminacionProfundo

variable {σ α : Type} [DecidableEq σ] [DecidableEq α] {pb : ProblemaBusqueda σ α}
variable {S : Finset σ}

theorem profundo_hijos_termina :
    ∀ (hs F : List (Nodo σ α)) (V : σ → Option Nat),
      (∀ h ∈ hs, h.estado ∈ S) →
      (∀ n ∈ F, n.estado ∈ S) →
      (∀ n ∈ (profundo_hijos hs F V).1, n.estado ∈ S) ∧
      (sinEntrada S (profundo_hijos hs F V).2 < sinEntrada S V ∨
       (sinEntrada S (profundo_hijos hs F V).2 = sinEntrada S V ∧
        sumaProf S (profundo_hijos hs F V).2 < sumaProf S V) ∨
       ((profundo_hijos hs F V).1 = F ∧ (profundo_hijos hs F V).2 = V)) := by
  intro hs
  induction hs with
  | nil =>
    intro F V _ hFS
    rw [profundo_hijos]
    exact ⟨hFS, Or.inr (Or.inr ⟨rfl, rfl⟩)⟩
  | cons c rest ih =>
    intro F V hhs hFS
    have hcS : c.estado ∈ S := (hhs c (by simp))
    have hrest : ∀ x ∈ rest, x.estado ∈ S := fun x hx => hhs x (by simp [hx])
    have hFS2 : ∀ n ∈ c :: F, n.estado ∈ S := by
      intro n hn
      rcases List.mem_cons.1 hn with rfl | hn2
      · exact hcS
      · exact hFS n hn2
    match hv : V c.estado with
    | none =>
      have hstep : profundo_hijos (c :: rest) F V =
          profundo_hijos rest (c :: F) (updMap V c.estado c.profundidad) := by
        rw [profundo_hijos, hv]
      rw [hstep]
      obtain ⟨i1, i2⟩ := ih (c :: F) (updMap V c.estado c.profundidad) hrest hFS2
      refine ⟨i1, Or.inl ?_⟩
      have h1 : sinEntrada S (updMap V c.estado c.profundidad) < sinEntrada S V :=
        sinEntrada_updMap_lt _ hcS hv
      rcases i2 with h2 | ⟨h2, _⟩ | ⟨_, h2⟩
      · omega
      · omega
      · rw [h2]
        exact h1
    | some d =>
      have hstep : profundo_hijos (c :: rest) F V =
          if d > c.profundidad then
            profundo_hijos rest (c :: F) (updMap V c.estado c.profundidad)
          else profundo_hijos rest F V := by
        rw [profundo_hijos, hv]
      by_cases hd : d > c.profundidad
      · rw [hstep, if_pos hd]
        obtain ⟨i1, i2⟩ := ih (c :: F) (updMap V c.estado c.profundidad) hrest hFS2
        refine ⟨i1, ?_⟩
        have he : sinEntrada S (updMap V c.estado c.profundidad) = sinEntrada S V :=
          sinEntrada_updMap_eq _ hv
        have hm : sumaProf S (updMap V c.estado c.profundidad) < sumaProf S V :=
          sumaProf_updMap_lt hcS hv hd
        rcases i2 with h2 | ⟨h2, h3⟩ | ⟨_, h2⟩
        · exact Or.inl (by omega)
        · exact Or.inr (Or.inl ⟨by omega, by omega⟩)
        · rw [h2]
          exact Or.inr (Or.inl ⟨he, hm⟩)
      · rw [hstep, if_neg hd]
        exact ih F V hrest hFS

theorem profundo_loop_termina (maxd : Option Int)
    (hScl : ∀ s ∈ S, ∀ a ∈ pb.modelo.acciones_legales s, pb.modelo.sucesor s a ∈ S) :
    ∀ (m1 m2 m3 : Nat) (F : List (Nodo σ α)) (V : σ → Option Nat),
      (∀ n ∈ F, n.estado ∈ S) →
      sinEntrada S V = m1 → sumaProf S V = m2 → F.length = m3 →
      ∃ fuel r, profundo_loop pb maxd fuel F V = some r := by
  intro m1
  induction m1 using Nat.strong_induction_on with
  | _ m1 ih1 =>
    intro m2
    induction m2 using Nat.strong_induction_on with
    | _ m2 ih2 =>
      intro m3
      induction m3 using Nat.strong_induction_on with
      | _ m3 ih3 =>
        intro F V hFS hm1 hm2 hm3
        match F with
        | [] => exact ⟨1, none, rfl⟩
        | nodo :: resto =>
          by_cases hm : pb.meta nodo.estado = true
          · exact ⟨1, some nodo, by rw [profundo_loop, if_pos hm]⟩
          · have hrestoS : ∀ n ∈ resto, n.estado ∈ S := fun n hn => hFS n (by simp [hn])
            by_cases hcut : maxd = some (nodo.profundidad : Int)
            · obtain ⟨fuel, r, hf⟩ := ih3 resto.length (by rw [← hm3]; simp)
                resto V hrestoS hm1 hm2 rfl
              refine ⟨fuel + 1, r, ?_⟩
              rw [profundo_loop, if_neg hm, if_pos hcut]
              exact hf
            · have hnodoS : nodo.estado ∈ S := hFS nodo (by simp)
              have hhsS : ∀ c ∈ nodo.expande pb.modelo, c.estado ∈ S := by
                intro c hc
                obtain ⟨a, ha, rfl⟩ := mem_expande.1 hc
                exact hScl nodo.estado hnodoS a ha
              obtain ⟨t1, t2⟩ := profundo_hijos_termina (nodo.expande pb.modelo)
                resto V hhsS hrestoS
              rcases t2 with hlt | ⟨heq, hlt⟩ | ⟨hFeq, hVeq⟩
              · obtain ⟨fuel, r, hf⟩ := ih1 _ (by rw [← hm1]; exact hlt) _ _ _ _ t1 rfl rfl rfl
                refine ⟨fuel + 1, r, ?_⟩
                rw [profundo_loop, if_neg hm, if_neg hcut]
                exact hf
              · obtain ⟨fuel, r, hf⟩ := ih2 _ (by rw [← hm2]; exact hlt) _ _ _
                  t1 (by rw [heq, hm1]) rfl rfl
                refine ⟨fuel + 1, r, ?_⟩
                rw [profundo_loop, if_neg hm, if_neg hcut]
                exact hf
              · obtain ⟨fuel, r, hf⟩ := ih3 resto.length (by rw [← hm3]; simp)
                  (profundo_hijos (nodo.expande pb.modelo) resto V).1
                  (profundo_hijos (nodo.expande pb.modelo) resto V).2
                  t1 (by rw [hVeq, hm1]) (by rw [hVeq, hm2]) (by rw [hFeq])
                refine ⟨fuel + 1, r, ?_⟩
                rw [profundo_loop, if_neg hm, if_neg hcut]
                exact hf

/-- On a finite closed state space, `busqueda_profundo` terminates for
every depth bound: some fuel makes it return a definite answer. -/
theorem busqueda_profundo_termina (maxd : Option Int) (hS0 : pb.x0 ∈ S)
    (hScl : ∀ s ∈ S, ∀ a ∈ pb.modelo.acciones_legales s, pb.modelo.sucesor s a ∈ S) :
    ∃ fuel r, busqueda_profundo pb maxd fuel = some r := by
  have hroots : ∀ n ∈ [@Nodo.root σ α pb.x0], n.estado ∈ S := by
    intro n hn
    simp only [List.mem_singleton] at hn
    subst hn
    exact hS0
  obtain ⟨fuel, r, hf⟩ := profundo_loop_termina maxd hScl _ _ _ [Nodo.root pb.x0]
    (updMap (fun _ => none) pb.x0 0) hroots rfl rfl rfl
  exact ⟨fuel, r, hf⟩

end TerminacionProfundo

section TerminacionCU

variable {σ α : Type} [DecidableEq σ] [DecidableEq α] {pb : ProblemaBusqueda σ α}
variable {S : Finset σ}

theorem estrella_hijos_termina (heuristica : Nodo σ α → Int) :
    ∀ (hs : List (Nodo σ α)) (F : List (Int × Nodo σ α)) (V : σ → Option Int),
      (∀ h ∈ hs, h.estado ∈ S ∧ 0 ≤ h.costo) →
      (∀ e ∈ F, e.2.estado ∈ S ∧ 0 ≤ e.2.costo) →
      (∀ e ∈ (estrella_hijos heuristica hs F V).1, e.2.estado ∈ S ∧ 0 ≤ e.2.costo) ∧
      (sinEntrada S (estrella_hijos heuristica hs F V).2 < sinEntrada S V ∨
       (sinEntrada S (estrella_hijos heuristica hs F V).2 = sinEntrada S V ∧
        sumaCosto S (estrella_hijos heuristica hs F V).2 < sumaCosto S V) ∨
       ((estrella_hijos heuristica hs F V).1 = F ∧
        (estrella_hijos heuristica hs F V).2 = V)) := by
  intro hs
  induction hs with
  | nil =>
    intro F V _ hFS
    rw [estrella_hijos]
    exact ⟨hFS, Or.inr (Or.inr ⟨rfl, rfl⟩)⟩
  | cons c rest ih =>
    intro F V hhs hFS
    have hcS : c.estado ∈ S := (hhs c (by simp)).1
    have hc0 : 0 ≤ c.costo := (hhs c (by simp)).2
    have hrest : ∀ x ∈ rest, x.estado ∈ S ∧ 0 ≤ x.costo := fun x hx => hhs x (by simp [hx])
    have hFS2 : ∀ e ∈ heappush entryLt F (c.costo + heuristica c, c),
        e.2.estado ∈ S ∧ 0 ≤ e.2.costo := by
      intro e he
      rcases heappush_mem he with rfl | he2
      · exact ⟨hcS, hc0⟩
      · exact hFS e he2
    match hv : V c.estado with
    | none =>
      have hstep : estrella_hijos heuristica (c :: rest) F V =
          estrella_hijos heuristica rest (heappush entryLt F (c.costo + heuristica c, c))
            (updMap V c.estado c.costo) := by
        rw [estrella_hijos, hv]
      rw [hstep]
      obtain ⟨i1, i2⟩ := ih (heappush entryLt F (c.costo + heuristica c, c))
        (updMap V c.estado c.costo) hrest hFS2
      refine ⟨i1, Or.inl ?_⟩
      have h1 : sinEntrada S (updMap V c.estado c.costo) < sinEntrada S V :=
        sinEntrada_updMap_lt _ hcS hv
      rcases i2 with h2 | ⟨h2, _⟩ | ⟨_, h2⟩
      · omega
      · omega
      · rw [h2]
        exact h1
    | some d =>
      have hstep : estrella_hijos heuristica (c :: rest) F V =
          if d > c.costo then
            estrella_hijos heuristica rest (heappush entryLt F (c.costo + heuristica c, c))
              (updMap V c.estado c.costo)
          else estrella_hijos heuristica rest F V := by
        rw [estrella_hijos, hv]
      by_cases hd : d > c.costo
      · rw [hstep, if_pos hd]
        obtain ⟨i1, i2⟩ := ih (heappush entryLt F (c.costo + heuristica c, c))
          (updMap V c.estado c.costo) hrest hFS2
        refine ⟨i1, ?_⟩
        have he : sinEntrada S (updMap V c.estado c.costo) = sinEntrada S V :=
          sinEntrada_updMap_eq _ hv
        have hm : sumaCosto S (updMap V c.estado c.costo) < sumaCosto S V :=
          sumaCosto_updMap_lt hcS hv hd hc0
        rcases i2 with h2 | ⟨h2, h3⟩ | ⟨_, h2⟩
        · exact Or.inl (by omega)
        · exact Or.inr (Or.inl ⟨by omega, by omega⟩)
        · rw [h2]
          exact Or.inr (Or.inl ⟨he, hm⟩)
      · rw [hstep, if_neg hd]
        exact ih F V hrest hFS

theorem estrella_loop_termina (heuristica : Nodo σ α → Int)
    (hScl : ∀ s ∈ S, ∀ a ∈ pb.modelo.acciones_legales s, pb.modelo.sucesor s a ∈ S)
    (hc : ∀ s a, 0 ≤ pb.modelo.costo_local s a) :
    ∀ (m1 m2 m3 : Nat) (F : List (Int × Nodo σ α)) (V : σ → Option Int),
      (∀ e ∈ F, e.2.estado ∈ S ∧ 0 ≤ e.2.costo) →
      sinEntrada S V = m1 → sumaCosto S V = m2 → F.length = m3 →
      ∃ fuel r, estrella_loop pb heuristica fuel F V = some r := by
  intro m1
  induction m1 using Nat.strong_induction_on with
  | _ m1 ih1 =>
    intro m2
    induction m2 using Nat.strong_induction_on with
    | _ m2 ih2 =>
      intro m3
      induction m3 using Nat.strong_induction_on with
      | _ m3 ih3 =>
        intro F V hFS hm1 hm2 hm3
        match F with
        | [] => exact ⟨1, none, rfl⟩
        | e :: resto =>
          have heS : e.2.estado ∈ S := (hFS e (by simp)).1
          have he0 : 0 ≤ e.2.costo := (hFS e (by simp)).2
          have hhsS : ∀ h ∈ e.2.expande pb.modelo, h.estado ∈ S ∧ 0 ≤ h.costo := by
            intro h hmem
            obtain ⟨a, ha, rfl⟩ := mem_expande.1 hmem
            refine ⟨hScl e.2.estado heS a ha, ?_⟩
            simp only [Nodo.costo]
            exact add_nonneg he0 (hc _ _)
          have hprS : ∀ z ∈ (heappop entryLt e resto).2, z.2.estado ∈ S ∧ 0 ≤ z.2.costo :=
            fun z hz => hFS z (heappop_mem_snd hz)
          by_cases hm : pb.meta e.2.estado = true
          · refine ⟨1, some e.2, ?_⟩
            rw [estrella_loop]
            simp only [heappop_fst]
            rw [if_pos hm]
          · obtain ⟨t1, t2⟩ := estrella_hijos_termina heuristica (e.2.expande pb.modelo)
              (heappop entryLt e resto).2 V hhsS hprS
            rcases t2 with hlt | ⟨heq, hlt⟩ | ⟨hFeq, hVeq⟩
            · obtain ⟨fuel, r, hf⟩ := ih1 _ (by rw [← hm1]; exact hlt) _ _ _ _ t1 rfl rfl rfl
              refine ⟨fuel + 1, r, ?_⟩
              rw [estrella_loop]
              simp only [heappop_fst]
              rw [if_neg hm]
              exact hf
            · obtain ⟨fuel, r, hf⟩ := ih2 _ (by rw [← hm2]; exact hlt) _ _ _
                t1 (by rw [heq, hm1]) rfl rfl
              refine ⟨fuel + 1, r, ?_⟩
              rw [estrella_loop]
              simp only [heappop_fst]
              rw [if_neg hm]
              exact hf
            · obtain ⟨fuel, r, hf⟩ := ih3 resto.length
                (by rw [← hm3]; simp)
                (estrella_hijos heuristica (e.2.expande pb.modelo)
                  (heappop entryLt e resto).2 V).1
                (estrella_hijos heuristica (e.2.expande pb.modelo)
                  (heappop entryLt e resto).2 V).2
                t1 (by rw [hVeq, hm1]) (by rw [hVeq, hm2])
                (by rw [hFeq, heappop_length])
              refine ⟨fuel + 1, r, ?_⟩
              rw [estrella_loop]
              simp only [heappop_fst]
              rw [if_neg hm]
              exact hf

/-- On a finite closed state space with non-negative step costs,
`busqueda_A_estrella` terminates for every heuristic. -/
theorem busqueda_A_estrella_termina (heuristica : Nodo σ α → Int) (hS0 : pb.x0 ∈ S)
    (hScl : ∀ s ∈ S, ∀ a ∈ pb.modelo.acciones_legales s, pb.modelo.sucesor s a ∈ S)
    (hc : ∀ s a, 0 ≤ pb.modelo.costo_local s a) :
    ∃ fuel r, busqueda_A_estrella pb heuristica fuel = some r := by
  have hF0 : ∀ e ∈ heappush entryLt [] ((0 : Int), @Nodo.root σ α pb.x0),
      e.2.estado ∈ S ∧ 0 ≤ e.2.costo := by
    intro e he
    rcases heappush_mem he with rfl | he2
    · exact ⟨hS0, le_refl 0⟩
    · cases he2
  obtain ⟨fuel, r, hf⟩ := estrella_loop_termina heuristica hScl hc _ _ _
    (heappush entryLt [] (0, Nodo.root pb.x0)) (updMap (fun _ => none) pb.x0 0)
    hF0 rfl rfl rfl
  exact ⟨fuel, r, hf⟩

/-- On a finite closed state space with non-negative step costs,
`busqueda_costo_uniforme` terminates. -/
theorem busqueda_costo_uniforme_termina (hS0 : pb.x0 ∈ S)
    (hScl : ∀ s ∈ S, ∀ a ∈ pb.modelo.acciones_legales s, pb.modelo.sucesor s a ∈ S)
    (hc : ∀ s a, 0 ≤ pb.modelo.costo_local s a) :
    ∃ fuel r, busqueda_costo_uniforme pb fuel = some r := by
  obtain ⟨fuel, r, hf⟩ := busqueda_A_estrella_termina (fun _ => 0) hS0 hScl hc
  refine ⟨fuel, r, ?_⟩
  rw [busqueda_costo_uniforme, ← estrella_loop_zero]
  rw [busqueda_A_estrella] at hf
  exact hf

end TerminacionCU

section RondasBPI

variable {σ α : Type} [DecidableEq σ] [DecidableEq α] {pb : ProblemaBusqueda σ α}

theorem Generado.metaEnProfundidad {n : Nodo σ α} (hg : Generado pb n)
    (hm : pb.meta n.estado = true) : MetaEnProfundidad pb n.profundidad :=
  ⟨n.acciones, hg.profundidad, hg.esCamino, (by rw [hg.ejecuta]; exact hm)⟩

theorem Generado.metaConCosto {n : Nodo σ α} (hg : Generado pb n)
    (hm : pb.meta n.estado = true) : MetaConCosto pb n.costo :=
  ⟨n.acciones, hg.esCamino, (by rw [hg.ejecuta]; exact hm), hg.costo⟩

theorem invDFS_inicial (maxd : Option Int) :
    InvDFS pb maxd [Nodo.root pb.x0] (updMap (fun _ => none) pb.x0 0) := by
  refine ⟨?_, ?_, ?_, ?_⟩
  · intro n hn
    simp only [List.mem_singleton] at hn
    subst hn
    exact Generado.root
  · simp [updMap]
  · intro n hn
    simp only [List.mem_singleton] at hn
    subst hn
    exact ⟨0, by simp [updMap, Nodo.estado], by simp [Nodo.profundidad]⟩
  · intro s k hk
    rw [updMap_lookup] at hk
    by_cases hs : s = pb.x0
    · rw [if_pos hs] at hk
      injection hk with hk
      subst hs
      exact Or.inl ⟨Nodo.root pb.x0, by simp, rfl, hk⟩
    · rw [if_neg hs] at hk
      cases hk

theorem busqueda_profundo_ninguno (maxd : Option Int) (fuel : Nat)
    (h : busqueda_profundo pb maxd fuel = some none) :
    ∀ (j : Nat) (s : σ), AlcanzableEn pb j s →
      (∀ m, maxd = some m → (j : Int) ≤ m) → pb.meta s = false :=
  profundo_loop_ninguno maxd fuel _ _ (invDFS_inicial maxd) h

theorem busqueda_profundo_acotado (m : Int) (hm : 0 ≤ m) (fuel : Nat) (n : Nodo σ α)
    (h : busqueda_profundo pb (some m) fuel = some (some n)) :
    (n.profundidad : Int) ≤ m := by
  refine profundo_loop_cota m fuel _ _ ?_ n h
  intro x hx
  simp only [List.mem_singleton] at hx
  subst hx
  simpa [Nodo.profundidad] using hm

theorem busqueda_profundo_mono (maxd : Option Int) (fuel fuel2 : Nat)
    (r : Option (Nodo σ α)) (hle : fuel ≤ fuel2)
    (h : busqueda_profundo pb maxd fuel = some r) :
    busqueda_profundo pb maxd fuel2 = some r :=
  profundo_loop_mono maxd fuel fuel2 _ _ r hle h

theorem bpi_loop_mono :
    ∀ (ps : List Int) (fuel fuel2 : Nat) (r : Option (Nodo σ α)), fuel ≤ fuel2 →
      bpi_loop pb fuel ps = some r → bpi_loop pb fuel2 ps = some r := by
  intro ps
  induction ps with
  | nil =>
    intro fuel fuel2 r _ h
    rw [bpi_loop] at h ⊢
    exact h
  | cons p rest ih =>
    intro fuel fuel2 r hle h
    rw [bpi_loop] at h ⊢
    match hr : busqueda_profundo pb (some p) fuel with
    | none =>
      rw [hr] at h
      have h2 : (none : Option (Option (Nodo σ α))) = some r := h
      cases h2
    | some none =>
      rw [hr] at h
      rw [busqueda_profundo_mono _ _ _ _ hle hr]
      have h2 : bpi_loop pb fuel rest = some r := h
      have h3 := ih fuel fuel2 r hle h2
      exact h3
    | some (some n) =>
      rw [hr] at h
      rw [busqueda_profundo_mono _ _ _ _ hle hr]
      exact h

theorem bpi_rounds (d : Nat) (hd : IsLeast {k | MetaEnProfundidad pb k} d) :
    ∀ (len a fuel : Nat) (n : Nodo σ α), a ≤ d →
      bpi_loop pb fuel ((List.range' a len).map Int.ofNat) = some (some n) →
      n.profundidad = d := by
  intro len
  induction len with
  | zero =>
    intro a fuel n _ h
    have h2 : (some none : Option (Option (Nodo σ α))) = some (some n) := h
    simp at h2
  | succ len ih =>
    intro a fuel n ha h
    have hsucc : (List.range' a (len + 1)).map Int.ofNat =
        Int.ofNat a :: (List.range' (a + 1) len).map Int.ofNat := by
      rw [List.range'_succ]
      rfl
    rw [hsucc, bpi_loop] at h
    match hr : busqueda_profundo pb (some (Int.ofNat a)) fuel with
    | none =>
      rw [hr] at h
      have h2 : (none : Option (Option (Nodo σ α))) = some (some n) := h
      cases h2
    | some none =>
      rw [hr] at h
      have hne : a ≠ d := by
        intro heq
        obtain ⟨as, hlen, hpath, hmeta⟩ := hd.1
        have := busqueda_profundo_ninguno (some (Int.ofNat a)) fuel hr d
          (ejecuta pb.modelo pb.x0 as) ⟨as, hlen, hpath, rfl⟩ ?_
        · rw [this] at hmeta
          cases hmeta
        · intro m hm
          injection hm with hm
          have hm2 : ((a : Nat) : Int) = m := hm
          omega
      have h2 : bpi_loop pb fuel ((List.range' (a + 1) len).map Int.ofNat) =
          some (some n) := h
      exact ih (a + 1) fuel n (by omega) h2
    | some (some n₂) =>
      rw [hr] at h
      have h2 : (some (some n₂) : Option (Option (Nodo σ α))) = some (some n) := h
      injection h2 with h2
      injection h2 with h2
      rw [h2] at hr
      obtain ⟨hg, hm⟩ := busqueda_profundo_devuelto _ fuel n hr
      have hmin : d ≤ n.profundidad := hd.2 (hg.metaEnProfundidad hm)
      have hcota := busqueda_profundo_acotado (Int.ofNat a) (Int.natCast_nonneg a) fuel n hr
      have hcota2 : (n.profundidad : Int) ≤ ((a : Nat) : Int) := hcota
      omega

theorem bpi_existe (d : Nat) (hd : IsLeast {k | MetaEnProfundidad pb k} d)
    (hter : ∀ p : Nat, ∃ fuel r, busqueda_profundo pb (some (Int.ofNat p)) fuel = some r) :
    ∀ (len a : Nat), a ≤ d → d < a + len →
      ∃ fuel n, bpi_loop pb fuel ((List.range' a len).map Int.ofNat) = some (some n) ∧
        n.profundidad = d := by
  intro len
  induction len with
  | zero =>
    intro a ha hlt
    omega
  | succ len ih =>
    intro a ha hlt
    have hsucc : (List.range' a (len + 1)).map Int.ofNat =
        Int.ofNat a :: (List.range' (a + 1) len).map Int.ofNat := by
      rw [List.range'_succ]
      rfl
    obtain ⟨fuel₁, r₁, hr₁⟩ := hter a
    match r₁, hr₁ with
    | some n₁, hr₁ =>
      obtain ⟨hg, hm⟩ := busqueda_profundo_devuelto _ fuel₁ n₁ hr₁
      have hmin : d ≤ n₁.profundidad := hd.2 (hg.metaEnProfundidad hm)
      have hcota := busqueda_profundo_acotado (Int.ofNat a) (Int.natCast_nonneg a) fuel₁ n₁ hr₁
      have hcota2 : (n₁.profundidad : Int) ≤ ((a : Nat) : Int) := hcota
      refine ⟨fuel₁, n₁, ?_, by omega⟩
      rw [hsucc, bpi_loop, hr₁]
    | none, hr₁ =>
      have hne : a ≠ d := by
        intro heq
        obtain ⟨as, hlen, hpath, hmeta⟩ := hd.1
        have := busqueda_profundo_ninguno (some (Int.ofNat a)) fuel₁ hr₁ d
          (ejecuta pb.modelo pb.x0 as) ⟨as, hlen, hpath, rfl⟩ ?_
        · rw [this] at hmeta
          cases hmeta
        · intro m hm
          injection hm with hm
          have hm2 : ((a : Nat) : Int) = m := hm
          omega
      obtain ⟨fuelR, n, hR, hprof⟩ := ih (a + 1) (by omega) (by omega)
      have hr₁m := busqueda_profundo_mono _ _ (max fuel₁ fuelR) _ (le_max_left _ _) hr₁
      have hRm := bpi_loop_mono _ _ (max fuel₁ fuelR) _ (le_max_right _ _) hR
      refine ⟨max fuel₁ fuelR, n, ?_, hprof⟩
      rw [hsucc, bpi_loop, hr₁m]
      exact hRm

end RondasBPI

section EstadosCULemas

variable {σ α : Type} [DecidableEq σ] [DecidableEq α] {pb : ProblemaBusqueda σ α}

theorem uniforme_hijos_isHeap :
    ∀ (hs : List (Nodo σ α)) (F : List (Int × Nodo σ α)) (V : σ → Option Int),
      IsHeap entryLt F → IsHeap entryLt (uniforme_hijos hs F V).1 := by
  intro hs
  induction hs with
  | nil =>
    intro F V h
    rw [uniforme_hijos]
    exact h
  | cons c rest ih =>
    intro F V h
    match hv : V c.estado with
    | none =>
      have hstep : uniforme_hijos (c :: rest) F V =
          uniforme_hijos rest (heappush entryLt F (c.costo, c))
            (updMap V c.estado c.costo) := by
        rw [uniforme_hijos, hv]
      rw [hstep]
      exact ih _ _ (heappush_isHeap entryLt_irrefl entryLt_asymm entryLt_nlt_trans _ _ h)
    | some d =>
      have hstep : uniforme_hijos (c :: rest) F V =
          if d > c.costo then
            uniforme_hijos rest (heappush entryLt F (c.costo, c))
              (updMap V c.estado c.costo)
          else uniforme_hijos rest F V := by
        rw [uniforme_hijos, hv]
      by_cases hd : d > c.costo
      · rw [hstep, if_pos hd]
        exact ih _ _ (heappush_isHeap entryLt_irrefl entryLt_asymm entryLt_nlt_trans _ _ h)
      · rw [hstep, if_neg hd]
        exact ih _ _ h

theorem estrella_hijos_isHeap (heuristica : Nodo σ α → Int) :
    ∀ (hs : List (Nodo σ α)) (F : List (Int × Nodo σ α)) (V : σ → Option Int),
      IsHeap entryLt F → IsHeap entryLt (estrella_hijos heuristica hs F V).1 := by
  intro hs
  induction hs with
  | nil =>
    intro F V h
    rw [estrella_hijos]
    exact h
  | cons c rest ih =>
    intro F V h
    match hv : V c.estado with
    | none =>
      have hstep : estrella_hijos heuristica (c :: rest) F V =
          estrella_hijos heuristica rest
            (heappush entryLt F (c.costo + heuristica c, c))
            (updMap V c.estado c.costo) := by
        rw [estrella_hijos, hv]
      rw [hstep]
      exact ih _ _ (heappush_isHeap entryLt_irrefl entryLt_asymm entryLt_nlt_trans _ _ h)
    | some d =>
      have hstep : estrella_hijos heuristica (c :: rest) F V =
          if d > c.costo then
            estrella_hijos heuristica rest
              (heappush entryLt F (c.costo + heuristica c, c))
              (updMap V c.estado c.costo)
          else estrella_hijos heuristica rest F V := by
        rw [estrella_hijos, hv]
      by_cases hd : d > c.costo
      · rw [hstep, if_pos hd]
        exact ih _ _ (heappush_isHeap entryLt_irrefl entryLt_asymm entryLt_nlt_trans _ _ h)
      · rw [hstep, if_neg hd]
        exact ih _ _ h

/-- Every frontier reachable by the uniform-cost loop is a binary heap
for `entryLt`. -/
theorem ucsEstado_isHeap {F : List (Int × Nodo σ α)} {V : σ → Option Int}
    (h : UcsEstado pb F V) : IsHeap entryLt F := by
  induction h with
  | init =>
    exact heappush_isHeap entryLt_irrefl entryLt_asymm entryLt_nlt_trans _ _ isHeap_nil
  | step e resto V hprev hmeta ih =>
    exact uniforme_hijos_isHeap _ _ _
      (heappop_isHeap entryLt_irrefl entryLt_asymm entryLt_nlt_trans e resto ih)

/-- Every frontier reachable by the A* loop is a binary heap for
`entryLt`. -/
theorem estrellaEstado_isHeap {heuristica : Nodo σ α → Int}
    {F : List (Int × Nodo σ α)} {V : σ → Option Int}
    (h : EstrellaEstado pb heuristica F V) : IsHeap entryLt F := by
  induction h with
  | init =>
    exact heappush_isHeap entryLt_irrefl entryLt_asymm entryLt_nlt_trans _ _ isHeap_nil
  | step e resto V hprev hmeta ih =>
    exact estrella_hijos_isHeap heuristica _ _ _
      (heappop_isHeap entryLt_irrefl entryLt_asymm entryLt_nlt_trans e resto ih)

end EstadosCULemas

section CorreccionCU

variable {σ α : Type} [DecidableEq σ] [DecidableEq α] {pb : ProblemaBusqueda σ α}

theorem descartadoCU_mono {V W : σ → Option Int}
    (hmono : ∀ s c, V s = some c → ∃ c₂, W s = some c₂ ∧ c₂ ≤ c)
    {s : σ} {c : Int} (h : DescartadoCU pb V s c) : DescartadoCU pb W s c := by
  obtain ⟨hm, hch⟩ := h
  refine ⟨hm, ?_⟩
  intro a ha
  obtain ⟨c₂, hc₂, hle⟩ := hch a ha
  obtain ⟨c₃, hc₃, hle3⟩ := hmono _ _ hc₂
  exact ⟨c₃, hc₃, by omega⟩

theorem estrella_hijos_inv (heuristica : Nodo σ α → Int) (pri : Int → Nodo σ α → Prop)
    (hpri : ∀ h : Nodo σ α, pri (h.costo + heuristica h) h)
    (nodo : Nodo σ α) (hgn : Generado pb nodo) (hmnodo : pb.meta nodo.estado = false) :
    ∀ (hs : List (Nodo σ α)) (F : List (Int × Nodo σ α)) (V : σ → Option Int),
      (∀ c ∈ hs, c ∈ nodo.expande pb.modelo) →
      IsHeap entryLt F →
      (∀ e ∈ F, Generado pb e.2 ∧ pri e.1 e.2) →
      (∀ s c, V s = some c →
        (∃ e ∈ F, e.2.estado = s ∧ e.2.costo ≤ c) ∨ DescartadoCU pb V s c ∨
        (s = nodo.estado ∧ nodo.costo ≤ c)) →
      IsHeap entryLt (estrella_hijos heuristica hs F V).1 ∧
      (∀ e ∈ F, e ∈ (estrella_hijos heuristica hs F V).1) ∧
      (∀ e ∈ (estrella_hijos heuristica hs F V).1, Generado pb e.2 ∧ pri e.1 e.2) ∧
      (∀ s c, V s = some c → ∃ c₂,
        (estrella_hijos heuristica hs F V).2 s = some c₂ ∧ c₂ ≤ c) ∧
      (∀ c ∈ hs, ∃ c₂, (estrella_hijos heuristica hs F V).2 c.estado = some c₂ ∧
        c₂ ≤ c.costo) ∧
      (∀ s c, (estrella_hijos heuristica hs F V).2 s = some c →
        (∃ e ∈ (estrella_hijos heuristica hs F V).1, e.2.estado = s ∧ e.2.costo ≤ c) ∨
        DescartadoCU pb (estrella_hijos heuristica hs F V).2 s c ∨
        (s = nodo.estado ∧ nodo.costo ≤ c)) := by
  intro hs
  induction hs with
  | nil =>
    intro F V _ hheap hgen hstat
    rw [estrella_hijos]
    exact ⟨hheap, fun e he => he, hgen, fun s c h => ⟨c, h, le_refl c⟩,
      fun c hc => absurd hc (List.not_mem_nil c), hstat⟩
  | cons c rest ih =>
    intro F V hexp hheap hgen hstat
    have hcexp : c ∈ nodo.expande pb.modelo := hexp c (by simp)
    have hgc : Generado pb c := hgn.de_expande hcexp
    have hrest : ∀ x ∈ rest, x ∈ nodo.expande pb.modelo :=
      fun x hx => hexp x (List.mem_cons_of_mem _ hx)
    have hpush :
        ∀ hcond : (V c.estado = none ∨ ∃ d0, V c.estado = some d0 ∧ c.costo < d0),
        IsHeap entryLt (estrella_hijos heuristica rest
          (heappush entryLt F (c.costo + heuristica c, c))
          (updMap V c.estado c.costo)).1 ∧
        (∀ e ∈ F, e ∈ (estrella_hijos heuristica rest
          (heappush entryLt F (c.costo + heuristica c, c))
          (updMap V c.estado c.costo)).1) ∧
        (∀ e ∈ (estrella_hijos heuristica rest
          (heappush entryLt F (c.costo + heuristica c, c))
          (updMap V c.estado c.costo)).1, Generado pb e.2 ∧ pri e.1 e.2) ∧
        (∀ s k, V s = some k → ∃ k₂, (estrella_hijos heuristica rest
          (heappush entryLt F (c.costo + heuristica c, c))
          (updMap V c.estado c.costo)).2 s = some k₂ ∧ k₂ ≤ k) ∧
        (∀ x ∈ c :: rest, ∃ k₂, (estrella_hijos heuristica rest
          (heappush entryLt F (c.costo + heuristica c, c))
          (updMap V c.estado c.costo)).2 x.estado = some k₂ ∧ k₂ ≤ x.costo) ∧
        (∀ s k, (estrella_hijos heuristica rest
          (heappush entryLt F (c.costo + heuristica c, c))
          (updMap V c.estado c.costo)).2 s = some k →
          (∃ e ∈ (estrella_hijos heuristica rest
            (heappush entryLt F (c.costo + heuristica c, c))
            (updMap V c.estado c.costo)).1, e.2.estado = s ∧ e.2.costo ≤ k) ∨
          DescartadoCU pb (estrella_hijos heuristica rest
            (heappush entryLt F (c.costo + heuristica c, c))
            (updMap V c.estado c.costo)).2 s k ∨
          (s = nodo.estado ∧ nodo.costo ≤ k)) := by
      intro hcond
      have hupd : ∀ s k, V s = some k →
          ∃ k₂, updMap V c.estado c.costo s = some k₂ ∧ k₂ ≤ k := by
        intro s k hsk
        by_cases hsc : s = c.estado
        · subst hsc
          rcases hcond with h1 | ⟨d0, hd0, hlt⟩
          · rw [h1] at hsk
            cases hsk
          · rw [hd0] at hsk
            injection hsk with hsk
            subst hsk
            exact ⟨c.costo, by simp [updMap], by omega⟩
        · exact ⟨k, by simpa [updMap, hsc] using hsk, le_refl k⟩
      have hih := ih (heappush entryLt F (c.costo + heuristica c, c))
        (updMap V c.estado c.costo) hrest ?_ ?_ ?_
      · obtain ⟨i1, i2, i3, i4, i5, i6⟩ := hih
        refine ⟨i1, fun e he => i2 e (mem_heappush_of_mem _ he), i3, ?_, ?_, i6⟩
        · intro s k hsk
          obtain ⟨k₂, hk₂, hle⟩ := hupd s k hsk
          obtain ⟨k₃, hk₃, hle3⟩ := i4 s k₂ hk₂
          exact ⟨k₃, hk₃, by omega⟩
        · intro x hx
          rcases List.mem_cons.1 hx with rfl | hx2
          · obtain ⟨k₃, hk₃, hle3⟩ := i4 x.estado x.costo (by simp [updMap])
            exact ⟨k₃, hk₃, hle3⟩
          · exact i5 x hx2
      · exact heappush_isHeap entryLt_irrefl entryLt_asymm entryLt_nlt_trans _ _ hheap
      · intro e he
        rcases heappush_mem he with rfl | he2
        · exact ⟨hgc, hpri c⟩
        · exact hgen e he2
      · intro s k hsk
        by_cases hsc : s = c.estado
        · subst hsc
          rw [updMap_lookup, if_pos rfl] at hsk
          injection hsk with hsk
          subst hsk
          exact Or.inl ⟨(c.costo + heuristica c, c), mem_heappush_self _ _, rfl, le_refl _⟩
        · rw [updMap_lookup, if_neg hsc] at hsk
          rcases hstat s k hsk with ⟨e, he, hes, hec⟩ | hd | hd
          · exact Or.inl ⟨e, mem_heappush_of_mem _ he, hes, hec⟩
          · exact Or.inr (Or.inl (descartadoCU_mono hupd hd))
          · exact Or.inr (Or.inr hd)
    match hv : V c.estado with
    | none =>
      have hstep : estrella_hijos heuristica (c :: rest) F V =
          estrella_hijos heuristica rest
            (heappush entryLt F (c.costo + heuristica c, c))
            (updMap V c.estado c.costo) := by
        rw [estrella_hijos, hv]
      rw [hstep]
      exact hpush (Or.inl hv)
    | some d0 =>
      have hstep : estrella_hijos heuristica (c :: rest) F V =
          if d0 > c.costo then
            estrella_hijos heuristica rest
              (heappush entryLt F (c.costo + heuristica c, c))
              (updMap V c.estado c.costo)
          else estrella_hijos heuristica rest F V := by
        rw [estrella_hijos, hv]
      by_cases hd0 : d0 > c.costo
      · rw [hstep, if_pos hd0]
        exact hpush (Or.inr ⟨d0, hv, hd0⟩)
      · rw [hstep, if_neg hd0]
        have hih := ih F V hrest hheap hgen hstat
        obtain ⟨i1, i2, i3, i4, i5, i6⟩ := hih
        refine ⟨i1, i2, i3, i4, ?_, i6⟩
        intro x hx
        rcases List.mem_cons.1 hx with rfl | hx2
        · obtain ⟨k₂, hk₂, hle2⟩ := i4 x.estado d0 hv
          exact ⟨k₂, hk₂, by omega⟩
        · exact i5 x hx2

theorem cobertura_cu {pri : Int → Nodo σ α → Prop} {F : List (Int × Nodo σ α)}
    {V : σ → Option Int} (hinv : InvCU pb pri F V) :
    ∀ as : List α, esCamino pb.modelo pb.x0 as = true →
      (∃ e ∈ F, ∃ i, i ≤ as.length ∧
        e.2.estado = ejecuta pb.modelo pb.x0 (as.take i) ∧
        e.2.costo ≤ costoCamino pb.modelo pb.x0 (as.take i)) ∨
      (∃ c, V (ejecuta pb.modelo pb.x0 as) = some c ∧
        c ≤ costoCamino pb.modelo pb.x0 as ∧
        DescartadoCU pb V (ejecuta pb.modelo pb.x0 as) c) := by
  obtain ⟨hheap, hgen, ⟨c₀, hx0, hc₀⟩, hstat⟩ := hinv
  intro as
  induction as using List.reverseRecOn with
  | nil =>
    intro _
    rcases hstat pb.x0 c₀ hx0 with ⟨e, he, hes, hec⟩ | hd
    · refine Or.inl ⟨e, he, 0, by simp, hes, ?_⟩
      have hz : costoCamino pb.modelo pb.x0 (List.take 0 ([] : List α)) = 0 := rfl
      rw [hz]
      omega
    · refine Or.inr ⟨c₀, hx0, ?_, hd⟩
      have hz : costoCamino pb.modelo pb.x0 ([] : List α) = 0 := rfl
      rw [hz]
      exact hc₀
  | append_singleton as a ihc =>
    intro hcam
    rw [esCamino_append] at hcam
    simp only [Bool.and_eq_true] at hcam
    obtain ⟨hcam1, hcam2⟩ := hcam
    have hleg : a ∈ pb.modelo.acciones_legales (ejecuta pb.modelo pb.x0 as) := by
      rw [esCamino] at hcam2
      simp only [Bool.and_eq_true, decide_eq_true_eq] at hcam2
      exact hcam2.1
    have hejec : ejecuta pb.modelo pb.x0 (as ++ [a]) =
        pb.modelo.sucesor (ejecuta pb.modelo pb.x0 as) a := by
      rw [ejecuta_append]
      rfl
    have hcost : costoCamino pb.modelo pb.x0 (as ++ [a]) =
        costoCamino pb.modelo pb.x0 as +
          pb.modelo.costo_local (ejecuta pb.modelo pb.x0 as) a := by
      rw [costoCamino_append]
      simp [costoCamino]
    rcases ihc hcam1 with ⟨e, he, i, hi, hes, hec⟩ | ⟨c, hVc, hcle, hdesc⟩
    · refine Or.inl ⟨e, he, i, by simp; omega, ?_, ?_⟩
      · rw [List.take_append_of_le_length hi]
        exact hes
      · rw [List.take_append_of_le_length hi]
        exact hec
    · obtain ⟨hmt, hch⟩ := hdesc
      obtain ⟨c₂, hc₂, hle₂⟩ := hch a hleg
      rcases hstat _ c₂ hc₂ with ⟨e, he, hes, hec⟩ | hd
      · refine Or.inl ⟨e, he, (as ++ [a]).length, le_refl _, ?_, ?_⟩
        · rw [List.take_length, hejec]
          exact hes
        · rw [List.take_length, hcost]
          omega
      · refine Or.inr ⟨c₂, ?_, ?_, ?_⟩
        · rw [hejec]
          exact hc₂
        · rw [hcost]
          omega
        · rw [hejec]
          exact hd

theorem estrella_loop_optimo (heuristica : Nodo σ α → Int) (pri : Int → Nodo σ α → Prop)
    (hpri : ∀ h : Nodo σ α, pri (h.costo + heuristica h) h)
    (hpri_costo : ∀ (p : Int) (m : Nodo σ α), Generado pb m → pri p m → m.costo ≤ p)
    (hpri_cota : ∀ (p : Int) (m : Nodo σ α), Generado pb m → pri p m →
      ∀ bs : List α, esCamino pb.modelo m.estado bs = true →
        pb.meta (ejecuta pb.modelo m.estado bs) = true →
        p ≤ m.costo + costoCamino pb.modelo m.estado bs) :
    ∀ (fuel : Nat) (F : List (Int × Nodo σ α)) (V : σ → Option Int),
      InvCU pb pri F V →
      ∀ n, estrella_loop pb heuristica fuel F V = some (some n) →
        ∀ as : List α, esCamino pb.modelo pb.x0 as = true →
          pb.meta (ejecuta pb.modelo pb.x0 as) = true →
          n.costo ≤ costoCamino pb.modelo pb.x0 as := by
  intro fuel
  induction fuel with
  | zero =>
    intro F V _ n h
    cases h
  | succ fuel ih =>
    intro F V hinv n hres
    match F with
    | [] => cases hres
    | e :: resto =>
      rw [estrella_loop] at hres
      simp only [heappop_fst] at hres
      obtain ⟨hheap, hgen, hx0c, hstat⟩ := hinv
      by_cases hm : pb.meta e.2.estado = true
      · rw [if_pos hm] at hres
        injection hres with hres
        injection hres with hres
        subst hres
        intro as hcam hmeta
        have hinv2 : InvCU pb pri (e :: resto) V := ⟨hheap, hgen, hx0c, hstat⟩
        rcases cobertura_cu hinv2 as hcam with
          ⟨e', he', i, hi, hes, hec⟩ | ⟨c, _, _, hdesc⟩
        · have hmin := isHeap_min_mem entryLt_irrefl entryLt_nlt_trans hheap
            (by simp : (e :: resto)[0]? = some e) e' he'
          have hle1 : e.1 ≤ e'.1 := by
            simp only [entryLt, Bool.or_eq_false_iff, decide_eq_false_iff_not] at hmin
            exact le_of_not_lt hmin.1
          obtain ⟨hge', hpri'⟩ := hgen e' he'
          obtain ⟨hge, hprie⟩ := hgen e (by simp)
          have hcosto_e : e.2.costo ≤ e.1 := hpri_costo e.1 e.2 hge hprie
          have htd : as.take i ++ as.drop i = as := List.take_append_drop i as
          have hcam2 : esCamino pb.modelo e'.2.estado (as.drop i) = true := by
            rw [hes]
            have h2 := hcam
            conv at h2 => rw [← htd]
            rw [esCamino_append] at h2
            simp only [Bool.and_eq_true] at h2
            exact h2.2
          have hej2 : ejecuta pb.modelo e'.2.estado (as.drop i) =
              ejecuta pb.modelo pb.x0 as := by
            rw [hes]
            conv_rhs => rw [← htd]
            rw [ejecuta_append]
          have hmeta2 : pb.meta (ejecuta pb.modelo e'.2.estado (as.drop i)) = true := by
            rw [hej2]
            exact hmeta
          have hcota := hpri_cota e'.1 e'.2 hge' hpri' (as.drop i) hcam2 hmeta2
          have hsplit : costoCamino pb.modelo pb.x0 as =
              costoCamino pb.modelo pb.x0 (as.take i) +
              costoCamino pb.modelo (ejecuta pb.modelo pb.x0 (as.take i)) (as.drop i) := by
            conv_lhs => rw [← htd]
            rw [costoCamino_append]
          rw [hes] at hcota
          omega
        · obtain ⟨hmf, _⟩ := hdesc
          rw [hmf] at hmeta
          cases hmeta
      · rw [if_neg hm] at hres
        have hge : Generado pb e.2 := (hgen e (by simp)).1
        have hmf : pb.meta e.2.estado = false := by simpa using hm
        have hpop_heap : IsHeap entryLt (heappop entryLt e resto).2 :=
          heappop_isHeap entryLt_irrefl entryLt_asymm entryLt_nlt_trans e resto hheap
        have hpop_gen : ∀ z ∈ (heappop entryLt e resto).2,
            Generado pb z.2 ∧ pri z.1 z.2 :=
          fun z hz => hgen z (heappop_mem_snd hz)
        have hsnd_perm : ((heappop entryLt e resto).2).Perm resto := by
          have hp := @heappop_perm (Int × Nodo σ α) entryLt e resto
          rw [heappop_fst] at hp
          exact hp.cons_inv
        have hstat2 : ∀ s c, V s = some c →
            (∃ z ∈ (heappop entryLt e resto).2, z.2.estado = s ∧ z.2.costo ≤ c) ∨
            DescartadoCU pb V s c ∨ (s = e.2.estado ∧ e.2.costo ≤ c) := by
          intro s c hsc
          rcases hstat s c hsc with ⟨z, hz, hzs, hzc⟩ | hd
          · rcases List.mem_cons.1 hz with rfl | hz2
            · exact Or.inr (Or.inr ⟨hzs.symm, hzc⟩)
            · exact Or.inl ⟨z, hsnd_perm.mem_iff.2 hz2, hzs, hzc⟩
          · exact Or.inr (Or.inl hd)
        have hfold := estrella_hijos_inv heuristica pri hpri e.2 hge hmf
          (e.2.expande pb.modelo) (heappop entryLt e resto).2 V
          (fun z hz => hz) hpop_heap hpop_gen hstat2
        obtain ⟨i1, i2, i3, i4, i5, i6⟩ := hfold
        have hx0c2 : ∃ c₀, (estrella_hijos heuristica (e.2.expande pb.modelo)
            (heappop entryLt e resto).2 V).2 pb.x0 = some c₀ ∧ c₀ ≤ 0 := by
          obtain ⟨c₀, hVx0, hc₀⟩ := hx0c
          obtain ⟨c₂, hc₂, hle₂⟩ := i4 pb.x0 c₀ hVx0
          exact ⟨c₂, hc₂, by omega⟩
        have hstat3 : ∀ s c, (estrella_hijos heuristica (e.2.expande pb.modelo)
            (heappop entryLt e resto).2 V).2 s = some c →
            (∃ z ∈ (estrella_hijos heuristica (e.2.expande pb.modelo)
              (heappop entryLt e resto).2 V).1, z.2.estado = s ∧ z.2.costo ≤ c) ∨
            DescartadoCU pb (estrella_hijos heuristica (e.2.expande pb.modelo)
              (heappop entryLt e resto).2 V).2 s c := by
          intro s c hsc
          rcases i6 s c hsc with hpend | hd | ⟨hseq, hcle⟩
          · exact Or.inl hpend
          · exact Or.inr hd
          · subst hseq
            refine Or.inr ⟨hmf, ?_⟩
            intro a ha
            obtain ⟨c₂, hc₂, hle₂⟩ := i5 (Nodo.hijo (pb.modelo.sucesor e.2.estado a)
              a e.2 (pb.modelo.costo_local e.2.estado a)) (mem_expande.2 ⟨a, ha, rfl⟩)
            refine ⟨c₂, hc₂, ?_⟩
            have hcosto : (Nodo.hijo (pb.modelo.sucesor e.2.estado a) a e.2
                (pb.modelo.costo_local e.2.estado a)).costo =
                e.2.costo + pb.modelo.costo_local e.2.estado a := rfl
            rw [hcosto] at hle₂
            omega
        exact ih _ _ ⟨i1, i3, hx0c2, hstat3⟩ n hres

/-- With non-negative step costs, a non-negative heuristic (on generated
nodes) that never overestimates the cost of any remaining goal path, any
node returned by `busqueda_A_estrella` realises the least goal cost. -/
theorem busqueda_A_estrella_optimo (heuristica : Nodo σ α → Int)
    (hc : ∀ s a, 0 ≤ pb.modelo.costo_local s a)
    (hh0 : ∀ m : Nodo σ α, Generado pb m → 0 ≤ heuristica m)
    (hadm : ∀ m : Nodo σ α, Generado pb m → ∀ bs : List α,
      esCamino pb.modelo m.estado bs = true →
      pb.meta (ejecuta pb.modelo m.estado bs) = true →
      heuristica m ≤ costoCamino pb.modelo m.estado bs)
    (fuel : Nat) (n : Nodo σ α)
    (hres : busqueda_A_estrella pb heuristica fuel = some (some n)) :
    IsLeast {c | MetaConCosto pb c} n.costo := by
  obtain ⟨hg, hm⟩ := busqueda_A_estrella_devuelto heuristica fuel n hres
  constructor
  · exact hg.metaConCosto hm
  · rintro c ⟨as, hcam, hmeta, hcost⟩
    rw [busqueda_A_estrella] at hres
    have hpri_costo : ∀ (p : Int) (m : Nodo σ α), Generado pb m →
        (p = m.costo + heuristica m ∨ (p = 0 ∧ m.costo = 0)) → m.costo ≤ p := by
      rintro p m hgm (rfl | ⟨rfl, hm0⟩)
      · have := hh0 m hgm
        omega
      · omega
    have hpri_cota : ∀ (p : Int) (m : Nodo σ α), Generado pb m →
        (p = m.costo + heuristica m ∨ (p = 0 ∧ m.costo = 0)) →
        ∀ bs : List α, esCamino pb.modelo m.estado bs = true →
          pb.meta (ejecuta pb.modelo m.estado bs) = true →
          p ≤ m.costo + costoCamino pb.modelo m.estado bs := by
      rintro p m hgm (rfl | ⟨rfl, hm0⟩) bs hbs hmbs
      · have := hadm m hgm bs hbs hmbs
        omega
      · have := costoCamino_nonneg hc m.estado bs
        omega
    have hroot0 : (@Nodo.root σ α pb.x0).costo = 0 := rfl
    have hinv : InvCU pb (fun p m => p = m.costo + heuristica m ∨ (p = 0 ∧ m.costo = 0))
        (heappush entryLt [] (0, Nodo.root pb.x0)) (updMap (fun _ => none) pb.x0 0) := by
      refine ⟨heappush_isHeap entryLt_irrefl entryLt_asymm entryLt_nlt_trans _ _ isHeap_nil,
        ?_, ⟨0, by simp [updMap], le_refl 0⟩, ?_⟩
      · intro z hz
        rcases heappush_mem hz with rfl | hz2
        · exact ⟨Generado.root, Or.inr ⟨rfl, hroot0⟩⟩
        · cases hz2
      · intro s k hsk
        rw [updMap_lookup] at hsk
        by_cases hs : s = pb.x0
        · rw [if_pos hs] at hsk
          injection hsk with hsk
          subst hs
          refine Or.inl ⟨(0, Nodo.root pb.x0), mem_heappush_self _ _, rfl, ?_⟩
          rw [hroot0]
          omega
        · rw [if_neg hs] at hsk
          cases hsk
    have hopt := estrella_loop_optimo heuristica
      (fun p m => p = m.costo + heuristica m ∨ (p = 0 ∧ m.costo = 0))
      (fun h => Or.inl rfl) hpri_costo hpri_cota fuel _ _ hinv n hres as hcam hmeta
    rw [hcost] at hopt
    exact hopt

/-- With non-negative step costs, any node returned by
`busqueda_costo_uniforme` realises the least goal cost. -/
theorem busqueda_costo_uniforme_optimo
    (hc : ∀ s a, 0 ≤ pb.modelo.costo_local s a) (fuel : Nat) (n : Nodo σ α)
    (hres : busqueda_costo_uniforme pb fuel = some (some n)) :
    IsLeast {c | MetaConCosto pb c} n.costo := by
  obtain ⟨hg, hm⟩ := busqueda_costo_uniforme_devuelto fuel n hres
  constructor
  · exact hg.metaConCosto hm
  · rintro c ⟨as, hcam, hmeta, hcost⟩
    rw [busqueda_costo_uniforme, ← estrella_loop_zero] at hres
    have hpri_costo : ∀ (p : Int) (m : Nodo σ α), Generado pb m →
        p = m.costo → m.costo ≤ p := by
      rintro p m _ rfl
      exact le_refl _
    have hpri_cota : ∀ (p : Int) (m : Nodo σ α), Generado pb m → p = m.costo →
        ∀ bs : List α, esCamino pb.modelo m.estado bs = true →
          pb.meta (ejecuta pb.modelo m.estado bs) = true →
          p ≤ m.costo + costoCamino pb.modelo m.estado bs := by
      rintro p m _ rfl bs hbs hmbs
      have := costoCamino_nonneg hc m.estado bs
      omega
    have hinv : InvCU pb (fun p m => p = m.costo)
        (heappush entryLt [] (0, Nodo.root pb.x0)) (updMap (fun _ => none) pb.x0 0) := by
      refine ⟨heappush_isHeap entryLt_irrefl entryLt_asymm entryLt_nlt_trans _ _ isHeap_nil,
        ?_, ⟨0, by simp [updMap], le_refl 0⟩, ?_⟩
      · intro z hz
        rcases heappush_mem hz with rfl | hz2
        · exact ⟨Generado.root, rfl⟩
        · cases hz2
      · intro s k hsk
        rw [updMap_lookup] at hsk
        by_cases hs : s = pb.x0
        · rw [if_pos hs] at hsk
          injection hsk with hsk
          subst hs
          refine Or.inl ⟨(0, Nodo.root pb.x0), mem_heappush_self _ _, rfl, ?_⟩
          have hroot0 : (@Nodo.root σ α pb.x0).costo = 0 := rfl
          rw [hroot0]
          omega
        · rw [if_neg hs] at hsk
          cases hsk
    have hopt := estrella_loop_optimo (fun _ => 0) (fun p m => p = m.costo)
      (fun h => add_zero _) hpri_costo hpri_cota fuel _ _ hinv n hres as hcam hmeta
    rw [hcost] at hopt
    exact hopt

end CorreccionCU

section EvaluacionHeap

variable {E : Type}

theorem heappush_nil (lt : E → E → Bool) (item : E) :
    heappush lt [] item = [item] := by
  show siftdownAux lt item [item] 0 = [item]
  rw [siftdownAux]
  rfl

theorem heappush_uno (lt : E → E → Bool) (x item : E) (h : lt item x = false) :
    heappush lt [x] item = [x, item] := by
  show siftdownAux lt item [x, item] 1 = [x, item]
  rw [siftdownAux]
  simp [h]

end EvaluacionHeap

section Claims3

variable {σ α : Type} [DecidableEq σ] [DecidableEq α]

/-- C1: with non-negative step costs, any node returned by
`busqueda_costo_uniforme` has a cumulative cost that is the least cost of
any legal action path from the initial state to a goal state; the same
holds for `busqueda_A_estrella` when the heuristic is non-negative on
engine-generated nodes (as its documented contract demands) and never
overestimates the cost of any remaining goal path. -/
theorem claim_C1 (pb : ProblemaBusqueda σ α)
    (hc : ∀ s a, 0 ≤ pb.modelo.costo_local s a) (fuel : Nat) (n : Nodo σ α) :
    (busqueda_costo_uniforme pb fuel = some (some n) →
      IsLeast {c | MetaConCosto pb c} n.costo) ∧
    (∀ heuristica : Nodo σ α → Int,
      (∀ m : Nodo σ α, Generado pb m → 0 ≤ heuristica m) →
      (∀ m : Nodo σ α, Generado pb m → ∀ bs : List α,
        esCamino pb.modelo m.estado bs = true →
        pb.meta (ejecuta pb.modelo m.estado bs) = true →
        heuristica m ≤ costoCamino pb.modelo m.estado bs) →
      busqueda_A_estrella pb heuristica fuel = some (some n) →
      IsLeast {c | MetaConCosto pb c} n.costo) :=
  ⟨busqueda_costo_uniforme_optimo hc fuel n,
   fun heuristica hh0 hadm => busqueda_A_estrella_optimo heuristica hc hh0 hadm fuel n⟩

theorem claim_C1_witness :
    (∀ s a, (0 : Int) ≤ problemaLinea.modelo.costo_local s a) ∧
    busqueda_costo_uniforme problemaLinea 2 =
      some (some (Nodo.hijo 1 0 (Nodo.root 0) 1)) ∧
    busqueda_A_estrella problemaLinea (fun _ => 0) 2 =
      some (some (Nodo.hijo 1 0 (Nodo.root 0) 1)) ∧
    IsLeast {c | MetaConCosto problemaLinea c} (Nodo.hijo 1 0 (Nodo.root 0) 1).costo ∧
    IsLeast {c | MetaConCosto problemaLinea c} (Nodo.hijo 1 0 (Nodo.root 0) 1).costo := by
  have hcl : ∀ (s : Nat) (a : Nat), (0 : Int) ≤ problemaLinea.modelo.costo_local s a :=
    fun _ _ => (by decide : (0 : Int) ≤ 1)
  have hucs : busqueda_costo_uniforme problemaLinea 2 =
      some (some (Nodo.hijo 1 0 (Nodo.root 0) 1)) := by
    have h1 : busqueda_costo_uniforme problemaLinea 2 =
        uniforme_loop problemaLinea 2 [((0 : Int), Nodo.root 0)]
          (updMap (fun _ => none) 0 0) := by
      rw [busqueda_costo_uniforme, heappush_nil]
      rfl
    have h2 : uniforme_loop problemaLinea 2 [((0 : Int), Nodo.root 0)]
        (updMap (fun _ => none) 0 0) =
        uniforme_loop problemaLinea 1
          (heappush entryLt [] ((1 : Int), Nodo.hijo 1 0 (Nodo.root 0) 1))
          (updMap (updMap (fun _ => none) 0 0) 1 1) := rfl
    have h3 : uniforme_loop problemaLinea 1
        [((1 : Int), Nodo.hijo 1 0 (Nodo.root 0) 1)]
        (updMap (updMap (fun _ => none) 0 0) 1 1) =
        some (some (Nodo.hijo 1 0 (Nodo.root 0) 1)) := rfl
    rw [h1, h2, heappush_nil, h3]
  have hast : busqueda_A_estrella problemaLinea (fun _ => 0) 2 =
      some (some (Nodo.hijo 1 0 (Nodo.root 0) 1)) := by
    have h1 : busqueda_A_estrella problemaLinea (fun _ => 0) 2 =
        estrella_loop problemaLinea (fun _ => 0) 2 [((0 : Int), Nodo.root 0)]
          (updMap (fun _ => none) 0 0) := by
      rw [busqueda_A_estrella, heappush_nil]
      rfl
    have h2 : estrella_loop problemaLinea (fun _ => 0) 2 [((0 : Int), Nodo.root 0)]
        (updMap (fun _ => none) 0 0) =
        estrella_loop problemaLinea (fun _ => 0) 1
          (heappush entryLt [] ((1 : Int), Nodo.hijo 1 0 (Nodo.root 0) 1))
          (updMap (updMap (fun _ => none) 0 0) 1 1) := rfl
    have h3 : estrella_loop problemaLinea (fun _ => 0) 1
        [((1 : Int), Nodo.hijo 1 0 (Nodo.root 0) 1)]
        (updMap (updMap (fun _ => none) 0 0) 1 1) =
        some (some (Nodo.hijo 1 0 (Nodo.root 0) 1)) := rfl
    rw [h1, h2, heappush_nil, h3]
  have h := claim_C1 problemaLinea hcl 2 (Nodo.hijo 1 0 (Nodo.root 0) 1)
  exact ⟨hcl, hucs, hast, h.1 hucs,
    h.2 (fun _ => 0) (fun m _ => le_refl 0)
      (fun m _ bs _ _ => costoCamino_nonneg hcl m.estado bs) hast⟩

/-- C2 counterexample: `problemaLinea` has minimum solution depth 1, yet
`busqueda_profundidad_iterativa` with ceiling 1 returns None for every
fuel: Python's `range(max_profundidad)` excludes the ceiling itself, so
the round with bound 1 is never run. -/
theorem claim_C2_contra :
    MetaEnProfundidad problemaLinea 1 ∧
    (∀ k, MetaEnProfundidad problemaLinea k → 1 ≤ k) ∧
    busqueda_profundidad_iterativa problemaLinea 1 2 = some none ∧
    (∀ fuel n, busqueda_profundidad_iterativa problemaLinea 1 fuel ≠ some (some n)) := by
  have hmin : ∀ k, MetaEnProfundidad problemaLinea k → 1 ≤ k := by
    intro k hk
    obtain ⟨as, hlen, _, hmeta⟩ := hk
    match k, hlen with
    | 0, hlen =>
      have hnil : as = [] := List.length_eq_zero.1 hlen
      subst hnil
      simp [ejecuta, problemaLinea] at hmeta
    | k + 1, _ => omega
  refine ⟨⟨[0], rfl, rfl, rfl⟩, hmin, rfl, ?_⟩
  intro fuel n hres
  rw [busqueda_profundidad_iterativa] at hres
  have hlist : (List.range (1 : Int).toNat).map Int.ofNat = [Int.ofNat 0] := rfl
  rw [hlist, bpi_loop] at hres
  match hr : busqueda_profundo problemaLinea (some (Int.ofNat 0)) fuel with
  | none =>
    rw [hr] at hres
    have h2 : (none : Option (Option (Nodo Nat Nat))) = some (some n) := hres
    cases h2
  | some none =>
    rw [hr] at hres
    have h2 : (some none : Option (Option (Nodo Nat Nat))) = some (some n) := hres
    simp at h2
  | some (some n₂) =>
    rw [hr] at hres
    have h2 : (some (some n₂) : Option (Option (Nodo Nat Nat))) = some (some n) := hres
    injection h2 with h2
    injection h2 with h2
    rw [h2] at hr
    obtain ⟨hg, hm⟩ := busqueda_profundo_devuelto _ fuel n hr
    have hcota := busqueda_profundo_acotado (Int.ofNat 0) (le_refl _) fuel n hr
    have hcota2 : (n.profundidad : Int) ≤ ((0 : Nat) : Int) := hcota
    have h1 := hmin n.profundidad (hg.metaEnProfundidad hm)
    omega

/-- C2 (amended): on a finite closed state space whose minimum solution
depth `d` is strictly below the supplied ceiling, iterative deepening
returns a node of depth exactly `d` for sufficient fuel, and every node
it can return has depth `d`; the claimed boundary case `d = ceiling` is
excluded because Python's `range` stops one short of the ceiling. -/
theorem claim_C2 (pb : ProblemaBusqueda σ α) (S : Finset σ) (hS0 : pb.x0 ∈ S)
    (hScl : ∀ s ∈ S, ∀ a ∈ pb.modelo.acciones_legales s, pb.modelo.sucesor s a ∈ S)
    (d : Nat) (ceiling : Int)
    (hd : IsLeast {k | MetaEnProfundidad pb k} d)
    (hlt : (d : Int) < ceiling) :
    (∃ fuel n, busqueda_profundidad_iterativa pb ceiling fuel = some (some n) ∧
      n.profundidad = d) ∧
    (∀ fuel n, busqueda_profundidad_iterativa pb ceiling fuel = some (some n) →
      n.profundidad = d) := by
  have hlen : d < ceiling.toNat := by omega
  constructor
  · have hter : ∀ p : Nat, ∃ fuel r,
        busqueda_profundo pb (some (Int.ofNat p)) fuel = some r :=
      fun p => busqueda_profundo_termina (some (Int.ofNat p)) hS0 hScl
    obtain ⟨fuel, n, hres, hprof⟩ := bpi_existe d hd hter ceiling.toNat 0
      (by omega) (by omega)
    refine ⟨fuel, n, ?_, hprof⟩
    rw [busqueda_profundidad_iterativa, List.range_eq_range']
    exact hres
  · intro fuel n hres
    rw [busqueda_profundidad_iterativa, List.range_eq_range'] at hres
    exact bpi_rounds d hd ceiling.toNat 0 fuel n (by omega) hres

theorem claim_C2_witness :
    (0 : Nat) ∈ ({0, 1} : Finset Nat) ∧
    IsLeast {k | MetaEnProfundidad problemaLinea k} 1 ∧
    ((1 : Nat) : Int) < 2 ∧
    (∃ fuel n, busqueda_profundidad_iterativa problemaLinea 2 fuel = some (some n) ∧
      n.profundidad = 1) ∧
    (∀ fuel n, busqueda_profundidad_iterativa problemaLinea 2 fuel = some (some n) →
      n.profundidad = 1) := by
  have hd : IsLeast {k | MetaEnProfundidad problemaLinea k} 1 := by
    constructor
    · exact ⟨[0], rfl, rfl, rfl⟩
    · intro k hk
      obtain ⟨as, hlen, _, hmeta⟩ := hk
      match k, hlen with
      | 0, hlen =>
        have hnil : as = [] := List.length_eq_zero.1 hlen
        subst hnil
        simp [ejecuta, problemaLinea] at hmeta
      | k + 1, _ => omega
  have h := claim_C2 problemaLinea {0, 1} (by decide) (by decide) 1 2 hd (by omega)
  exact ⟨by decide, hd, by omega, h.1, h.2⟩

/-- C6: on a finite closed state space in which no reachable state is a
goal, all five strategies terminate with the explicit no-solution value
and can never return a node; the cost-ordered strategies are covered
under non-negative step costs. -/
theorem claim_C6 (pb : ProblemaBusqueda σ α) (S : Finset σ) (hS0 : pb.x0 ∈ S)
    (hScl : ∀ s ∈ S, ∀ a ∈ pb.modelo.acciones_legales s, pb.modelo.sucesor s a ∈ S)
    (hng : ∀ (k : Nat) (s : σ), AlcanzableEn pb k s → pb.meta s = false) :
    ((∃ fuel, busqueda_ancho pb fuel = some none) ∧
     (∀ fuel n, busqueda_ancho pb fuel ≠ some (some n))) ∧
    (∀ maxd, (∃ fuel, busqueda_profundo pb maxd fuel = some none) ∧
     (∀ fuel n, busqueda_profundo pb maxd fuel ≠ some (some n))) ∧
    (∀ ceiling : Int,
     (∃ fuel, busqueda_profundidad_iterativa pb ceiling fuel = some none) ∧
     (∀ fuel n, busqueda_profundidad_iterativa pb ceiling fuel ≠ some (some n))) ∧
    ((∀ s a, 0 ≤ pb.modelo.costo_local s a) →
     ((∃ fuel, busqueda_costo_uniforme pb fuel = some none) ∧
      (∀ fuel n, busqueda_costo_uniforme pb fuel ≠ some (some n)) ∧
      (∀ heuristica : Nodo σ α → Int,
        (∃ fuel, busqueda_A_estrella pb heuristica fuel = some none) ∧
        (∀ fuel n, busqueda_A_estrella pb heuristica fuel ≠ some (some n))))) := by
  have hno : ∀ n : Nodo σ α, Generado pb n → pb.meta n.estado = true → False := by
    intro n hg hm
    have hf := hng n.profundidad n.estado hg.alcanzable
    rw [hf] at hm
    cases hm
  refine ⟨⟨?_, ?_⟩, ?_, ?_, ?_⟩
  · obtain ⟨fuel, r, hf⟩ := busqueda_ancho_termina hS0 hScl
    match r, hf with
    | none, hf => exact ⟨fuel, hf⟩
    | some n, hf =>
      obtain ⟨hg, hm⟩ := busqueda_ancho_devuelto fuel n hf
      exact absurd hm (fun hm => hno n hg hm)
  · intro fuel n hf
    obtain ⟨hg, hm⟩ := busqueda_ancho_devuelto fuel n hf
    exact hno n hg hm
  · intro maxd
    constructor
    · obtain ⟨fuel, r, hf⟩ := busqueda_profundo_termina maxd hS0 hScl
      match r, hf with
      | none, hf => exact ⟨fuel, hf⟩
      | some n, hf =>
        obtain ⟨hg, hm⟩ := busqueda_profundo_devuelto maxd fuel n hf
        exact absurd hm (fun hm => hno n hg hm)
    · intro fuel n hf
      obtain ⟨hg, hm⟩ := busqueda_profundo_devuelto maxd fuel n hf
      exact hno n hg hm
  · intro ceiling
    have hbpi : ∀ ps : List Int, ∃ fuel, bpi_loop pb fuel ps = some none := by
      intro ps
      induction ps with
      | nil => exact ⟨0, rfl⟩
      | cons p rest ih =>
        obtain ⟨fuel₁, r₁, hr₁⟩ := busqueda_profundo_termina (some p) hS0 hScl
        obtain ⟨fuelR, hR⟩ := ih
        match r₁, hr₁ with
        | some n₁, hr₁ =>
          exfalso
          obtain ⟨hg, hm⟩ := busqueda_profundo_devuelto (some p) fuel₁ n₁ hr₁
          exact hno n₁ hg hm
        | none, hr₁ =>
          refine ⟨max fuel₁ fuelR, ?_⟩
          have hr₁m := busqueda_profundo_mono _ _ (max fuel₁ fuelR) _ (le_max_left _ _) hr₁
          have hRm := bpi_loop_mono _ _ (max fuel₁ fuelR) _ (le_max_right _ _) hR
          rw [bpi_loop, hr₁m]
          exact hRm
    constructor
    · obtain ⟨fuel, hf⟩ := hbpi ((List.range ceiling.toNat).map Int.ofNat)
      refine ⟨fuel, ?_⟩
      rw [busqueda_profundidad_iterativa]
      exact hf
    · intro fuel n hf
      obtain ⟨hg, hm⟩ := busqueda_bpi_devuelto ceiling fuel n hf
      exact hno n hg hm
  · intro hc
    refine ⟨?_, ?_, ?_⟩
    · obtain ⟨fuel, r, hf⟩ := busqueda_costo_uniforme_termina hS0 hScl hc
      match r, hf with
      | none, hf => exact ⟨fuel, hf⟩
      | some n, hf =>
        obtain ⟨hg, hm⟩ := busqueda_costo_uniforme_devuelto fuel n hf
        exact absurd hm (fun hm => hno n hg hm)
    · intro fuel n hf
      obtain ⟨hg, hm⟩ := busqueda_costo_uniforme_devuelto fuel n hf
      exact hno n hg hm
    · intro heuristica
      constructor
      · obtain ⟨fuel, r, hf⟩ := busqueda_A_estrella_termina heuristica hS0 hScl hc
        match r, hf with
        | none, hf => exact ⟨fuel, hf⟩
        | some n, hf =>
          obtain ⟨hg, hm⟩ := busqueda_A_estrella_devuelto heuristica fuel n hf
          exact absurd hm (fun hm => hno n hg hm)
      · intro fuel n hf
        obtain ⟨hg, hm⟩ := busqueda_A_estrella_devuelto heuristica fuel n hf
        exact hno n hg hm

theorem claim_C6_witness :
    (0 : Nat) ∈ ({0, 1} : Finset Nat) ∧
    (∀ (k : Nat) (s : Nat), AlcanzableEn problemaSinMeta k s →
      problemaSinMeta.meta s = false) ∧
    (∃ fuel, busqueda_ancho problemaSinMeta fuel = some none) ∧
    (∃ fuel, busqueda_profundo problemaSinMeta (some 3) fuel = some none) ∧
    (∃ fuel, busqueda_profundidad_iterativa problemaSinMeta 4 fuel = some none) ∧
    (∃ fuel, busqueda_costo_uniforme problemaSinMeta fuel = some none) ∧
    (∃ fuel, busqueda_A_estrella problemaSinMeta (fun _ => 0) fuel = some none) := by
  have h := claim_C6 problemaSinMeta {0, 1} (by decide) (by decide) (fun k s _ => rfl)
  have hcu := h.2.2.2 (fun _ _ => (by decide : (0 : Int) ≤ 1))
  exact ⟨by decide, fun k s _ => rfl, h.1.1, (h.2.1 (some 3)).1, (h.2.2.1 4).1,
    hcu.1, (hcu.2.2 (fun _ => 0)).1⟩

/-- C8: in both cost-ordered searches, the entry popped from any
reachable frontier is the heap head, no remaining entry has a strictly
smaller priority, and among entries tied on priority none has a node of
strictly smaller depth. -/
theorem claim_C8 (pb : ProblemaBusqueda σ α) (heuristica : Nodo σ α → Int)
    (e : Int × Nodo σ α) (resto : List (Int × Nodo σ α)) (V : σ → Option Int) :
    (UcsEstado pb (e :: resto) V →
      (heappop entryLt e resto).1 = e ∧
      ∀ z ∈ (heappop entryLt e resto).2,
        ¬ (z.1 < e.1) ∧ (z.1 = e.1 → ¬ (z.2.profundidad < e.2.profundidad))) ∧
    (EstrellaEstado pb heuristica (e :: resto) V →
      (heappop entryLt e resto).1 = e ∧
      ∀ z ∈ (heappop entryLt e resto).2,
        ¬ (z.1 < e.1) ∧ (z.1 = e.1 → ¬ (z.2.profundidad < e.2.profundidad))) := by
  have hmain : IsHeap entryLt (e :: resto) →
      (heappop entryLt e resto).1 = e ∧
      ∀ z ∈ (heappop entryLt e resto).2,
        ¬ (z.1 < e.1) ∧ (z.1 = e.1 → ¬ (z.2.profundidad < e.2.profundidad)) := by
    intro hheap
    refine ⟨heappop_fst e resto, ?_⟩
    intro z hz
    have hzmem : z ∈ e :: resto := heappop_mem_snd hz
    have hmin := isHeap_min_mem entryLt_irrefl entryLt_nlt_trans hheap
      (by simp : (e :: resto)[0]? = some e) z hzmem
    simp only [entryLt, Nodo.lt, Bool.or_eq_false_iff, Bool.and_eq_false_iff,
      decide_eq_false_iff_not, beq_iff_eq, beq_eq_false_iff_ne, ne_eq] at hmin
    refine ⟨hmin.1, ?_⟩
    intro hpq
    rcases hmin.2 with h1 | h1
    · exact absurd hpq h1
    · exact h1
  exact ⟨fun h => hmain (ucsEstado_isHeap h), fun h => hmain (estrellaEstado_isHeap h)⟩

theorem claim_C8_witness :
    ((heappop entryLt ((1 : Int), Nodo.hijo 1 0 (Nodo.root 0) 1)
        [((1 : Int), Nodo.hijo 2 1 (Nodo.root 0) 1)]).1 =
      ((1 : Int), Nodo.hijo 1 0 (Nodo.root 0) 1)) ∧
    (∀ z ∈ (heappop entryLt ((1 : Int), Nodo.hijo 1 0 (Nodo.root 0) 1)
        [((1 : Int), Nodo.hijo 2 1 (Nodo.root 0) 1)]).2,
      ¬ (z.1 < (1 : Int)) ∧
      (z.1 = 1 →
        ¬ (z.2.profundidad < (Nodo.hijo (1 : Nat) (0 : Nat) (Nodo.root 0)
          (1 : Int)).profundidad))) := by
  have hinit : UcsEstado problemaDiamante
      (heappush entryLt [] (0, Nodo.root problemaDiamante.x0))
      (updMap (fun _ => none) problemaDiamante.x0 0) := UcsEstado.init
  rw [heappush_nil] at hinit
  have hstep := UcsEstado.step ((0 : Int), Nodo.root problemaDiamante.x0) []
    (updMap (fun _ => none) problemaDiamante.x0 0) hinit rfl
  have h0 : (uniforme_hijos
      ((heappop entryLt ((0 : Int), Nodo.root problemaDiamante.x0) []).1.2.expande
        problemaDiamante.modelo)
      (heappop entryLt ((0 : Int), Nodo.root problemaDiamante.x0) []).2
      (updMap (fun _ => none) problemaDiamante.x0 0)).1 =
      heappush entryLt (heappush entryLt [] ((1 : Int), Nodo.hijo 1 0 (Nodo.root 0) 1))
        ((1 : Int), Nodo.hijo 2 1 (Nodo.root 0) 1) := rfl
  have hF : (uniforme_hijos
      ((heappop entryLt ((0 : Int), Nodo.root problemaDiamante.x0) []).1.2.expande
        problemaDiamante.modelo)
      (heappop entryLt ((0 : Int), Nodo.root problemaDiamante.x0) []).2
      (updMap (fun _ => none) problemaDiamante.x0 0)).1 =
      (((1 : Int), Nodo.hijo 1 0 (Nodo.root 0) 1) ::
        [((1 : Int), Nodo.hijo 2 1 (Nodo.root 0) 1)]) := by
    rw [h0, heappush_nil, heappush_uno]
    rfl
  rw [hF] at hstep
  have h := claim_C8 problemaDiamante (fun _ => 0)
    ((1 : Int), Nodo.hijo 1 0 (Nodo.root 0) 1)
    [((1 : Int), Nodo.hijo 2 1 (Nodo.root 0) 1)]
    (uniforme_hijos
      ((heappop entryLt ((0 : Int), Nodo.root problemaDiamante.x0) []).1.2.expande
        problemaDiamante.modelo)
      (heappop entryLt ((0 : Int), Nodo.root problemaDiamante.x0) []).2
      (updMap (fun _ => none) problemaDiamante.x0 0)).2
  exact ⟨(h.1 hstep).1, (h.1 hstep).2⟩

end Claims3

end Busquedas
